import Mathlib

/-!
Verification of the salvador ZX0 compressor core (src/shrink.c).

The development shallowly embeds the bit writer, the Elias-gamma writer,
the block emitter `salvador_write_block`, the optimal forward parser
`salvador_optimize_forward`, the match-supplementation pass, and the
driver loop of `salvador_compress`, and proves / refutes the frozen
claims about them.  Machine integers are modelled as `Nat` (with explicit
masks where the C code truncates); fallible write paths (returning -1 in
C) are modelled with `Option`.
-/

set_option linter.unnecessarySeqFocus false
set_option linter.unnecessarySimpa false

namespace Salvador

/-- MIN_OFFSET of the ZX0 format.  Modelled from the spec: `format.h` is not
part of `src/`; the spec states "Offsets are in `[1, max_offset]`". -/
def MIN_OFFSET : Nat := 1

/-- MAX_OFFSET of the ZX0 format.  Modelled from the spec: `format.h` is not
part of `src/`.  Per spec section 6 the offset high part `((offset-1) >> 7) + 1`
is gamma coded and the value 256 terminates decoding, so representable offsets
reach `255 * 128 = 32640`. -/
def MAX_OFFSET : Nat := 32640

/-- MIN_ENCODED_MATCH_SIZE (shrink.c line 39). -/
def MIN_ENCODED_MATCH_SIZE : Nat := 2

/-- TOKEN_SIZE (shrink.c line 40). -/
def TOKEN_SIZE : Nat := 1

/-- State of the output bit stream: the bytes written so far (`out`, whose
length is the C `nOutOffset`), and the position of the byte currently being
filled with bits together with the next bit position in it
(`bitsOff = some (nCurBitsOffset, nCurBitShift)`; `none` is the C sentinel
`INT_MIN`, meaning a fresh byte is allocated on the next bit). -/
structure BWState where
  out : List Nat
  bitsOff : Option (Nat × Nat)
  deriving Repr, DecidableEq

/-- Overwrite the byte at index `idx` of the output (a C pointer store into
the buffer). -/
def patchByte (st : BWState) (idx v : Nat) : BWState :=
  { st with out := st.out.set idx v }

/-- Pack a single bit `b` into the stream, with capacity check: the body of the
loop of `salvador_write_bits` (shrink.c lines 61-77).  Allocating a fresh zero
byte and or-ing `b <<< 7` into it is merged into appending `b <<< 7`. -/
def writeBit1 (nMaxOutDataSize : Nat) (b : Nat) (st : BWState) : Option BWState :=
  match st.bitsOff with
  | none =>
      if nMaxOutDataSize ≤ st.out.length then none
      else some { out := st.out ++ [b <<< 7], bitsOff := some (st.out.length, 6) }
  | some (i, s) =>
      some { out := st.out.set i ((st.out.getD i 0) ||| (b <<< s)),
             bitsOff := if s = 0 then none else some (i, s - 1) }

/-- salvador_write_bits (shrink.c lines 56-80): write the `nBits` least
significant bits of `nValue`, most significant first.  A stream that has
already failed (`none`, the C `nOutOffset < 0`) propagates. -/
def salvador_write_bits (nMaxOutDataSize : Nat) (nValue : Nat) (nBits : Nat)
    (s : Option BWState) : Option BWState :=
  match s with
  | none => none
  | some st =>
      (List.range nBits).reverse.foldl
        (fun acc i => acc.bind (writeBit1 nMaxOutDataSize ((nValue >>> i) &&& 1)))
        (some st)

/-- salvador_get_elias_size (shrink.c lines 89-105).  The doubling loop counts
the bits of `nValue` below its leading 1, emitting two bits for each plus the
final terminator, which is `2 * log2 nValue + 1` (and 1 for `nValue ≤ 1`,
matching `Nat.log2`). -/
def log2F : Nat → Nat → Nat
  | 0, _ => 0
  | f + 1, n => if 2 ≤ n then log2F f (n / 2) + 1 else 0

theorem log2F_eq : ∀ (f n : Nat), n ≤ f → log2F f n = Nat.log2 n := by
  intro f
  induction f with
  | zero =>
      intro n hn
      have h0 : n = 0 := by omega
      subst h0
      rw [show log2F 0 0 = 0 from rfl, Nat.log2]
      norm_num
  | succ f ih =>
      intro n hn
      rw [show log2F (f + 1) n = (if 2 ≤ n then log2F f (n / 2) + 1 else 0) from rfl,
        Nat.log2]
      by_cases h2 : 2 ≤ n
      · rw [if_pos h2, if_pos h2, ih (n / 2) (by omega)]
      · rw [if_neg h2, if_neg h2]

theorem log2F_self (v : Nat) : log2F v v = Nat.log2 v := log2F_eq v v (le_refl v)

def salvador_get_elias_size (nValue : Nat) : Nat := 2 * log2F nValue nValue + 1

/-- The data bits of the gamma code of `v`: the bits of `v` below its leading
1, high to low.  These are the bits `nValue & i` visited by the mask loop of
`salvador_write_elias_value` (shrink.c lines 124-140). -/
def eliasDataBits (v : Nat) : List Nat :=
  (List.range (log2F v v)).reverse.map (fun j => (v >>> j) &&& 1)

/-- The loop of salvador_write_elias_value (shrink.c lines 128-148), recursing
over the data bits.  `nFirstBit = some idx` is the C pointer into the output
buffer whose LSB receives the first emitted bit; it is consumed (set to `none`)
on the first bit. -/
def salvador_write_elias_loop (nMaxOutDataSize : Nat) (nIsInverted : Bool)
    (nFirstBit : Option Nat) (s : Option BWState) : List Nat → Option BWState
  | [] =>
      match nFirstBit, s with
      | some idx, some st =>
          some { st with out := st.out.set idx (((st.out.getD idx 0) &&& 0xfe) ||| 1) }
      | some _, none => none
      | none, s => salvador_write_bits nMaxOutDataSize 1 1 s
  | b :: rest =>
      let s1 : Option BWState :=
        match nFirstBit, s with
        | some idx, some st =>
            some { st with out := st.out.set idx ((st.out.getD idx 0) &&& 0xfe) }
        | some _, none => none
        | none, s => salvador_write_bits nMaxOutDataSize 0 1 s
      salvador_write_elias_loop nMaxOutDataSize nIsInverted none
        (salvador_write_bits nMaxOutDataSize (if nIsInverted then 1 - b else b) 1 s1) rest

/-- salvador_write_elias_value (shrink.c lines 121-151). -/
def salvador_write_elias_value (nMaxOutDataSize : Nat) (nValue : Nat) (nIsInverted : Bool)
    (nFirstBit : Option Nat) (s : Option BWState) : Option BWState :=
  salvador_write_elias_loop nMaxOutDataSize nIsInverted nFirstBit s (eliasDataBits nValue)

/-- salvador_get_literals_varlen_size (shrink.c lines 160-165). -/
def salvador_get_literals_varlen_size (nLength : Nat) : Nat :=
  if 0 < nLength then TOKEN_SIZE + salvador_get_elias_size nLength else 0

/-- salvador_write_literals_varlen (shrink.c lines 177-179). -/
def salvador_write_literals_varlen (nMaxOutDataSize : Nat) (nLength : Nat)
    (s : Option BWState) : Option BWState :=
  salvador_write_elias_value nMaxOutDataSize nLength false none s

/-- salvador_get_match_varlen_size_norep (shrink.c line 189).  The encoded
length is `Int` because the emitter computes `nMatchLen - 2`, which is `-1`
for length-1 rep matches. -/
def salvador_get_match_varlen_size_norep (nLength : Int) : Nat :=
  salvador_get_elias_size (nLength + 1).toNat

/-- salvador_get_match_varlen_size_rep (shrink.c line 199). -/
def salvador_get_match_varlen_size_rep (nLength : Int) : Nat :=
  salvador_get_elias_size (nLength + 1 + 1).toNat

/-- salvador_write_match_varlen (shrink.c lines 213-215). -/
def salvador_write_match_varlen (nMaxOutDataSize : Nat) (nLength : Int) (nIsRepMatch : Bool)
    (nFirstBit : Option Nat) (s : Option BWState) : Option BWState :=
  salvador_write_elias_value nMaxOutDataSize (nLength + 1 + (if nIsRepMatch then 1 else 0)).toNat
    false nFirstBit s

/-- OFFSET_COST (shrink.c line 41). -/
def OFFSET_COST (nOffset : Nat) : Nat :=
  if nOffset ≤ 128 then 8 else 7 + salvador_get_elias_size (((nOffset - 1) >>> 7) + 1)

/-! ### Abstract token stream

The emitter interleaves single bits (packed MSB-first into lazily allocated
byte slots) with raw bytes.  `Tok` records this sequence abstractly; `pack`
realizes it into a byte buffer exactly as the bit writer does, and `writeToks`
is the capacity-checked version. -/

inductive Tok where
  | bit (b : Nat)
  | byte (v : Nat)
  deriving Repr, DecidableEq

/-- Capacity-free single-bit packer (the action of `writeBit1` on success). -/
def packBit (st : BWState) (b : Nat) : BWState :=
  match st.bitsOff with
  | none => { out := st.out ++ [b <<< 7], bitsOff := some (st.out.length, 6) }
  | some (i, s) =>
      { out := st.out.set i ((st.out.getD i 0) ||| (b <<< s)),
        bitsOff := if s = 0 then none else some (i, s - 1) }

/-- Capacity-free token packer. -/
def packTok (st : BWState) : Tok → BWState
  | .bit b => packBit st b
  | .byte v => { st with out := st.out ++ [v] }

/-- Pack a token sequence into the byte buffer. -/
def pack (st : BWState) (ts : List Tok) : BWState := ts.foldl packTok st

/-- Capacity-checked token writer; `none` once the capacity is exceeded. -/
def writeTok (nMaxOutDataSize : Nat) (s : Option BWState) : Tok → Option BWState
  | .bit b => s.bind (writeBit1 nMaxOutDataSize b)
  | .byte v =>
      s.bind (fun st =>
        if nMaxOutDataSize ≤ st.out.length then none
        else some { st with out := st.out ++ [v] })

/-- Capacity-checked writer over a token sequence. -/
def writeToks (nMaxOutDataSize : Nat) (s : Option BWState) (ts : List Tok) : Option BWState :=
  ts.foldl (writeTok nMaxOutDataSize) s

/-- Gamma code of `v` as a token sequence: for each data bit a `0` marker and
the (possibly inverted) data bit, then the terminating `1`. -/
def gammaToks (v : Nat) (inv : Bool) : List Tok :=
  (eliasDataBits v).foldr
    (fun b acc => Tok.bit 0 :: Tok.bit (if inv then 1 - b else b) :: acc) [Tok.bit 1]

/-- First bit of the gamma code of `v` (a `0` marker if `v ≥ 2`, else the
terminating `1`). -/
def firstGammaBit (v : Nat) : Nat := if eliasDataBits v = [] then 1 else 0

/-! ### Basic facts about the writer -/

theorem writeToks_append (max : Nat) (s : Option BWState) (a b : List Tok) :
    writeToks max s (a ++ b) = writeToks max (writeToks max s a) b := by
  simp [writeToks, List.foldl_append]

theorem writeToks_none (max : Nat) (ts : List Tok) : writeToks max none ts = none := by
  induction ts with
  | nil => rfl
  | cons t ts ih => cases t <;> simpa [writeToks, writeTok] using ih

theorem writeTok_some_pack (max : Nat) (st st' : BWState) (t : Tok)
    (h : writeTok max (some st) t = some st') : st' = packTok st t := by
  cases t with
  | bit b =>
      simp only [writeTok, Option.bind, writeBit1, packTok, packBit] at h ⊢
      cases hb : st.bitsOff with
      | none =>
          rw [hb] at h
          by_cases hc : max ≤ st.out.length
          · simp [hc] at h
          · simp [hc] at h
            exact h.symm
      | some p =>
          rcases p with ⟨i, s⟩
          rw [hb] at h
          simp at h
          simp [← h, List.getD]
  | byte v =>
      simp only [writeTok, Option.bind, packTok] at h ⊢
      by_cases hc : max ≤ st.out.length
      · simp [hc] at h
      · simp [hc] at h
        rw [← h]

theorem writeToks_some_pack (max : Nat) (ts : List Tok) :
    ∀ (st st' : BWState), writeToks max (some st) ts = some st' → st' = pack st ts := by
  induction ts with
  | nil =>
      intro st st' h
      simpa [writeToks, pack] using h.symm
  | cons t ts ih =>
      intro st st' h
      rw [show writeToks max (some st) (t :: ts) = writeToks max (writeTok max (some st) t) ts
          from rfl] at h
      cases ht : writeTok max (some st) t with
      | none => rw [ht, writeToks_none] at h; exact absurd h (by simp)
      | some st1 =>
          rw [ht] at h
          have := ih st1 st' h
          rw [this, writeTok_some_pack max st st1 t ht]
          rfl

theorem writeToks_some_of_some (max : Nat) (ts : List Tok) :
    ∀ (s : Option BWState) (st' : BWState), writeToks max s ts = some st' →
      ∃ st, s = some st := by
  intro s st' h
  cases s with
  | none => rw [writeToks_none] at h; exact absurd h (by simp)
  | some st => exact ⟨st, rfl⟩

/-! ### The Elias writer as a token writer -/

/-- Token sequence produced by the gamma loop for a data-bit list `bs`. -/
def bitsToks (inv : Bool) (bs : List Nat) : List Tok :=
  bs.foldr (fun b acc => Tok.bit 0 :: Tok.bit (if inv then 1 - b else b) :: acc) [Tok.bit 1]

theorem gammaToks_eq_bitsToks (v : Nat) (inv : Bool) :
    gammaToks v inv = bitsToks inv (eliasDataBits v) := rfl

theorem and_one_of_le_one {b : Nat} (h : b ≤ 1) : b &&& 1 = b := by
  interval_cases b <;> rfl

theorem eliasDataBits_le_one (v : Nat) : ∀ b ∈ eliasDataBits v, b ≤ 1 := by
  intro b hb
  simp only [eliasDataBits, List.mem_map, List.mem_reverse, List.mem_range] at hb
  obtain ⟨j, _, rfl⟩ := hb
  have : (v >>> j) &&& 1 = (v >>> j) % 2 := Nat.and_one_is_mod _
  omega

theorem write_bits_one (max v : Nat) (s : Option BWState) :
    salvador_write_bits max v 1 s = writeToks max s [Tok.bit (v &&& 1)] := by
  cases s with
  | none => simp [salvador_write_bits, writeToks_none]
  | some st => simp [salvador_write_bits, writeToks, writeTok, List.range_succ]

theorem elias_loop_none_eq (max : Nat) (inv : Bool) (bs : List Nat)
    (hbs : ∀ b ∈ bs, b ≤ 1) :
    ∀ s, salvador_write_elias_loop max inv none s bs = writeToks max s (bitsToks inv bs) := by
  induction bs with
  | nil =>
      intro s
      show salvador_write_bits max 1 1 s = _
      rw [write_bits_one]
      rfl
  | cons b rest ih =>
      intro s
      have hb : b ≤ 1 := hbs b (by simp)
      have hd : (if inv then 1 - b else b) &&& 1 = (if inv then 1 - b else b) := by
        apply and_one_of_le_one
        cases inv <;> simp <;> omega
      show salvador_write_elias_loop max inv none
          (salvador_write_bits max (if inv then 1 - b else b) 1
            (salvador_write_bits max 0 1 s)) rest = _
      rw [ih (fun x hx => hbs x (by simp [hx])), write_bits_one, write_bits_one]
      show writeToks max (writeToks max (writeToks max s [Tok.bit (0 &&& 1)])
          [Tok.bit ((if inv then 1 - b else b) &&& 1)]) (bitsToks inv rest) = _
      rw [← writeToks_append, ← writeToks_append, hd]
      rfl

theorem elias_loop_first_eq (max : Nat) (inv : Bool) (bs : List Nat) (idx : Nat) (st : BWState)
    (hbs : ∀ b ∈ bs, b ≤ 1) :
    salvador_write_elias_loop max inv (some idx) (some st) bs =
      writeToks max
        (some (patchByte st idx
          (((st.out.getD idx 0) &&& 0xfe) ||| (if bs = [] then 1 else 0))))
        (bitsToks inv bs).tail := by
  cases bs with
  | nil => rfl
  | cons b rest =>
      have hd : (if inv then 1 - b else b) &&& 1 = (if inv then 1 - b else b) := by
        apply and_one_of_le_one
        have hb : b ≤ 1 := hbs b (by simp)
        cases inv <;> simp <;> omega
      show salvador_write_elias_loop max inv none
          (salvador_write_bits max (if inv then 1 - b else b) 1
            (some (patchByte st idx ((st.out.getD idx 0) &&& 0xfe)))) rest = _
      rw [elias_loop_none_eq max inv rest (fun x hx => hbs x (by simp [hx])),
        write_bits_one, ← writeToks_append, hd]
      have : ((st.out.getD idx 0) &&& 0xfe) ||| (if (b :: rest : List Nat) = [] then 1 else 0)
          = (st.out.getD idx 0) &&& 0xfe := by simp
      rw [this]
      rfl

theorem elias_value_none_eq (max v : Nat) (inv : Bool) (s : Option BWState) :
    salvador_write_elias_value max v inv none s = writeToks max s (gammaToks v inv) := by
  rw [salvador_write_elias_value, gammaToks_eq_bitsToks,
    elias_loop_none_eq max inv _ (eliasDataBits_le_one v)]

theorem elias_value_first_eq (max v : Nat) (inv : Bool) (idx : Nat) (st : BWState) :
    salvador_write_elias_value max v inv (some idx) (some st) =
      writeToks max
        (some (patchByte st idx (((st.out.getD idx 0) &&& 0xfe) ||| firstGammaBit v)))
        (gammaToks v inv).tail := by
  rw [salvador_write_elias_value, gammaToks_eq_bitsToks,
    elias_loop_first_eq max inv _ idx st (eliasDataBits_le_one v)]
  rfl

theorem bitsToks_bits_le_one (inv : Bool) (bs : List Nat) (hbs : ∀ x ∈ bs, x ≤ 1) :
    ∀ t ∈ bitsToks inv bs, ∀ b, t = Tok.bit b → b ≤ 1 := by
  induction bs with
  | nil =>
      intro t ht b htb
      simp only [bitsToks, List.foldr_nil, List.mem_singleton] at ht
      subst ht
      injection htb with h1
      omega
  | cons x rest ih =>
      intro t ht b htb
      simp only [bitsToks, List.foldr_cons, List.mem_cons] at ht
      rcases ht with rfl | rfl | ht
      · injection htb with h1; omega
      · injection htb with h1
        have hx : x ≤ 1 := hbs x (by simp)
        rw [← h1]
        cases inv <;> simp <;> omega
      · exact ih (fun y hy => hbs y (by simp [hy])) t ht b htb

theorem gammaToks_bits_le_one (v : Nat) (inv : Bool) :
    ∀ t ∈ gammaToks v inv, ∀ b, t = Tok.bit b → b ≤ 1 := by
  rw [gammaToks_eq_bitsToks]
  exact bitsToks_bits_le_one inv _ (eliasDataBits_le_one v)

/-! ### The block emitter

`salvador_write_block` (shrink.c lines 1135-1314).  The position loop is
embedded with an explicit fuel argument (the C loop terminates because `i`
strictly increases; any fuel of at least `nEndOffset - nStartOffset + 1`
iterations suffices and the entry point passes `nEndOffset + 1`).
Statistics bookkeeping, which does not affect the emitted bytes or the
return value, is omitted. -/

/-- salvador_final_match (one entry of the best-match array).  `length` is an
`Int` because the reducer stores the sentinel `-1` for absorbed positions. -/
structure FinalMatch where
  length : Int
  offset : Nat
  deriving Repr, DecidableEq

/-- Zeroed entry (the best-match array is memset to 0). -/
def FinalMatch.nil : FinalMatch := ⟨0, 0⟩

/-- Entry of the best-match array at absolute position `i`. -/
def bmAt (bm : List FinalMatch) (i : Nat) : FinalMatch := bm.getD i FinalMatch.nil

/-- Append one raw byte to the output. -/
def appendByte (st : BWState) (v : Nat) : BWState := { st with out := st.out ++ [v] }

/-- Append raw bytes to the output (a `memcpy` into the buffer). -/
def appendBytes (st : BWState) (bs : List Nat) : BWState := { st with out := st.out ++ bs }

/-- The literals section of `salvador_write_block` (shrink.c lines 1160-1186
and, identically, 1280-1300): optional command token, run-length gamma, then
the guarded `memcpy` of the literal payload.  Returns the stream and the
updated `nIsFirstCommand` flag. -/
def salvador_flush_literals (pInWindow : List Nat) (nMaxOutDataSize : Nat)
    (nNumLiterals nInFirstLiteralOffset : Nat) (nIsFirstCommand : Bool)
    (st : BWState) : Option (BWState × Bool) :=
  if nNumLiterals ≠ 0 then
    let s1 : Option BWState :=
      if nIsFirstCommand then some st
      else salvador_write_bits nMaxOutDataSize 0 1 (some st)
    match salvador_write_literals_varlen nMaxOutDataSize nNumLiterals s1 with
    | none => none
    | some st2 =>
        if nMaxOutDataSize < st2.out.length + nNumLiterals then none
        else some (appendBytes st2 ((pInWindow.drop nInFirstLiteralOffset).take nNumLiterals),
          false)
  else some (st, nIsFirstCommand)

/-- The position loop of salvador_write_block (shrink.c lines 1144-1268).
State: `(i, nNumLiterals, nInFirstLiteralOffset, nIsFirstCommand,
nRepMatchOffset, stream)`. -/
def salvador_write_block_loop (pInWindow : List Nat) (pBestMatch : List FinalMatch)
    (nEndOffset nMaxOutDataSize nMaxOffset : Nat) (nIsInverted : Bool) :
    Nat → Nat → Nat → Nat → Bool → Nat → BWState →
    Option (BWState × Nat × Nat × Bool × Nat)
  | 0, i, nNumLiterals, nInFirstLiteralOffset, nIsFirstCommand, nRepMatchOffset, st =>
      if i < nEndOffset then none
      else some (st, nNumLiterals, nInFirstLiteralOffset, nIsFirstCommand, nRepMatchOffset)
  | fuel + 1, i, nNumLiterals, nInFirstLiteralOffset, nIsFirstCommand, nRepMatchOffset, st =>
      if i < nEndOffset then
        let pMatch := bmAt pBestMatch i
        if 2 ≤ pMatch.length ∨
            (1 ≤ pMatch.length ∧ pMatch.offset = nRepMatchOffset ∧ nNumLiterals ≠ 0) then
          if pMatch.offset < MIN_OFFSET ∨ nMaxOffset < pMatch.offset ∨
              MAX_OFFSET < pMatch.offset then none
          else if nIsFirstCommand ∧ nNumLiterals = 0 then none
          else
            match salvador_flush_literals pInWindow nMaxOutDataSize nNumLiterals
                nInFirstLiteralOffset nIsFirstCommand st with
            | none => none
            | some (st3, fc') =>
              let nEncodedMatchLen : Int := pMatch.length - 2
              let matchWrite : Option BWState :=
                if pMatch.offset = nRepMatchOffset ∧ nNumLiterals ≠ 0 then
                  salvador_write_match_varlen nMaxOutDataSize nEncodedMatchLen true none
                    (salvador_write_bits nMaxOutDataSize 0 1 (some st3))
                else
                  match salvador_write_elias_value nMaxOutDataSize
                      (((pMatch.offset - 1) >>> 7) + 1) nIsInverted none
                      (salvador_write_bits nMaxOutDataSize 1 1 (some st3)) with
                  | none => none
                  | some st5 =>
                      if nMaxOutDataSize ≤ st5.out.length then none
                      else
                        salvador_write_match_varlen nMaxOutDataSize nEncodedMatchLen false
                          (some st5.out.length)
                          (some (appendByte st5
                            (((255 - ((pMatch.offset - 1) &&& 127)) <<< 1) &&& 255)))
              match matchWrite with
              | none => none
              | some st7 =>
                  salvador_write_block_loop pInWindow pBestMatch nEndOffset nMaxOutDataSize
                    nMaxOffset nIsInverted fuel (i + pMatch.length.toNat) 0
                    nInFirstLiteralOffset fc' pMatch.offset st7
        else
          salvador_write_block_loop pInWindow pBestMatch nEndOffset nMaxOutDataSize
            nMaxOffset nIsInverted fuel (i + 1) (nNumLiterals + 1)
            (if nNumLiterals = 0 then i else nInFirstLiteralOffset)
            nIsFirstCommand nRepMatchOffset st
      else some (st, nNumLiterals, nInFirstLiteralOffset, nIsFirstCommand, nRepMatchOffset)

/-- salvador_write_block (shrink.c lines 1135-1314).  Returns
`(stream, nFinalLiterals, updated rep offset)`, or `none` for the C `-1`. -/
def salvador_write_block (pInWindow : List Nat) (pBestMatch : List FinalMatch)
    (nStartOffset nEndOffset nMaxOutDataSize nMaxOffset : Nat) (nIsInverted : Bool)
    (nCurRepMatchOffset nBlockFlags : Nat) (st : BWState) :
    Option (BWState × Nat × Nat) :=
  match salvador_write_block_loop pInWindow pBestMatch nEndOffset nMaxOutDataSize nMaxOffset
      nIsInverted (nEndOffset + 1) nStartOffset 0 0 (decide (nBlockFlags &&& 1 ≠ 0))
      nCurRepMatchOffset st with
  | none => none
  | some (st, nNumLiterals, nInFirstLiteralOffset, nIsFirstCommand, nRepMatchOffset) =>
      if nBlockFlags &&& 2 ≠ 0 then
        match salvador_flush_literals pInWindow nMaxOutDataSize nNumLiterals
            nInFirstLiteralOffset nIsFirstCommand st with
        | none => none
        | some (st, _) =>
            match salvador_write_elias_value nMaxOutDataSize 256 nIsInverted none
                (salvador_write_bits nMaxOutDataSize 1 1 (some st)) with
            | none => none
            | some st => some (st, 0, nRepMatchOffset)
      else
        some (st, nNumLiterals, nRepMatchOffset)

/-! ### The emitted command sequence

`salvador_block_cmds` mirrors the control flow of `salvador_write_block` but
records the emitted commands instead of serialising them; the theorem
`write_block_loop_toks` below proves that `salvador_write_block`'s output is
exactly the serialisation of this command list. -/

inductive Cmd where
  | lits (first : Bool) (bs : List Nat)
  | rep (len : Nat)
  | off (offset len : Nat)
  | eod
  deriving Repr, DecidableEq

/-- The low-offset byte of a match-with-offset command as it stands in the
final output: the synthesized byte `(255 - ((offset-1) & 0x7f)) << 1`
(truncated to a byte), whose LSB is patched with the first bit of the length
gamma (`length - 1`). -/
def lowOffsetByte (offset len : Nat) : Nat :=
  ((((255 - ((offset - 1) &&& 127)) <<< 1) &&& 255) &&& 0xfe) ||| firstGammaBit (len - 1)

/-- Serialisation of one command into the token stream (shrink.c lines
1160-1215 and the end-of-data marker, lines 1302-1306). -/
def serializeCmd (inv : Bool) : Cmd → List Tok
  | .lits first bs =>
      (if first then [] else [Tok.bit 0]) ++ gammaToks bs.length false ++ bs.map Tok.byte
  | .rep len => Tok.bit 0 :: gammaToks len false
  | .off offset len =>
      Tok.bit 1 :: (gammaToks (((offset - 1) >>> 7) + 1) inv ++
        (Tok.byte (lowOffsetByte offset len) :: (gammaToks (len - 1) false).tail))
  | .eod => Tok.bit 1 :: gammaToks 256 inv

def serializeCmds (inv : Bool) (cs : List Cmd) : List Tok :=
  (cs.map (serializeCmd inv)).flatten

/-- The command-recording mirror of `salvador_write_block_loop`. -/
def salvador_block_cmds_loop (pInWindow : List Nat) (pBestMatch : List FinalMatch)
    (nEndOffset nMaxOffset : Nat) :
    Nat → Nat → Nat → Nat → Bool → Nat → Option (List Cmd × Nat × Nat × Bool × Nat)
  | 0, i, nl, fo, fc, rep =>
      if i < nEndOffset then none else some ([], nl, fo, fc, rep)
  | fuel + 1, i, nl, fo, fc, rep =>
      if i < nEndOffset then
        let pMatch := bmAt pBestMatch i
        if 2 ≤ pMatch.length ∨ (1 ≤ pMatch.length ∧ pMatch.offset = rep ∧ nl ≠ 0) then
          if pMatch.offset < MIN_OFFSET ∨ nMaxOffset < pMatch.offset ∨
              MAX_OFFSET < pMatch.offset then none
          else if fc ∧ nl = 0 then none
          else
            let litCmds : List Cmd :=
              if nl ≠ 0 then [Cmd.lits fc ((pInWindow.drop fo).take nl)] else []
            let fc' := if nl ≠ 0 then false else fc
            let mcmd : Cmd :=
              if pMatch.offset = rep ∧ nl ≠ 0 then Cmd.rep pMatch.length.toNat
              else Cmd.off pMatch.offset pMatch.length.toNat
            match salvador_block_cmds_loop pInWindow pBestMatch nEndOffset nMaxOffset fuel
                (i + pMatch.length.toNat) 0 fo fc' pMatch.offset with
            | none => none
            | some (cs, a, b, c, d) => some (litCmds ++ mcmd :: cs, a, b, c, d)
        else
          salvador_block_cmds_loop pInWindow pBestMatch nEndOffset nMaxOffset fuel
            (i + 1) (nl + 1) (if nl = 0 then i else fo) fc rep
      else some ([], nl, fo, fc, rep)

/-- The command-recording mirror of `salvador_write_block`. -/
def salvador_block_cmds (pInWindow : List Nat) (pBestMatch : List FinalMatch)
    (nStartOffset nEndOffset nMaxOffset : Nat) (nCurRepMatchOffset nBlockFlags : Nat) :
    Option (List Cmd × Nat × Nat) :=
  match salvador_block_cmds_loop pInWindow pBestMatch nEndOffset nMaxOffset (nEndOffset + 1)
      nStartOffset 0 0 (decide (nBlockFlags &&& 1 ≠ 0)) nCurRepMatchOffset with
  | none => none
  | some (cs, nl, fo, fc, rep) =>
      if nBlockFlags &&& 2 ≠ 0 then
        let litCmds : List Cmd :=
          if nl ≠ 0 then [Cmd.lits fc ((pInWindow.drop fo).take nl)] else []
        some (cs ++ litCmds ++ [Cmd.eod], 0, rep)
      else some (cs, nl, rep)

/-! ### The emitter writes exactly the serialised command list -/

theorem serializeCmds_cons (inv : Bool) (c : Cmd) (cs : List Cmd) :
    serializeCmds inv (c :: cs) = serializeCmd inv c ++ serializeCmds inv cs := by
  simp [serializeCmds]

theorem serializeCmds_append (inv : Bool) (a b : List Cmd) :
    serializeCmds inv (a ++ b) = serializeCmds inv a ++ serializeCmds inv b := by
  simp [serializeCmds]

theorem writeTok_cap (max : Nat) (t : Tok) (st st' : BWState)
    (h : writeTok max (some st) t = some st') (hc : st.out.length ≤ max) :
    st'.out.length ≤ max := by
  cases t with
  | bit b =>
      simp only [writeTok, Option.bind, writeBit1] at h
      cases hb : st.bitsOff with
      | none =>
          rw [hb] at h
          by_cases hcap : max ≤ st.out.length
          · simp [hcap] at h
          · simp [hcap] at h
            rw [← h]
            simp
            omega
      | some p =>
          rcases p with ⟨i, s⟩
          rw [hb] at h
          simp at h
          rw [← h]
          simpa using hc
  | byte v =>
      simp only [writeTok, Option.bind] at h
      by_cases hcap : max ≤ st.out.length
      · simp [hcap] at h
      · simp [hcap] at h
        rw [← h]
        simp
        omega

theorem writeToks_cap (max : Nat) (ts : List Tok) :
    ∀ (st st' : BWState), writeToks max (some st) ts = some st' →
      st.out.length ≤ max → st'.out.length ≤ max := by
  induction ts with
  | nil =>
      intro st st' h hc
      simp [writeToks] at h
      rw [← h]; exact hc
  | cons t ts ih =>
      intro st st' h hc
      rw [show writeToks max (some st) (t :: ts) = writeToks max (writeTok max (some st) t) ts
          from rfl] at h
      cases ht : writeTok max (some st) t with
      | none => rw [ht, writeToks_none] at h; exact absurd h (by simp)
      | some st1 => rw [ht] at h; exact ih st1 st' h (writeTok_cap max t st st1 ht hc)

theorem getD_concat_length {α : Type} (xs : List α) (b d : α) :
    (xs ++ [b]).getD xs.length d = b := by
  induction xs with
  | nil => rfl
  | cons x xs ih => simpa using ih

theorem set_concat_length {α : Type} (xs : List α) (b v : α) :
    (xs ++ [b]).set xs.length v = xs ++ [v] := by
  induction xs with
  | nil => rfl
  | cons x xs ih => simpa using ih

theorem append_bytes_toks (max : Nat) (bs : List Nat) :
    ∀ st : BWState, st.out.length ≤ max →
      writeToks max (some st) (bs.map Tok.byte) =
        (if max < st.out.length + bs.length then none else some (appendBytes st bs)) := by
  induction bs with
  | nil =>
      intro st hc
      rw [show ([] : List Nat).map Tok.byte = [] from rfl,
        show writeToks max (some st) [] = some st from rfl,
        if_neg (by simp; omega)]
      simp [appendBytes]
  | cons v bs ih =>
      intro st hc
      rw [show (v :: bs).map Tok.byte = Tok.byte v :: bs.map Tok.byte from rfl,
        show writeToks max (some st) (Tok.byte v :: bs.map Tok.byte)
          = writeToks max (writeTok max (some st) (Tok.byte v)) (bs.map Tok.byte) from rfl]
      by_cases hcap : max ≤ st.out.length
      · rw [show writeTok max (some st) (Tok.byte v) = none by simp [writeTok, hcap],
          writeToks_none, if_pos (by simp; omega)]
      · have h1 : writeTok max (some st) (Tok.byte v) = some (appendByte st v) := by
          simp [writeTok, hcap, appendByte]
        rw [h1, ih (appendByte st v) (by simp [appendByte]; omega)]
        have h2 : (appendByte st v).out.length = st.out.length + 1 := by simp [appendByte]
        by_cases h3 : max < st.out.length + (v :: bs).length
        · rw [if_pos (by rw [h2]; simp at h3 ⊢; omega), if_pos (by simp at h3 ⊢; omega)]
        · rw [if_neg (by rw [h2]; simp at h3 ⊢; omega), if_neg (by simp at h3 ⊢; omega)]
          simp [appendBytes, appendByte]

theorem flush_literals_toks (window : List Nat) (max nl fo : Nat) (fc : Bool) (st : BWState)
    (hcap : st.out.length ≤ max) (hlen : fo + nl ≤ window.length) (inv : Bool) :
    salvador_flush_literals window max nl fo fc st =
      (writeToks max (some st)
        (serializeCmds inv (if nl ≠ 0 then [Cmd.lits fc ((window.drop fo).take nl)] else []))).map
        (fun st2 => (st2, if nl ≠ 0 then false else fc)) := by
  by_cases hnl : nl = 0
  · simp [salvador_flush_literals, hnl, serializeCmds, writeToks]
  · have hslice : ((window.drop fo).take nl).length = nl := by
      simp [List.length_take, List.length_drop]
      omega
    simp only [salvador_flush_literals, ne_eq, hnl, not_false_eq_true, if_true, ite_true]
    rw [serializeCmds_cons]
    simp only [serializeCmd, hslice]
    rw [show serializeCmds inv [] = [] from rfl, List.append_nil]
    have hs1 : (if fc then some st
        else salvador_write_bits max 0 1 (some st)) =
        writeToks max (some st) (if fc then [] else [Tok.bit 0]) := by
      cases fc
      · simp [write_bits_one]
      · simp [writeToks]
    rw [salvador_write_literals_varlen, elias_value_none_eq, hs1,
      writeToks_append, writeToks_append]
    cases hg : writeToks max (writeToks max (some st) (if fc then [] else [Tok.bit 0]))
        (gammaToks nl false) with
    | none => rw [writeToks_none]; rfl
    | some st2 =>
        have hcap2 : st2.out.length ≤ max := by
          rw [← writeToks_append] at hg
          obtain ⟨st0, hst0⟩ := writeToks_some_of_some max _ _ _ hg
          cases hst0
          exact writeToks_cap max _ _ _ hg hcap
        rw [append_bytes_toks max _ st2 hcap2, hslice]
        by_cases hover : max < st2.out.length + nl
        · rw [if_pos hover]
          show (if max < st2.out.length + nl then none
              else some (appendBytes st2 ((window.drop fo).take nl), false)) = _
          rw [if_pos hover]
          rfl
        · rw [if_neg hover]
          show (if max < st2.out.length + nl then none
              else some (appendBytes st2 ((window.drop fo).take nl), false)) = _
          rw [if_neg hover]
          rfl

theorem rep_match_write_toks (max : Nat) (L : Int) (inv : Bool) (st : BWState) :
    salvador_write_match_varlen max (L - 2) true none
        (salvador_write_bits max 0 1 (some st)) =
      writeToks max (some st) (serializeCmd inv (Cmd.rep L.toNat)) := by
  rw [show salvador_write_match_varlen max (L - 2) true none
        (salvador_write_bits max 0 1 (some st))
      = salvador_write_elias_value max (L - 2 + 1 + 1).toNat false none
        (salvador_write_bits max 0 1 (some st)) from rfl,
    show (L - 2 + 1 + 1 : Int) = L by ring,
    elias_value_none_eq, write_bits_one, ← writeToks_append]
  rfl

theorem off_match_write_toks (max o : Nat) (L : Int) (hL : 2 ≤ L) (inv : Bool) (st3 : BWState) :
    (match salvador_write_elias_value max (((o - 1) >>> 7) + 1) inv none
        (salvador_write_bits max 1 1 (some st3)) with
     | none => none
     | some st5 =>
        if max ≤ st5.out.length then none
        else salvador_write_match_varlen max (L - 2) false (some st5.out.length)
            (some (appendByte st5 (((255 - ((o - 1) &&& 127)) <<< 1) &&& 255)))) =
      writeToks max (some st3) (serializeCmd inv (Cmd.off o L.toNat)) := by
  rw [elias_value_none_eq, write_bits_one,
    show serializeCmd inv (Cmd.off o L.toNat) =
      [Tok.bit 1] ++ (gammaToks (((o - 1) >>> 7) + 1) inv ++
        (Tok.byte (lowOffsetByte o L.toNat) :: (gammaToks (L.toNat - 1) false).tail)) from rfl,
    writeToks_append, writeToks_append,
    show (1 &&& 1 : Nat) = 1 from rfl]
  cases hg : writeToks max (writeToks max (some st3) [Tok.bit 1])
      (gammaToks (((o - 1) >>> 7) + 1) inv) with
  | none => rw [writeToks_none]
  | some st5 =>
      have hred : (match some st5 with
          | none => none
          | some st5 =>
            if max ≤ st5.out.length then none
            else salvador_write_match_varlen max (L - 2) false (some st5.out.length)
              (some (appendByte st5 (((255 - ((o - 1) &&& 127)) <<< 1) &&& 255))))
          = (if max ≤ st5.out.length then none
            else salvador_write_match_varlen max (L - 2) false (some st5.out.length)
              (some (appendByte st5 (((255 - ((o - 1) &&& 127)) <<< 1) &&& 255)))) := rfl
      rw [hred]
      by_cases hcap : max ≤ st5.out.length
      · rw [if_pos hcap,
          show writeToks max (some st5)
              (Tok.byte (lowOffsetByte o L.toNat) :: (gammaToks (L.toNat - 1) false).tail)
            = writeToks max (writeTok max (some st5) (Tok.byte (lowOffsetByte o L.toNat)))
              ((gammaToks (L.toNat - 1) false).tail) from rfl,
          show writeTok max (some st5) (Tok.byte (lowOffsetByte o L.toNat)) = none by
            simp [writeTok, hcap],
          writeToks_none]
      · rw [if_neg hcap]
        have hE : (L - 2 + 1 + 0 : Int).toNat = L.toNat - 1 := by omega
        rw [show salvador_write_match_varlen max (L - 2) false (some st5.out.length)
              (some (appendByte st5 (((255 - ((o - 1) &&& 127)) <<< 1) &&& 255)))
            = salvador_write_elias_value max (L - 2 + 1 + 0).toNat false (some st5.out.length)
              (some (appendByte st5 (((255 - ((o - 1) &&& 127)) <<< 1) &&& 255))) from rfl,
          hE, elias_value_first_eq]
        have hgetD : (appendByte st5 (((255 - ((o - 1) &&& 127)) <<< 1) &&& 255)).out.getD
            st5.out.length 0 = ((255 - ((o - 1) &&& 127)) <<< 1) &&& 255 := by
          simpa [appendByte] using
            getD_concat_length st5.out ((((255 - ((o - 1) &&& 127)) <<< 1) &&& 255)) 0
        have hpatch : patchByte (appendByte st5 (((255 - ((o - 1) &&& 127)) <<< 1) &&& 255))
              st5.out.length
              (((appendByte st5 (((255 - ((o - 1) &&& 127)) <<< 1) &&& 255)).out.getD
                  st5.out.length 0 &&& 0xfe) ||| firstGammaBit (L.toNat - 1))
            = appendByte st5 (lowOffsetByte o L.toNat) := by
          rw [hgetD]
          simp only [patchByte, appendByte]
          rw [set_concat_length, lowOffsetByte]
        rw [hpatch,
          show writeToks max (some st5)
              (Tok.byte (lowOffsetByte o L.toNat) :: (gammaToks (L.toNat - 1) false).tail)
            = writeToks max (writeTok max (some st5) (Tok.byte (lowOffsetByte o L.toNat)))
              ((gammaToks (L.toNat - 1) false).tail) from rfl,
          show writeTok max (some st5) (Tok.byte (lowOffsetByte o L.toNat))
            = some (appendByte st5 (lowOffsetByte o L.toNat)) by
              simp [writeTok, hcap, appendByte]]

/-- The position loop of `salvador_write_block` succeeds exactly when the
command-recording mirror does, and its output is the token serialisation of
the recorded commands. -/
theorem write_block_loop_toks (pInWindow : List Nat) (pBestMatch : List FinalMatch)
    (nEndOffset max nMaxOffset : Nat) (inv : Bool) (hend : nEndOffset ≤ pInWindow.length) :
    ∀ (fuel i nl fo : Nat) (fc : Bool) (rep : Nat) (st st' : BWState) (a b : Nat) (c : Bool)
      (d : Nat),
      st.out.length ≤ max →
      (nl ≠ 0 → fo + nl = i) →
      fo + nl ≤ nEndOffset →
      salvador_write_block_loop pInWindow pBestMatch nEndOffset max nMaxOffset inv
          fuel i nl fo fc rep st = some (st', a, b, c, d) →
      ∃ cs, salvador_block_cmds_loop pInWindow pBestMatch nEndOffset nMaxOffset
          fuel i nl fo fc rep = some (cs, a, b, c, d) ∧
        writeToks max (some st) (serializeCmds inv cs) = some st' := by
  intro fuel
  induction fuel with
  | zero =>
      intro i nl fo fc rep st st' a b c d hcap hfo hinv h
      by_cases hi : i < nEndOffset
      · simp [salvador_write_block_loop, hi] at h
      · simp only [salvador_write_block_loop, hi, if_false] at h
        obtain ⟨h1, h2, h3, h4, h5⟩ := by simpa using h
        refine ⟨[], ?_, ?_⟩
        · simp [salvador_block_cmds_loop, hi, h2, h3, h4, h5]
        · simp [serializeCmds, writeToks, h1]
  | succ fuel ih =>
      intro i nl fo fc rep st st' a b c d hcap hfo hinv h
      by_cases hi : i < nEndOffset
      case neg =>
        simp only [salvador_write_block_loop, hi, if_false] at h
        obtain ⟨h1, h2, h3, h4, h5⟩ := by simpa using h
        refine ⟨[], ?_, ?_⟩
        · simp [salvador_block_cmds_loop, hi, h2, h3, h4, h5]
        · simp [serializeCmds, writeToks, h1]
      case pos =>
      by_cases hg : 2 ≤ (bmAt pBestMatch i).length ∨
          (1 ≤ (bmAt pBestMatch i).length ∧
            (bmAt pBestMatch i).offset = rep ∧ nl ≠ 0)
      case neg =>
        -- literal position
        simp only [salvador_write_block_loop, hi, if_true, hg, if_false] at h
        have hfo' : nl + 1 ≠ 0 → (if nl = 0 then i else fo) + (nl + 1) = i + 1 := by
          intro _
          by_cases hnl : nl = 0
          · simp [hnl]
          · have := hfo hnl
            simp only [hnl, if_false]
            omega
        have hinv' : (if nl = 0 then i else fo) + (nl + 1) ≤ nEndOffset := by
          by_cases hnl : nl = 0
          · simp [hnl]; omega
          · have := hfo hnl
            simp only [hnl, if_false]
            omega
        obtain ⟨cs, hcmds, htoks⟩ := ih (i + 1) (nl + 1) (if nl = 0 then i else fo) fc rep
          st st' a b c d hcap hfo' hinv' h
        refine ⟨cs, ?_, htoks⟩
        simp only [salvador_block_cmds_loop, hi, if_true, hg, if_false]
        exact hcmds
      case pos =>
      by_cases hoff : (bmAt pBestMatch i).offset < MIN_OFFSET ∨
          nMaxOffset < (bmAt pBestMatch i).offset ∨
          MAX_OFFSET < (bmAt pBestMatch i).offset
      case pos =>
        simp [salvador_write_block_loop, hi, hg, hoff] at h
      case neg =>
      by_cases hfc : fc = true ∧ nl = 0
      case pos =>
        have hg2 : 2 ≤ (bmAt pBestMatch i).length := by
          rcases hg with h2 | h2
          · exact h2
          · exact absurd hfc.2 h2.2.2
        simp [salvador_write_block_loop, hi, hg2, hoff, hfc] at h
      case neg =>
      simp only [salvador_write_block_loop, hi, if_true, hg, hoff, if_false, hfc] at h
      rw [flush_literals_toks pInWindow max nl fo fc st hcap (hinv.trans hend) inv] at h
      cases hfl : writeToks max (some st)
          (serializeCmds inv (if nl ≠ 0 then [Cmd.lits fc ((pInWindow.drop fo).take nl)]
            else [])) with
      | none => rw [hfl] at h; exact absurd h (by simp)
      | some stL =>
      rw [hfl] at h
      simp only [Option.map_some'] at h
      have hcapL : stL.out.length ≤ max := writeToks_cap max _ _ _ hfl hcap
      by_cases hrep : (bmAt pBestMatch i).offset = rep ∧ nl ≠ 0
      case pos =>
        rw [if_pos hrep,
          rep_match_write_toks max (bmAt pBestMatch i).length inv stL] at h
        cases hmw : writeToks max (some stL)
            (serializeCmd inv (Cmd.rep (bmAt pBestMatch i).length.toNat)) with
        | none => rw [hmw] at h; exact absurd h (by simp)
        | some st7 =>
        rw [hmw] at h
        have hcap7 : st7.out.length ≤ max := writeToks_cap max _ _ _ hmw hcapL
        obtain ⟨cs, hcmds, htoks⟩ := ih (i + (bmAt pBestMatch i).length.toNat)
          0 fo (if nl ≠ 0 then false else fc) (bmAt pBestMatch i).offset
          st7 st' a b c d hcap7 (by simp) (by omega) h
        refine ⟨(if nl ≠ 0 then [Cmd.lits fc ((pInWindow.drop fo).take nl)] else []) ++
          Cmd.rep (bmAt pBestMatch i).length.toNat :: cs, ?_, ?_⟩
        · simp only [salvador_block_cmds_loop, hi, if_true, hg, hoff, if_false, hfc]
          rw [if_pos hrep, hcmds]
        · rw [serializeCmds_append, serializeCmds_cons, writeToks_append, hfl,
            writeToks_append, hmw, htoks]
      case neg =>
        have hL2 : 2 ≤ (bmAt pBestMatch i).length := by
          rcases hg with hg | hg
          · exact hg
          · exact absurd ⟨hg.2.1, hg.2.2⟩ hrep
        rw [if_neg hrep,
          off_match_write_toks max (bmAt pBestMatch i).offset
            (bmAt pBestMatch i).length hL2 inv stL] at h
        cases hmw : writeToks max (some stL)
            (serializeCmd inv (Cmd.off (bmAt pBestMatch i).offset
              (bmAt pBestMatch i).length.toNat)) with
        | none => rw [hmw] at h; exact absurd h (by simp)
        | some st7 =>
        rw [hmw] at h
        have hcap7 : st7.out.length ≤ max := writeToks_cap max _ _ _ hmw hcapL
        obtain ⟨cs, hcmds, htoks⟩ := ih (i + (bmAt pBestMatch i).length.toNat)
          0 fo (if nl ≠ 0 then false else fc) (bmAt pBestMatch i).offset
          st7 st' a b c d hcap7 (by simp) (by omega) h
        refine ⟨(if nl ≠ 0 then [Cmd.lits fc ((pInWindow.drop fo).take nl)] else []) ++
          Cmd.off (bmAt pBestMatch i).offset
            (bmAt pBestMatch i).length.toNat :: cs, ?_, ?_⟩
        · simp only [salvador_block_cmds_loop, hi, if_true, hg, hoff, if_false, hfc]
          rw [if_neg hrep, hcmds]
        · rw [serializeCmds_append, serializeCmds_cons, writeToks_append, hfl,
            writeToks_append, hmw, htoks]

/-- The exit state of the command loop keeps the pending-literal window inside
the block. -/
theorem block_cmds_loop_exit_inv (pInWindow : List Nat) (pBestMatch : List FinalMatch)
    (nEndOffset nMaxOffset : Nat) :
    ∀ (fuel i nl fo : Nat) (fc : Bool) (rep : Nat) (cs : List Cmd) (a b : Nat) (c : Bool)
      (d : Nat),
      (nl ≠ 0 → fo + nl = i) →
      fo + nl ≤ nEndOffset →
      salvador_block_cmds_loop pInWindow pBestMatch nEndOffset nMaxOffset
          fuel i nl fo fc rep = some (cs, a, b, c, d) →
      b + a ≤ nEndOffset := by
  intro fuel
  induction fuel with
  | zero =>
      intro i nl fo fc rep cs a b c d hfo hinv h
      by_cases hi : i < nEndOffset
      · simp [salvador_block_cmds_loop, hi] at h
      · simp only [salvador_block_cmds_loop, hi, if_false] at h
        obtain ⟨h1, h2, h3, h4, h5⟩ := by simpa using h
        omega
  | succ fuel ih =>
      intro i nl fo fc rep cs a b c d hfo hinv h
      by_cases hi : i < nEndOffset
      case neg =>
        simp only [salvador_block_cmds_loop, hi, if_false] at h
        obtain ⟨h1, h2, h3, h4, h5⟩ := by simpa using h
        omega
      case pos =>
      by_cases hg : 2 ≤ (bmAt pBestMatch i).length ∨
          (1 ≤ (bmAt pBestMatch i).length ∧ (bmAt pBestMatch i).offset = rep ∧ nl ≠ 0)
      case neg =>
        simp only [salvador_block_cmds_loop, hi, if_true, hg, if_false] at h
        have hfo' : nl + 1 ≠ 0 → (if nl = 0 then i else fo) + (nl + 1) = i + 1 := by
          intro _
          by_cases hnl : nl = 0
          · simp [hnl]
          · have := hfo hnl
            simp only [hnl, if_false]
            omega
        have hinv' : (if nl = 0 then i else fo) + (nl + 1) ≤ nEndOffset := by
          by_cases hnl : nl = 0
          · simp [hnl]; omega
          · have := hfo hnl
            simp only [hnl, if_false]
            omega
        exact ih (i + 1) (nl + 1) (if nl = 0 then i else fo) fc rep cs a b c d hfo' hinv' h
      case pos =>
      by_cases hoff : (bmAt pBestMatch i).offset < MIN_OFFSET ∨
          nMaxOffset < (bmAt pBestMatch i).offset ∨ MAX_OFFSET < (bmAt pBestMatch i).offset
      case pos =>
        simp [salvador_block_cmds_loop, hi, hg, hoff] at h
      case neg =>
      by_cases hfc : fc = true ∧ nl = 0
      case pos =>
        have hg2 : 2 ≤ (bmAt pBestMatch i).length := by
          rcases hg with h2 | h2
          · exact h2
          · exact absurd hfc.2 h2.2.2
        simp [salvador_block_cmds_loop, hi, hg2, hoff, hfc] at h
      case neg =>
      simp only [salvador_block_cmds_loop, hi, if_true, hg, hoff, if_false, hfc] at h
      cases hrec : salvador_block_cmds_loop pInWindow pBestMatch nEndOffset nMaxOffset fuel
          (i + (bmAt pBestMatch i).length.toNat) 0 fo
          (if nl ≠ 0 then false else fc) (bmAt pBestMatch i).offset with
      | none => rw [hrec] at h; exact absurd h (by simp)
      | some r =>
          rw [hrec] at h
          obtain ⟨r1, r2, r3, r4, r5⟩ := r
          have := ih (i + (bmAt pBestMatch i).length.toNat) 0 fo
            (if nl ≠ 0 then false else fc) (bmAt pBestMatch i).offset r1 r2 r3 r4 r5
            (by simp) (by omega) hrec
          obtain ⟨h1, h2, h3, h4, h5⟩ := by simpa using h
          omega

/-- `salvador_write_block` succeeds exactly when the command mirror does, and
its output bytes are the token serialisation of the recorded command list. -/
theorem write_block_toks (pInWindow : List Nat) (pBestMatch : List FinalMatch)
    (nStartOffset nEndOffset max nMaxOffset : Nat) (inv : Bool) (rep0 nBlockFlags : Nat)
    (st st' : BWState) (fl rep' : Nat)
    (hend : nEndOffset ≤ pInWindow.length) (hcap : st.out.length ≤ max)
    (h : salvador_write_block pInWindow pBestMatch nStartOffset nEndOffset max nMaxOffset inv
        rep0 nBlockFlags st = some (st', fl, rep')) :
    ∃ cs, salvador_block_cmds pInWindow pBestMatch nStartOffset nEndOffset nMaxOffset
        rep0 nBlockFlags = some (cs, fl, rep') ∧
      writeToks max (some st) (serializeCmds inv cs) = some st' := by
  rw [salvador_write_block] at h
  cases hl : salvador_write_block_loop pInWindow pBestMatch nEndOffset max nMaxOffset inv
      (nEndOffset + 1) nStartOffset 0 0 (decide (nBlockFlags &&& 1 ≠ 0)) rep0 st with
  | none => rw [hl] at h; exact absurd h (by simp)
  | some r =>
  rw [hl] at h
  obtain ⟨st1, nl, fo, fc, rep1⟩ := r
  obtain ⟨cs, hcmds, htoks⟩ := write_block_loop_toks pInWindow pBestMatch nEndOffset max
    nMaxOffset inv hend (nEndOffset + 1) nStartOffset 0 0 (decide (nBlockFlags &&& 1 ≠ 0))
    rep0 st st1 nl fo fc rep1 hcap (by simp) (by omega) hl
  have hexit : fo + nl ≤ nEndOffset :=
    block_cmds_loop_exit_inv pInWindow pBestMatch nEndOffset nMaxOffset (nEndOffset + 1)
      nStartOffset 0 0 (decide (nBlockFlags &&& 1 ≠ 0)) rep0 cs nl fo fc rep1
      (by simp) (by omega) hcmds
  rw [salvador_block_cmds, hcmds]
  dsimp only at h ⊢
  by_cases hlast : nBlockFlags &&& 2 ≠ 0
  case neg =>
    rw [if_neg hlast] at h
    rw [if_neg hlast]
    obtain ⟨h1, h2, h3⟩ := by simpa using h
    exact ⟨cs, by simp [h2, h3], by rw [htoks, h1]⟩
  case pos =>
  rw [if_pos hlast] at h
  rw [if_pos hlast]
  have hcap1 : st1.out.length ≤ max := writeToks_cap max _ _ _ htoks hcap
  rw [flush_literals_toks pInWindow max nl fo fc st1 hcap1 (hexit.trans hend) inv] at h
  cases hfl : writeToks max (some st1)
      (serializeCmds inv (if nl ≠ 0 then [Cmd.lits fc ((pInWindow.drop fo).take nl)]
        else [])) with
  | none => rw [hfl] at h; exact absurd h (by simp)
  | some st2 =>
  rw [hfl] at h
  simp only [Option.map_some'] at h
  rw [elias_value_none_eq, write_bits_one, show (1 &&& 1 : Nat) = 1 from rfl] at h
  cases heod : writeToks max (writeToks max (some st2) [Tok.bit 1]) (gammaToks 256 inv) with
  | none => rw [heod] at h; exact absurd h (by simp)
  | some st3 =>
  rw [heod] at h
  obtain ⟨h1, h2, h3⟩ := by simpa using h
  refine ⟨cs ++ (if nl ≠ 0 then [Cmd.lits fc ((pInWindow.drop fo).take nl)] else []) ++
    [Cmd.eod], by simp [h2, h3], ?_⟩
  rw [serializeCmds_append, serializeCmds_append, writeToks_append, writeToks_append,
    htoks, hfl]
  rw [show serializeCmds inv [Cmd.eod] = Tok.bit 1 :: gammaToks 256 inv by
    simp [serializeCmds, serializeCmd],
    show (Tok.bit 1 :: gammaToks 256 inv : List Tok) = [Tok.bit 1] ++ gammaToks 256 inv
      from rfl,
    writeToks_append, heod, h1]

/-! ### Bit-level arithmetic helpers -/

theorem getD_set_self' {α : Type} : ∀ (xs : List α) (i : Nat) (v d : α), i < xs.length →
    (xs.set i v).getD i d = v
  | [], i, v, d, h => absurd h (by simp)
  | x :: xs, 0, v, d, _ => rfl
  | x :: xs, i+1, v, d, h => getD_set_self' xs i v d (Nat.lt_of_succ_lt_succ h)

theorem getD_set_ne' {α : Type} : ∀ (xs : List α) (i j : Nat) (v d : α), i ≠ j →
    (xs.set i v).getD j d = xs.getD j d
  | [], _, _, _, _, _ => rfl
  | x :: xs, 0, 0, v, d, h => absurd rfl h
  | x :: xs, 0, j+1, v, d, _ => rfl
  | x :: xs, i+1, 0, v, d, _ => rfl
  | x :: xs, i+1, j+1, v, d, h => getD_set_ne' xs i j v d (fun hh => h (by rw [hh]))

theorem get?_eq_getD {α : Type} (l : List α) (n : Nat) (d : α) (h : n < l.length) :
    l.get? n = some (l.getD n d) := by
  rw [List.getD_eq_getD_get?]
  cases hq : l.get? n with
  | none => rw [List.get?_eq_none] at hq; omega
  | some v => rfl

theorem pow_mul_div_pow (i k q : Nat) : 2 ^ (i + k) * q / 2 ^ i = 2 ^ k * q := by
  rw [pow_add, Nat.mul_assoc, Nat.mul_div_cancel_left _ (Nat.two_pow_pos i)]

theorem div_pow_double (m q i : Nat) (him : i < m) :
    2 ^ m * q / 2 ^ i = 2 * (2 ^ (m - i - 1) * q) := by
  obtain ⟨k, hk⟩ : ∃ k, m - i = k + 1 := ⟨m - i - 1, by omega⟩
  have h2 := pow_mul_div_pow i (m - i) q
  rw [show i + (m - i) = m by omega] at h2
  rw [h2, hk, pow_succ, show k + 1 - 1 = k by omega]
  ring

theorem testBit_mul_pow_low (m q i : Nat) (him : i < m) : (2 ^ m * q).testBit i = false := by
  rw [Nat.testBit_to_div_mod, decide_eq_false_iff_not]
  rw [div_pow_double m q i him]
  omega

theorem testBit_add_low (m q y i : Nat) (him : i < m) :
    (2 ^ m * q + y).testBit i = y.testBit i := by
  rw [Nat.testBit_to_div_mod, Nat.testBit_to_div_mod]
  have hdvd : 2 ^ i ∣ 2 ^ m * q := Dvd.dvd.mul_right (pow_dvd_pow 2 (by omega)) q
  rw [Nat.add_div_of_dvd_right hdvd, div_pow_double m q i him]
  simp only [decide_eq_decide]
  omega

theorem testBit_add_high (m q y i : Nat) (hy : y < 2 ^ m) (him : m ≤ i) :
    (2 ^ m * q + y).testBit i = (2 ^ m * q).testBit i := by
  rw [Nat.testBit_to_div_mod, Nat.testBit_to_div_mod]
  have h2 : (2 ^ m * q + y) / 2 ^ i = 2 ^ m * q / 2 ^ i := by
    rw [show (i : Nat) = m + (i - m) by omega, pow_add, ← Nat.div_div_eq_div_mul,
      ← Nat.div_div_eq_div_mul, Nat.mul_add_div (Nat.two_pow_pos m),
      Nat.div_eq_of_lt hy, Nat.mul_div_cancel_left _ (Nat.two_pow_pos m)]
    simp
  rw [h2]

/-- An `or` with disjoint bit ranges is an addition: the key fact for the bit
packer, whose unfilled low bits are zero. -/
theorem or_eq_add_of_lt (x y m : Nat) (hx : x % 2 ^ m = 0) (hy : y < 2 ^ m) :
    x ||| y = x + y := by
  obtain ⟨q, rfl⟩ : ∃ q, x = 2 ^ m * q := by
    refine ⟨x / 2 ^ m, ?_⟩
    exact (Nat.mul_div_cancel' (Nat.dvd_of_mod_eq_zero hx)).symm
  apply Nat.eq_of_testBit_eq
  intro i
  rw [Nat.testBit_or]
  by_cases him : i < m
  · rw [testBit_add_low m q y i him, testBit_mul_pow_low m q i him, Bool.false_or]
  · rw [testBit_add_high m q y i hy (by omega)]
    have : y.testBit i = false := Nat.testBit_lt_two_pow (by
      calc y < 2 ^ m := hy
        _ ≤ 2 ^ i := Nat.pow_le_pow_right (by norm_num) (by omega))
    rw [this, Bool.or_false]

theorem or_shiftRight (x y k : Nat) : (x ||| y) >>> k = (x >>> k) ||| (y >>> k) := by
  apply Nat.eq_of_testBit_eq
  intro i
  simp [Nat.testBit_shiftRight, Nat.testBit_or]

theorem shiftRight_eq_zero_of_lt (y k : Nat) (hy : y < 2 ^ k) : y >>> k = 0 := by
  rw [Nat.shiftRight_eq_div_pow]
  exact Nat.div_eq_of_lt hy

/-! ### The byte/bit reader, mirror of the writer

Modelled from the spec (section 6, bitstream format): a conformant ZX0
decoder reads raw bytes in stream order, and fetches a fresh byte for bit
reads whenever the current bit reservoir is exhausted, consuming bits
MSB-first - the exact mirror of the bit writer's lazily allocated byte. -/

structure RState where
  pos : Nat
  res : Option (Nat × Nat)
  deriving Repr, DecidableEq

/-- Read one bit (MSB-first, fetching a fresh reservoir byte as needed). -/
def readBit (F : List Nat) (r : RState) : Option (Nat × RState) :=
  match r.res with
  | none =>
      match F.get? r.pos with
      | none => none
      | some b => some ((b >>> 7) &&& 1, { pos := r.pos + 1, res := some (b, 6) })
  | some (b, s) =>
      some ((b >>> s) &&& 1, { r with res := if s = 0 then none else some (b, s - 1) })

/-- Read one raw byte at the current stream position. -/
def readByteRaw (F : List Nat) (r : RState) : Option (Nat × RState) :=
  match F.get? r.pos with
  | none => none
  | some v => some (v, { r with pos := r.pos + 1 })

/-- The reader, started at `r`, asked for the token kinds of `ts` in order,
reads exactly the token values and ends at `r'`. -/
def ReadsToks (F : List Nat) : RState → List Tok → RState → Prop
  | r, [], r' => r' = r
  | r, .bit b :: ts, r' => ∃ r1, readBit F r = some (b, r1) ∧ ReadsToks F r1 ts r'
  | r, .byte v :: ts, r' => ∃ r1, readByteRaw F r = some (v, r1) ∧ ReadsToks F r1 ts r'

theorem ReadsToks_append (F : List Nat) (a : List Tok) :
    ∀ (b : List Tok) (r r' : RState), ReadsToks F r (a ++ b) r' ↔
      ∃ rm, ReadsToks F r a rm ∧ ReadsToks F rm b r' := by
  induction a with
  | nil =>
      intro b r r'
      constructor
      · intro h; exact ⟨r, rfl, h⟩
      · rintro ⟨rm, hrm, h⟩
        rw [show ReadsToks F r [] rm = (rm = r) from rfl] at hrm
        rw [hrm] at h
        exact h
  | cons t ts ih =>
      intro b r r'
      cases t with
      | bit v =>
          constructor
          · rintro ⟨r1, h1, h2⟩
            obtain ⟨rm, hrm, h3⟩ := (ih b r1 r').1 h2
            exact ⟨rm, ⟨r1, h1, hrm⟩, h3⟩
          · rintro ⟨rm, ⟨r1, h1, h2⟩, h3⟩
            exact ⟨r1, h1, (ih b r1 r').2 ⟨rm, h2, h3⟩⟩
      | byte v =>
          constructor
          · rintro ⟨r1, h1, h2⟩
            obtain ⟨rm, hrm, h3⟩ := (ih b r1 r').1 h2
            exact ⟨rm, ⟨r1, h1, hrm⟩, h3⟩
          · rintro ⟨rm, ⟨r1, h1, h2⟩, h3⟩
            exact ⟨r1, h1, (ih b r1 r').2 ⟨rm, h2, h3⟩⟩

/-- Packing future tokens never changes already-written bytes, except the bits
of the current reservoir byte at or below the current shift. -/
theorem pack_mono (ts : List Tok) :
    ∀ w : BWState, (∀ t ∈ ts, ∀ b, t = Tok.bit b → b ≤ 1) →
      w.out.length ≤ (pack w ts).out.length ∧
      (∀ j, j < w.out.length → (∀ i s, w.bitsOff = some (i, s) → j ≠ i) →
        (pack w ts).out.getD j 0 = w.out.getD j 0) ∧
      (∀ i s, w.bitsOff = some (i, s) → i < w.out.length →
        (pack w ts).out.getD i 0 >>> (s + 1) = w.out.getD i 0 >>> (s + 1)) := by
  induction ts with
  | nil => exact fun w _ => ⟨le_refl _, fun j _ _ => rfl, fun i s _ _ => rfl⟩
  | cons t ts ih =>
      intro w hts
      have hts' : ∀ t ∈ ts, ∀ b, t = Tok.bit b → b ≤ 1 := fun t ht => hts t (by simp [ht])
      rw [show pack w (t :: ts) = pack (packTok w t) ts from rfl]
      obtain ⟨ih1, ih2, ih3⟩ := ih (packTok w t) hts'
      cases t with
      | byte v =>
          refine ⟨le_trans (by simp [packTok]) ih1, ?_, ?_⟩
          · intro j hj hbits
            have h2 := ih2 j (by simp [packTok]; omega) (fun i s hbo => hbits i s hbo)
            rw [h2]
            exact List.getD_append _ _ _ _ hj
          · intro i s hbo hi
            have h3 := ih3 i s hbo (by simp [packTok]; omega)
            rw [h3]
            show (w.out ++ [v]).getD i 0 >>> (s + 1) = _
            rw [List.getD_append _ _ _ _ hi]
      | bit b =>
          have hb : b ≤ 1 := hts _ (by simp) b rfl
          cases hbo : w.bitsOff with
          | none =>
              have hpt : packTok w (.bit b) =
                  { out := w.out ++ [b <<< 7], bitsOff := some (w.out.length, 6) } := by
                simp [packTok, packBit, hbo]
              rw [hpt] at ih1 ih2 ih3 ⊢
              refine ⟨le_trans (by simp) ih1, ?_, ?_⟩
              · intro j hj _
                have h2 := ih2 j (by simp; omega) (by
                  intro i s his
                  simp only [Option.some.injEq, Prod.mk.injEq] at his
                  omega)
                rw [h2]
                exact List.getD_append _ _ _ _ hj
              · intro i s his _
                exact absurd his (by simp)
          | some p =>
              obtain ⟨i0, s0⟩ := p
              have hpt : packTok w (.bit b) =
                  { out := w.out.set i0 ((w.out.getD i0 0) ||| (b <<< s0)),
                    bitsOff := if s0 = 0 then none else some (i0, s0 - 1) } := by
                simp [packTok, packBit, hbo]
              rw [hpt] at ih1 ih2 ih3 ⊢
              refine ⟨le_trans (by simp) ih1, ?_, ?_⟩
              · intro j hj hbits
                have hji : j ≠ i0 := hbits i0 s0 rfl
                by_cases hs0 : s0 = 0
                · have h2 := ih2 j (by simp; omega) (by simp [hs0])
                  rw [h2]
                  exact getD_set_ne' _ _ _ _ _ (fun h => hji h.symm)
                · have h2 := ih2 j (by simp; omega) (by
                    intro i s his
                    simp only [hs0, if_false, Option.some.injEq, Prod.mk.injEq] at his
                    omega)
                  rw [h2]
                  exact getD_set_ne' _ _ _ _ _ (fun h => hji h.symm)
              · intro i s his hi
                have hii : i = i0 ∧ s = s0 := by
                  simpa [Prod.mk.injEq, eq_comm] using his
                obtain ⟨rfl, rfl⟩ := hii
                have hlt : (b <<< s) < 2 ^ (s + 1) := by
                  rw [Nat.shiftLeft_eq]
                  calc b * 2 ^ s ≤ 1 * 2 ^ s := by
                        exact Nat.mul_le_mul_right _ hb
                    _ < 2 ^ (s + 1) := by
                        have := Nat.two_pow_pos s
                        rw [pow_succ]
                        omega
                by_cases hs0 : s = 0
                · subst hs0
                  have h2 := ih2 i (by simp; omega) (by simp)
                  rw [h2, getD_set_self' _ _ _ _ hi, or_shiftRight,
                    shiftRight_eq_zero_of_lt _ _ hlt]
                  simp
                · have h3 := ih3 i (s - 1) (by simp [hs0]) (by simp; omega)
                  rw [show s - 1 + 1 = s by omega] at h3
                  have hchain : ∀ x : Nat, x >>> (s + 1) = (x >>> s) >>> 1 := by
                    intro x
                    rw [← Nat.shiftRight_add]
                  rw [hchain, h3, ← hchain, getD_set_self' _ _ _ _ hi, or_shiftRight,
                    shiftRight_eq_zero_of_lt _ _ hlt]
                  simp

/-- Arithmetic core of a single bit write into a byte whose bits at and below
the current shift position are still zero. -/
theorem packed_bit_facts (x b s : Nat) (hb : b ≤ 1) (hx : x % 2 ^ (s + 1) = 0) :
    (x ||| (b <<< s)) = x + b * 2 ^ s ∧
    (x + b * 2 ^ s) % 2 ^ s = 0 ∧
    ((x + b * 2 ^ s) >>> s) % 2 = b ∧
    ((x + b * 2 ^ s) >>> (s + 1)) = x >>> (s + 1) := by
  obtain ⟨k, hk⟩ : ∃ k, x = 2 ^ (s + 1) * k :=
    ⟨x / 2 ^ (s + 1), (Nat.mul_div_cancel' (Nat.dvd_of_mod_eq_zero hx)).symm⟩
  have hp := Nat.two_pow_pos s
  have hor : (x ||| (b <<< s)) = x + b * 2 ^ s := by
    rw [Nat.shiftLeft_eq]
    apply or_eq_add_of_lt _ _ (s + 1) hx
    calc b * 2 ^ s ≤ 1 * 2 ^ s := Nat.mul_le_mul_right _ hb
      _ < 2 ^ (s + 1) := by rw [pow_succ]; omega
  have hdvd : 2 ^ s ∣ x := by
    refine ⟨2 * k, ?_⟩
    rw [hk, pow_succ]
    ring
  have hdiv : x / 2 ^ s = 2 * k := by
    rw [hk]
    have h1 := pow_mul_div_pow s 1 k
    rw [show (2 : Nat) ^ 1 = 2 from rfl] at h1
    exact h1
  refine ⟨hor, ?_, ?_, ?_⟩
  · rw [hk, show 2 ^ (s + 1) * k + b * 2 ^ s = 2 ^ s * (2 * k + b) by rw [pow_succ]; ring]
    exact Nat.mul_mod_right _ _
  · rw [Nat.shiftRight_eq_div_pow, Nat.add_div_of_dvd_right hdvd, hdiv,
      Nat.mul_div_cancel _ hp]
    omega
  · rw [Nat.shiftRight_eq_div_pow, Nat.shiftRight_eq_div_pow]
    have hdvd1 : 2 ^ (s + 1) ∣ x := Nat.dvd_of_mod_eq_zero hx
    rw [Nat.add_div_of_dvd_right hdvd1]
    have h0 : b * 2 ^ s / 2 ^ (s + 1) = 0 := by
      apply Nat.div_eq_of_lt
      calc b * 2 ^ s ≤ 1 * 2 ^ s := Nat.mul_le_mul_right _ hb
        _ < 2 ^ (s + 1) := by rw [pow_succ]; omega
    rw [h0]
    exact Nat.add_zero _

/-- Correspondence between the writer state and the reader state over the
final buffer `F`: the reader is positioned exactly past the bytes written so
far, and its bit reservoir mirrors the writer's partial byte (whose bits at
and below the current shift are still zero). -/
def Corr (F : List Nat) (w : BWState) (r : RState) : Prop :=
  r.pos = w.out.length ∧
  ((w.bitsOff = none ∧ r.res = none) ∨
   (∃ i s, w.bitsOff = some (i, s) ∧ r.res = some (F.getD i 0, s) ∧
     i < w.out.length ∧ s < 8 ∧ w.out.getD i 0 % 2 ^ (s + 1) = 0))

/-- Reading the packed buffer recovers exactly the written token sequence. -/
theorem reads_pack (ts : List Tok) :
    ∀ (w : BWState) (r : RState), (∀ t ∈ ts, ∀ b, t = Tok.bit b → b ≤ 1) →
      Corr (pack w ts).out w r →
      ∃ r', ReadsToks (pack w ts).out r ts r' ∧ Corr (pack w ts).out (pack w ts) r' := by
  induction ts with
  | nil => exact fun w r _ hc => ⟨r, rfl, hc⟩
  | cons t ts ih =>
      intro w r hts hc
      have hts' : ∀ t ∈ ts, ∀ b, t = Tok.bit b → b ≤ 1 := fun t ht => hts t (by simp [ht])
      obtain ⟨hpos, hres⟩ := hc
      rw [show pack w (t :: ts) = pack (packTok w t) ts from rfl] at *
      obtain ⟨m1, m2, m3⟩ := pack_mono ts (packTok w t) hts'
      cases t with
      | byte v =>
          have hlen1 : (packTok w (Tok.byte v)).out.length = w.out.length + 1 := by
            simp [packTok]
          have hbitsK : (packTok w (Tok.byte v)).bitsOff = w.bitsOff := rfl
          have hout1 : (packTok w (Tok.byte v)).out = w.out ++ [v] := rfl
          have hposlt : r.pos < (pack (packTok w (Tok.byte v)) ts).out.length := by
            rw [hpos]
            rw [hlen1] at m1
            omega
          rcases hres with ⟨hbo, hrr⟩ | ⟨i, s, hbo, hrr, hlt, hs8, hz⟩
          · have hval : (pack (packTok w (Tok.byte v)) ts).out.getD w.out.length 0 = v := by
              have h2 := m2 w.out.length (by rw [hlen1]; omega) (by
                intro i' s' hbo'
                rw [hbitsK, hbo] at hbo'
                exact absurd hbo' (by simp))
              rw [h2, hout1]
              exact getD_concat_length _ _ _
            have hr1 : readByteRaw (pack (packTok w (Tok.byte v)) ts).out r =
                some (v, RState.mk (r.pos + 1) r.res) := by
              simp only [readByteRaw]
              rw [hpos] at hposlt ⊢
              simp only [get?_eq_getD _ _ 0 hposlt]
              rw [hval]
            have hcorr1 : Corr (pack (packTok w (Tok.byte v)) ts).out
                (packTok w (Tok.byte v)) (RState.mk (r.pos + 1) r.res) :=
              ⟨by show r.pos + 1 = _; rw [hpos, hlen1],
               Or.inl ⟨by rw [hbitsK, hbo], hrr⟩⟩
            obtain ⟨r', hreads, hcorr'⟩ := ih (packTok w (Tok.byte v))
              (RState.mk (r.pos + 1) r.res) hts' hcorr1
            exact ⟨r', ⟨_, hr1, hreads⟩, hcorr'⟩
          · have hval : (pack (packTok w (Tok.byte v)) ts).out.getD w.out.length 0 = v := by
              have h2 := m2 w.out.length (by rw [hlen1]; omega) (by
                intro i' s' hbo'
                rw [hbitsK, hbo] at hbo'
                simp only [Option.some.injEq, Prod.mk.injEq] at hbo'
                omega)
              rw [h2, hout1]
              exact getD_concat_length _ _ _
            have hr1 : readByteRaw (pack (packTok w (Tok.byte v)) ts).out r =
                some (v, RState.mk (r.pos + 1) r.res) := by
              simp only [readByteRaw]
              rw [hpos] at hposlt ⊢
              simp only [get?_eq_getD _ _ 0 hposlt]
              rw [hval]
            have hcorr1 : Corr (pack (packTok w (Tok.byte v)) ts).out
                (packTok w (Tok.byte v)) (RState.mk (r.pos + 1) r.res) := by
              refine ⟨by show r.pos + 1 = _; rw [hpos, hlen1],
                Or.inr ⟨i, s, by rw [hbitsK, hbo], hrr, by rw [hlen1]; omega, hs8, ?_⟩⟩
              rw [hout1, List.getD_append _ _ _ _ hlt]
              exact hz
            obtain ⟨r', hreads, hcorr'⟩ := ih (packTok w (Tok.byte v))
              (RState.mk (r.pos + 1) r.res) hts' hcorr1
            exact ⟨r', ⟨_, hr1, hreads⟩, hcorr'⟩
      | bit b =>
          have hb : b ≤ 1 := hts _ (by simp) b rfl
          rcases hres with ⟨hbo, hrr⟩ | ⟨i, s, hbo, hrr, hlt, hs8, hz⟩
          · have hpt : packTok w (Tok.bit b) = BWState.mk (w.out ++ [b <<< 7])
                (some (w.out.length, 6)) := by
              simp [packTok, packBit, hbo]
            rw [hpt] at m1 m2 m3 ⊢
            set W : BWState := BWState.mk (w.out ++ [b <<< 7]) (some (w.out.length, 6)) with hW
            have hWout : W.out = w.out ++ [b <<< 7] := by rw [hW]
            have hWbo : W.bitsOff = some (w.out.length, 6) := by rw [hW]
            have hWlen : W.out.length = w.out.length + 1 := by rw [hWout]; simp
            have hWgetD : W.out.getD w.out.length 0 = b <<< 7 := by
              rw [hWout]
              exact getD_concat_length _ _ _
            have hposlt : r.pos < (pack W ts).out.length := by
              rw [hpos]; omega
            have h3 := m3 w.out.length 6 hWbo (by omega)
            rw [show (6 : Nat) + 1 = 7 from rfl] at h3
            have hFb : (pack W ts).out.getD w.out.length 0 >>> 7 = b := by
              rw [h3, hWgetD, Nat.shiftLeft_eq, Nat.shiftRight_eq_div_pow,
                Nat.mul_div_cancel _ (Nat.two_pow_pos 7)]
            have hval : ((pack W ts).out.getD w.out.length 0 >>> 7) &&& 1 = b := by
              rw [hFb]
              exact and_one_of_le_one hb
            have hr1 : readBit (pack W ts).out r = some (b, RState.mk (r.pos + 1)
                (some ((pack W ts).out.getD w.out.length 0, 6))) := by
              simp only [readBit, hrr]
              rw [hpos] at hposlt ⊢
              simp only [get?_eq_getD _ _ 0 hposlt]
              rw [hval]
            have hcorr1 : Corr (pack W ts).out W (RState.mk (r.pos + 1)
                (some ((pack W ts).out.getD w.out.length 0, 6))) := by
              refine ⟨by show r.pos + 1 = W.out.length; rw [hpos, hWlen], ?_⟩
              refine Or.inr ⟨w.out.length, 6, hWbo, rfl, by omega, by omega, ?_⟩
              rw [hWgetD, Nat.shiftLeft_eq]
              exact Nat.mul_mod_left b (2 ^ 7)
            obtain ⟨r', hreads, hcorr'⟩ := ih W (RState.mk (r.pos + 1)
              (some ((pack W ts).out.getD w.out.length 0, 6))) hts' hcorr1
            exact ⟨r', ⟨_, hr1, hreads⟩, hcorr'⟩
          · have hpt : packTok w (Tok.bit b) = BWState.mk
                (w.out.set i ((w.out.getD i 0) ||| (b <<< s)))
                (if s = 0 then none else some (i, s - 1)) := by
              simp [packTok, packBit, hbo]
            rw [hpt] at m1 m2 m3 hrr ⊢
            set W : BWState := BWState.mk (w.out.set i ((w.out.getD i 0) ||| (b <<< s)))
              (if s = 0 then none else some (i, s - 1)) with hW
            have hWout : W.out = w.out.set i ((w.out.getD i 0) ||| (b <<< s)) := by rw [hW]
            have hWbo : W.bitsOff = if s = 0 then none else some (i, s - 1) := by rw [hW]
            obtain ⟨f1, f2, f3, -⟩ := packed_bit_facts (w.out.getD i 0) b s hb hz
            have hWlen : W.out.length = w.out.length := by rw [hWout]; simp
            have hWgetD : W.out.getD i 0 = w.out.getD i 0 + b * 2 ^ s := by
              rw [hWout, getD_set_self' _ _ _ _ hlt, f1]
            have hFs : (pack W ts).out.getD i 0 >>> s =
                (w.out.getD i 0 + b * 2 ^ s) >>> s := by
              rcases Nat.eq_zero_or_pos s with hs0 | hs1
              · have h2 := m2 i (by rw [hWlen]; exact hlt) (by
                  intro i' s' hbo'
                  rw [hWbo, if_pos hs0] at hbo'
                  exact absurd hbo' (by simp))
                rw [h2, hWgetD]
              · have h3 := m3 i (s - 1) (by rw [hWbo, if_neg (by omega)])
                  (by rw [hWlen]; exact hlt)
                rw [show s - 1 + 1 = s from by omega] at h3
                rw [h3, hWgetD]
            have hval : ((pack W ts).out.getD i 0 >>> s) &&& 1 = b := by
              rw [hFs, Nat.and_one_is_mod]
              exact f3
            have hr1 : readBit (pack W ts).out r = some (b, RState.mk r.pos
                (if s = 0 then none else some ((pack W ts).out.getD i 0, s - 1))) := by
              simp only [readBit, hrr]
              rw [hval]
            have hcorr1 : Corr (pack W ts).out W (RState.mk r.pos
                (if s = 0 then none else some ((pack W ts).out.getD i 0, s - 1))) := by
              refine ⟨by show r.pos = W.out.length; rw [hpos, hWlen], ?_⟩
              rcases Nat.eq_zero_or_pos s with hs0 | hs1
              · refine Or.inl ⟨by rw [hWbo, if_pos hs0], ?_⟩
                show (if s = 0 then none else some ((pack W ts).out.getD i 0, s - 1)) = none
                rw [if_pos hs0]
              · refine Or.inr ⟨i, s - 1, by rw [hWbo, if_neg (by omega)], ?_,
                  by rw [hWlen]; exact hlt, by omega, ?_⟩
                · show (if s = 0 then none else some ((pack W ts).out.getD i 0, s - 1)) =
                    some ((pack W ts).out.getD i 0, s - 1)
                  rw [if_neg (by omega)]
                · rw [hWgetD, show s - 1 + 1 = s from by omega]
                  exact f2
            obtain ⟨r', hreads, hcorr'⟩ := ih W (RState.mk r.pos
              (if s = 0 then none else some ((pack W ts).out.getD i 0, s - 1))) hts' hcorr1
            exact ⟨r', ⟨_, hr1, hreads⟩, hcorr'⟩


/-! ### The conformant ZX0 decoder

Modelled from the spec: the bitstream format description and decoder
behaviour (initial literals without a token bit, token-bit command
alternation, interlaced Elias-gamma codes, offset reconstruction and the
gamma-of-256 end marker).  The repository contains no decoder source. -/

theorem and_mask_eq_mod (x k : Nat) : x &&& (2 ^ k - 1) = x % 2 ^ k := by
  apply Nat.eq_of_testBit_eq
  intro i
  simp [Nat.testBit_and, Nat.testBit_two_pow_sub_one, Nat.testBit_mod_two_pow,
    Bool.and_comm]

theorem and_double (a b : Nat) : (2 * a) &&& (2 * b) = 2 * (a &&& b) := by
  apply Nat.eq_of_testBit_eq
  intro i
  rw [show 2 * a = a <<< 1 by rw [Nat.shiftLeft_eq]; ring,
    show 2 * b = b <<< 1 by rw [Nat.shiftLeft_eq]; ring,
    show 2 * (a &&& b) = (a &&& b) <<< 1 by rw [Nat.shiftLeft_eq]; ring]
  simp only [Nat.testBit_and, Nat.testBit_shiftLeft]
  cases hd : decide (1 ≤ i) <;> simp [Nat.testBit_and]

/-- Decoding the synthesized low-offset byte: its high seven bits recover the
low part of `offset - 1`, its LSB is the carried first length-gamma bit, and
the gamma-coded high part is below the end marker 256. -/
theorem lowOffsetByte_decode (o L : Nat) (h1 : 1 ≤ o) (h2 : o ≤ MAX_OFFSET) :
    ((((o - 1) >>> 7) + 1) - 1) * 128 + (127 - (lowOffsetByte o L >>> 1)) + 1 = o ∧
    lowOffsetByte o L &&& 1 = firstGammaBit (L - 1) ∧
    ((o - 1) >>> 7) + 1 < 256 := by
  have hm : (o - 1) &&& 127 = (o - 1) % 128 := by
    have h := and_mask_eq_mod (o - 1) 7
    norm_num at h
    exact h
  have hq : (o - 1) >>> 7 = (o - 1) / 128 := by
    rw [Nat.shiftRight_eq_div_pow]
  have hmlt : (o - 1) % 128 < 128 := Nat.mod_lt _ (by omega)
  have hfgb : firstGammaBit (L - 1) ≤ 1 := by
    rw [firstGammaBit]
    split <;> omega
  have hlow : lowOffsetByte o L = 2 * (127 - (o - 1) % 128) + firstGammaBit (L - 1) := by
    rw [lowOffsetByte, hm]
    have hs : (255 - (o - 1) % 128) <<< 1 = 2 * (255 - (o - 1) % 128) := by
      rw [Nat.shiftLeft_eq]; ring
    have hb : (2 * (255 - (o - 1) % 128)) &&& 255 = 2 * (127 - (o - 1) % 128) := by
      have h := and_mask_eq_mod (2 * (255 - (o - 1) % 128)) 8
      norm_num at h
      rw [h, Nat.mod_eq_sub_mod (by omega), Nat.mod_eq_of_lt (by omega)]
      omega
    have hc : (2 * (127 - (o - 1) % 128)) &&& 0xfe = 2 * (127 - (o - 1) % 128) := by
      rw [show (0xfe : Nat) = 2 * 127 from rfl, and_double]
      have h := and_mask_eq_mod (127 - (o - 1) % 128) 7
      norm_num at h
      rw [h, Nat.mod_eq_of_lt (by omega)]
    rw [hs, hb, hc]
    exact or_eq_add_of_lt _ _ 1 (by omega) (by omega)
  refine ⟨?_, ?_, ?_⟩
  · rw [hlow, hq]
    have hsr : (2 * (127 - (o - 1) % 128) + firstGammaBit (L - 1)) >>> 1 =
        127 - (o - 1) % 128 := by
      rw [Nat.shiftRight_eq_div_pow, pow_one, Nat.mul_add_div (by omega)]
      omega
    rw [hsr]
    have hdm := Nat.div_add_mod (o - 1) 128
    omega
  · rw [hlow, Nat.and_one_is_mod]
    omega
  · rw [hq]
    have h254 : (o - 1) / 128 ≤ 32639 / 128 :=
      Nat.div_le_div_right (show o - 1 ≤ 32639 by rw [MAX_OFFSET] at h2; omega)
    omega


/-- Modelled from the spec: interlaced Elias-gamma reader.  The value starts
at 1; a control bit 1 terminates, a control bit 0 is followed by one data bit
(un-inverted in inverted mode) shifted into the value. -/
def zx0ReadGamma (F : List Nat) (inv : Bool) : Nat → Nat → RState → Option (Nat × RState)
  | 0, _, _ => none
  | gfuel + 1, val, r =>
      match readBit F r with
      | none => none
      | some (c, r1) =>
          if c = 1 then some (val, r1)
          else
            match readBit F r1 with
            | none => none
            | some (d, r2) =>
                zx0ReadGamma F inv gfuel (2 * val + (if inv then 1 - d else d)) r2

/-- Modelled from the spec: gamma reader whose first control bit `c0` was
carried in the LSB of the preceding low-offset byte. -/
def zx0ReadGammaLSB (F : List Nat) (inv : Bool) (gfuel : Nat) (c0 : Nat) (r : RState) :
    Option (Nat × RState) :=
  if c0 = 1 then some (1, r)
  else
    match readBit F r with
    | none => none
    | some (d, r1) => zx0ReadGamma F inv gfuel (2 * 1 + (if inv then 1 - d else d)) r1

/-- Modelled from the spec: read `n` raw literal bytes from the stream. -/
def zx0ReadBytes (F : List Nat) : Nat → RState → Option (List Nat × RState)
  | 0, r => some ([], r)
  | n + 1, r =>
      match readByteRaw F r with
      | none => none
      | some (v, r1) =>
          match zx0ReadBytes F n r1 with
          | none => none
          | some (bs, r2) => some (v :: bs, r2)

/-- Modelled from the spec: copy `len` bytes from `off` back, byte by byte
(overlap-correct). -/
def zx0Copy : List Nat → Nat → Nat → Option (List Nat)
  | out, _, 0 => some out
  | out, off, len + 1 =>
      if 1 ≤ off ∧ off ≤ out.length then
        zx0Copy (out ++ [out.getD (out.length - off) 0]) off len
      else none

/-! ### Gamma reconstruction -/

theorem foldl_bits_range (v : Nat) : ∀ (L a : Nat),
    List.foldl (fun acc d => 2 * acc + d) a
      ((List.range L).reverse.map (fun j => (v >>> j) &&& 1)) = a * 2 ^ L + v % 2 ^ L := by
  intro L
  induction L with
  | zero => intro a; simp [Nat.mod_one]
  | succ L ih =>
      intro a
      simp only [List.range_succ, List.reverse_append, List.reverse_cons,
        List.reverse_nil, List.nil_append, List.singleton_append, List.map_cons,
        List.foldl_cons]
      rw [ih (2 * a + ((v >>> L) &&& 1))]
      have hm : v % 2 ^ (L + 1) = ((v >>> L) &&& 1) * 2 ^ L + v % 2 ^ L := by
        rw [Nat.and_one_is_mod, Nat.shiftRight_eq_div_pow, Nat.mod_pow_succ]
        ring
      rw [hm, pow_succ]
      ring

theorem foldl_eliasDataBits (v : Nat) (hv : 1 ≤ v) :
    List.foldl (fun acc d => 2 * acc + d) 1 (eliasDataBits v) = v := by
  rw [eliasDataBits, log2F_self, foldl_bits_range]
  have h1 := Nat.log2_self_le (show v ≠ 0 by omega)
  have h2 : v < 2 ^ Nat.log2 v + 2 ^ Nat.log2 v := by
    have h3 := Nat.lt_log2_self (n := v)
    rw [pow_succ] at h3
    omega
  have h4 : v % 2 ^ Nat.log2 v = v - 2 ^ Nat.log2 v := by
    rw [Nat.mod_eq_sub_mod h1, Nat.mod_eq_of_lt (by omega)]
  omega

theorem eliasDataBits_length (v : Nat) : (eliasDataBits v).length = Nat.log2 v := by
  simp [eliasDataBits, log2F_self]

theorem log2_lt_self (v : Nat) (hv : 1 ≤ v) : Nat.log2 v < v := by
  have h2 := Nat.lt_log2_self (n := v)
  by_contra hc
  have h3 : v ≤ Nat.log2 v := by omega
  have h4 : 2 ^ Nat.log2 v ≤ Nat.log2 v := by
    calc 2 ^ Nat.log2 v ≤ v := Nat.log2_self_le (by omega)
      _ ≤ Nat.log2 v := h3
  have h5 := Nat.lt_two_pow (Nat.log2 v)
  omega

/-! ### Reading back the written gamma codes -/

theorem readGamma_bitsToks (F : List Nat) (inv : Bool) :
    ∀ (bs : List Nat) (val : Nat) (r r' : RState) (gfuel : Nat),
      (∀ x ∈ bs, x ≤ 1) → bs.length + 1 ≤ gfuel →
      ReadsToks F r (bitsToks inv bs) r' →
      zx0ReadGamma F inv gfuel val r =
        some (List.foldl (fun acc d => 2 * acc + d) val bs, r') := by
  intro bs
  induction bs with
  | nil =>
      intro val r r' gfuel hbs hg hr
      obtain ⟨r1, hb, hrest⟩ := hr
      have hr' : r' = r1 := hrest
      subst hr'
      obtain ⟨g, rfl⟩ : ∃ g, gfuel = g + 1 := ⟨gfuel - 1, by omega⟩
      simp [zx0ReadGamma, hb]
  | cons x bs ih =>
      intro val r r' gfuel hbs hg hr
      obtain ⟨r1, hb0, hr1⟩ := hr
      obtain ⟨r2, hbd, hr2⟩ := hr1
      obtain ⟨g, rfl⟩ : ∃ g, gfuel = g + 1 := ⟨gfuel - 1, by omega⟩
      have hx : x ≤ 1 := hbs x (by simp)
      have hdd : (if inv then 1 - (if inv then 1 - x else x) else (if inv then 1 - x else x))
          = x := by
        rcases inv with _ | _
        · simp
        · simp only [if_true]
          omega
      have hrec := ih (2 * val + x) r2 r' g (fun y hy => hbs y (by simp [hy]))
        (by simpa using hg) hr2
      simp only [zx0ReadGamma, hb0, hbd, hdd, List.foldl_cons]
      simp only [show ¬ (0 = 1) by omega, if_false]
      exact hrec

theorem readGamma_gammaToks (F : List Nat) (inv : Bool) (v : Nat) (hv : 1 ≤ v)
    (r r' : RState) (gfuel : Nat) (hg : v + 1 ≤ gfuel)
    (hr : ReadsToks F r (gammaToks v inv) r') :
    zx0ReadGamma F inv gfuel 1 r = some (v, r') := by
  rw [gammaToks_eq_bitsToks] at hr
  rw [readGamma_bitsToks F inv (eliasDataBits v) 1 r r' gfuel (eliasDataBits_le_one v)
    (by rw [eliasDataBits_length]; have := log2_lt_self v hv; omega) hr,
    foldl_eliasDataBits v hv]

theorem readGammaLSB_gammaToks (F : List Nat) (v : Nat) (hv : 1 ≤ v)
    (r r' : RState) (gfuel : Nat) (hg : v + 1 ≤ gfuel)
    (hr : ReadsToks F r (gammaToks v false).tail r') :
    zx0ReadGammaLSB F false gfuel (firstGammaBit v) r = some (v, r') := by
  rw [gammaToks_eq_bitsToks] at hr
  cases hE : eliasDataBits v with
  | nil =>
      have hfb : firstGammaBit v = 1 := by simp [firstGammaBit, hE]
      have hE0 : Nat.log2 v = 0 := by
        have := eliasDataBits_length v
        rw [hE] at this
        simpa using this.symm
      have hv1 : v = 1 := by
        have h2 := Nat.lt_log2_self (n := v)
        rw [hE0] at h2
        norm_num at h2
        omega
      rw [hE] at hr
      have hr' : r' = r := hr
      simp only [zx0ReadGammaLSB, hfb, if_pos]
      simp [hr', hv1]
  | cons x bs =>
      have hfb : firstGammaBit v = 0 := by simp [firstGammaBit, hE]
      rw [hE] at hr
      obtain ⟨r1, hbd, hr1⟩ := hr
      have hble : ∀ y ∈ x :: bs, y ≤ 1 := by
        rw [← hE]
        exact eliasDataBits_le_one v
      have hx : x ≤ 1 := hble x (by simp)
      have hgood := readGamma_bitsToks F false bs (2 * 1 + x) r1 r' gfuel
        (fun y hy => hble y (by simp [hy]))
        (by
          have hl := eliasDataBits_length v
          rw [hE] at hl
          have := log2_lt_self v hv
          simp only [List.length_cons] at hl
          omega) hr1
      have hfold : List.foldl (fun acc d => 2 * acc + d) (2 * 1 + x) bs = v := by
        have h := foldl_eliasDataBits v hv
        rw [hE, List.foldl_cons] at h
        exact h
      rw [hfold] at hgood
      rw [zx0ReadGammaLSB, hfb]
      simp only [show ¬ ((0 : Nat) = 1) by omega, if_false]
      rw [show readBit F r = some (if false then 1 - x else x, r1) from hbd]
      simpa using hgood

theorem readBytes_toks (F : List Nat) : ∀ (bs : List Nat) (r r' : RState),
    ReadsToks F r (bs.map Tok.byte) r' →
    zx0ReadBytes F bs.length r = some (bs, r') := by
  intro bs
  induction bs with
  | nil =>
      intro r r' hr
      have hr' : r' = r := hr
      simp [zx0ReadBytes, hr']
  | cons x bs ih =>
      intro r r' hr
      obtain ⟨r1, hb, hr1⟩ := hr
      simp [zx0ReadBytes, hb, ih r1 r' hr1]


/-! ### Copy correctness -/

theorem getD_take {α : Type} : ∀ (xs : List α) (i k : Nat) (d : α), k < i →
    (xs.take i).getD k d = xs.getD k d
  | [], _, _, _, _ => by simp
  | _ :: _, i + 1, 0, _, _ => rfl
  | x :: xs, i + 1, k + 1, d, h => by
      simp only [List.take_succ_cons, List.getD_cons_succ]
      exact getD_take xs i k d (by omega)
  | _ :: _, 0, k, _, h => absurd h (by omega)

theorem take_concat_getD {α : Type} : ∀ (xs : List α) (i : Nat) (d : α), i < xs.length →
    xs.take i ++ [xs.getD i d] = xs.take (i + 1)
  | [], _, _, h => absurd h (by simp)
  | _ :: _, 0, _, _ => rfl
  | x :: xs, i + 1, d, h => by
      simp only [List.take_succ_cons, List.getD_cons_succ, List.cons_append]
      rw [take_concat_getD xs i d (by simpa using h)]

theorem zx0Copy_take (win : List Nat) : ∀ (len i off : Nat),
    1 ≤ off → off ≤ i → i + len ≤ win.length →
    (∀ j, j < len → win.getD (i + j) 0 = win.getD (i + j - off) 0) →
    zx0Copy (win.take i) off len = some (win.take (i + len)) := by
  intro len
  induction len with
  | zero => intro i off _ _ _ _; simp [zx0Copy]
  | succ len ih =>
      intro i off h1 h2 h3 h4
      have hlen : (win.take i).length = i := by
        rw [List.length_take]
        omega
      simp only [zx0Copy]
      rw [if_pos ⟨h1, by omega⟩]
      have hb : (win.take i).getD ((win.take i).length - off) 0 = win.getD i 0 := by
        rw [hlen, getD_take win i (i - off) 0 (by omega)]
        have := h4 0 (by omega)
        simp only [Nat.add_zero] at this
        exact this.symm
      have happ : win.take i ++ [win.getD i 0] = win.take (i + 1) :=
        take_concat_getD win i 0 (by omega)
      rw [hb, happ]
      have hrec := ih (i + 1) off h1 (by omega) (by omega) (by
        intro j hj
        have h := h4 (j + 1) (by omega)
        rw [show i + (j + 1) = i + 1 + j by omega] at h
        exact h)
      rw [hrec]
      rw [show i + 1 + len = i + (len + 1) by omega]


/-- Modelled from the spec: the decoder's two token-bit contexts.  After a
literals run, bit 0 introduces a rep-match; after a match, bit 0 introduces a
literals run; bit 1 always introduces a match with a new offset. -/
inductive ZMode where
  | afterLits
  | afterMatch
  deriving Repr, DecidableEq

/-- Modelled from the spec: the decoder's command loop.  `gfuel` bounds each
gamma read, `mfuel` the number of commands. -/
def zx0Loop (F : List Nat) (inv : Bool) (gfuel : Nat) :
    Nat → List Nat → Nat → ZMode → RState → Option (List Nat)
  | 0, _, _, _, _ => none
  | mfuel + 1, out, rep, mode, r =>
      match readBit F r with
      | none => none
      | some (c, r1) =>
          match mode, c with
          | ZMode.afterMatch, 0 =>
              match zx0ReadGamma F false gfuel 1 r1 with
              | none => none
              | some (n, r2) =>
                  match zx0ReadBytes F n r2 with
                  | none => none
                  | some (bs, r3) =>
                      zx0Loop F inv gfuel mfuel (out ++ bs) rep ZMode.afterLits r3
          | ZMode.afterLits, 0 =>
              match zx0ReadGamma F false gfuel 1 r1 with
              | none => none
              | some (len, r2) =>
                  match zx0Copy out rep len with
                  | none => none
                  | some out2 => zx0Loop F inv gfuel mfuel out2 rep ZMode.afterMatch r2
          | _, _ =>
              match zx0ReadGamma F inv gfuel 1 r1 with
              | none => none
              | some (high, r2) =>
                  if high = 256 then some out
                  else
                    match readByteRaw F r2 with
                    | none => none
                    | some (lo, r3) =>
                        match zx0ReadGammaLSB F false gfuel (lo &&& 1) r3 with
                        | none => none
                        | some (lm, r4) =>
                            match zx0Copy out ((high - 1) * 128 + (127 - (lo >>> 1)) + 1)
                                (lm + 1) with
                            | none => none
                            | some out2 =>
                                zx0Loop F inv gfuel mfuel out2
                                  ((high - 1) * 128 + (127 - (lo >>> 1)) + 1)
                                  ZMode.afterMatch r4

/-- Modelled from the spec: decode one complete (first and last) block.  The
dictionary prefix `dict` pre-loads the output; the stream starts with the raw
initial literals (run gamma, then bytes, with no token bit). -/
def zx0DecodeBlock (F : List Nat) (inv : Bool) (dict : List Nat) (rep0 : Nat)
    (mfuel gfuel : Nat) : Option (List Nat) :=
  match zx0ReadGamma F false gfuel 1 (RState.mk 0 none) with
  | none => none
  | some (n, r1) =>
      match zx0ReadBytes F n r1 with
      | none => none
      | some (bs, r2) => zx0Loop F inv gfuel mfuel (dict ++ bs) rep0 ZMode.afterLits r2

/-- Decoder configuration corresponding to a writer-loop state: before the
first command the initial-literals preamble is still pending; afterwards the
decoder sits behind a decoded match. -/
def DecEntry (F : List Nat) (inv : Bool) (gfuel : Nat) (fc : Bool) (out : List Nat)
    (rep : Nat) (r : RState) (mfuel : Nat) : Option (List Nat) :=
  if fc then
    match zx0ReadGamma F false gfuel 1 r with
    | none => none
    | some (n, r1) =>
        match zx0ReadBytes F n r1 with
        | none => none
        | some (bs, r2) => zx0Loop F inv gfuel mfuel (out ++ bs) rep ZMode.afterLits r2
  else zx0Loop F inv gfuel mfuel out rep ZMode.afterMatch r


/-! ### Single decoder steps -/

theorem zx0Loop_step_lits (F : List Nat) (inv : Bool) (gfuel m : Nat) (out bs : List Nat)
    (rep n : Nat) (r r1 r2 r3 : RState)
    (hb : readBit F r = some (0, r1))
    (hg : zx0ReadGamma F false gfuel 1 r1 = some (n, r2))
    (hbs : zx0ReadBytes F n r2 = some (bs, r3)) :
    zx0Loop F inv gfuel (m + 1) out rep ZMode.afterMatch r =
      zx0Loop F inv gfuel m (out ++ bs) rep ZMode.afterLits r3 := by
  simp [zx0Loop, hb, hg, hbs]

theorem zx0Loop_step_rep (F : List Nat) (inv : Bool) (gfuel m : Nat) (out out2 : List Nat)
    (rep len : Nat) (r r1 r2 : RState)
    (hb : readBit F r = some (0, r1))
    (hg : zx0ReadGamma F false gfuel 1 r1 = some (len, r2))
    (hc : zx0Copy out rep len = some out2) :
    zx0Loop F inv gfuel (m + 1) out rep ZMode.afterLits r =
      zx0Loop F inv gfuel m out2 rep ZMode.afterMatch r2 := by
  simp [zx0Loop, hb, hg, hc]

theorem zx0Loop_step_off (F : List Nat) (inv : Bool) (gfuel m : Nat) (out out2 : List Nat)
    (rep high lo lm : Nat) (mode : ZMode) (r r1 r2 r3 r4 : RState)
    (hb : readBit F r = some (1, r1))
    (hg : zx0ReadGamma F inv gfuel 1 r1 = some (high, r2))
    (hhigh : high ≠ 256)
    (hlo : readByteRaw F r2 = some (lo, r3))
    (hlsb : zx0ReadGammaLSB F false gfuel (lo &&& 1) r3 = some (lm, r4))
    (hc : zx0Copy out ((high - 1) * 128 + (127 - (lo >>> 1)) + 1) (lm + 1) = some out2) :
    zx0Loop F inv gfuel (m + 1) out rep mode r =
      zx0Loop F inv gfuel m out2 ((high - 1) * 128 + (127 - (lo >>> 1)) + 1)
        ZMode.afterMatch r4 := by
  have hlsb2 : zx0ReadGammaLSB F false gfuel (lo % 2) r3 = some (lm, r4) := by
    rw [← Nat.and_one_is_mod]
    exact hlsb
  cases mode <;> simp [zx0Loop, hb, hg, hhigh, hlo, hlsb, hlsb2, hc]

theorem zx0Loop_eod (F : List Nat) (inv : Bool) (gfuel m : Nat) (out : List Nat)
    (rep : Nat) (mode : ZMode) (r r1 r2 : RState)
    (hb : readBit F r = some (1, r1))
    (hg : zx0ReadGamma F inv gfuel 1 r1 = some (256, r2)) :
    zx0Loop F inv gfuel (m + 1) out rep mode r = some out := by
  cases mode <;> simp [zx0Loop, hb, hg]

theorem zx0Loop_eod_reads (F : List Nat) (inv : Bool) (gfuel : Nat) (out : List Nat)
    (rep : Nat) (mode : ZMode) (r r' : RState)
    (hr : ReadsToks F r (Tok.bit 1 :: gammaToks 256 inv) r')
    (hg : 257 ≤ gfuel) :
    ∀ m, 1 ≤ m → zx0Loop F inv gfuel m out rep mode r = some out := by
  intro m hm
  obtain ⟨m1, rfl⟩ : ∃ m1, m = m1 + 1 := ⟨m - 1, by omega⟩
  obtain ⟨r1, hb, hr1⟩ := hr
  exact zx0Loop_eod F inv gfuel m1 out rep mode r r1 r' hb
    (readGamma_gammaToks F inv 256 (by omega) r1 r' gfuel (by omega) hr1)

/-! ### Consuming one serialised command -/

theorem take_add_drop {α : Type} : ∀ (xs : List α) (a b : Nat),
    xs.take a ++ (xs.drop a).take b = xs.take (a + b)
  | _, 0, _ => by simp
  | [], _ + 1, _ => by simp
  | x :: xs, a + 1, b => by
      simp only [List.take_succ_cons, List.drop_succ_cons, List.cons_append]
      rw [take_add_drop xs a b, show a + 1 + b = (a + b) + 1 by omega]
      rfl

theorem consume_lits_mid (F : List Nat) (inv : Bool) (gfuel : Nat) (win : List Nat)
    (fo nl rep : Nat) (r r' : RState)
    (hnl : 1 ≤ nl) (hfe : fo + nl ≤ win.length) (hgf : nl + 1 ≤ gfuel)
    (hr : ReadsToks F r (serializeCmd inv (Cmd.lits false ((win.drop fo).take nl))) r') :
    ∀ m, zx0Loop F inv gfuel (m + 1) (win.take fo) rep ZMode.afterMatch r =
      zx0Loop F inv gfuel m (win.take (fo + nl)) rep ZMode.afterLits r' := by
  intro m
  have hbs : ((win.drop fo).take nl).length = nl := by
    rw [List.length_take, List.length_drop]
    omega
  have hser : serializeCmd inv (Cmd.lits false ((win.drop fo).take nl)) =
      Tok.bit 0 :: (gammaToks ((win.drop fo).take nl).length false ++
        ((win.drop fo).take nl).map Tok.byte) := by
    simp [serializeCmd]
  rw [hser] at hr
  obtain ⟨r1, hb, hrest⟩ := hr
  rw [ReadsToks_append] at hrest
  obtain ⟨rG, hgam, hbytes⟩ := hrest
  have hg := readGamma_gammaToks F false ((win.drop fo).take nl).length
    (by omega) r1 rG gfuel (by omega) hgam
  have hby := readBytes_toks F ((win.drop fo).take nl) rG r' hbytes
  rw [zx0Loop_step_lits F inv gfuel m (win.take fo) ((win.drop fo).take nl) rep
    ((win.drop fo).take nl).length r r1 rG r' hb hg hby, take_add_drop]

theorem consume_lits_preamble (F : List Nat) (inv : Bool) (gfuel : Nat) (win : List Nat)
    (fo nl rep : Nat) (r r' : RState)
    (hnl : 1 ≤ nl) (hfe : fo + nl ≤ win.length) (hgf : nl + 1 ≤ gfuel)
    (hr : ReadsToks F r (serializeCmd inv (Cmd.lits true ((win.drop fo).take nl))) r') :
    ∀ m, DecEntry F inv gfuel true (win.take fo) rep r m =
      zx0Loop F inv gfuel m (win.take (fo + nl)) rep ZMode.afterLits r' := by
  intro m
  have hbs : ((win.drop fo).take nl).length = nl := by
    rw [List.length_take, List.length_drop]
    omega
  have hser : serializeCmd inv (Cmd.lits true ((win.drop fo).take nl)) =
      gammaToks ((win.drop fo).take nl).length false ++
        ((win.drop fo).take nl).map Tok.byte := by
    simp [serializeCmd]
  rw [hser] at hr
  rw [ReadsToks_append] at hr
  obtain ⟨rG, hgam, hbytes⟩ := hr
  have hg := readGamma_gammaToks F false ((win.drop fo).take nl).length
    (by omega) r rG gfuel (by omega) hgam
  have hby := readBytes_toks F ((win.drop fo).take nl) rG r' hbytes
  simp only [DecEntry, if_true, hg, hby]
  rw [take_add_drop]

theorem consume_rep (F : List Nat) (inv : Bool) (gfuel : Nat) (win : List Nat)
    (i len rep : Nat) (r r' : RState)
    (hlen1 : 1 ≤ len) (hrep1 : 1 ≤ rep) (hrepi : rep ≤ i) (hiend : i + len ≤ win.length)
    (hgf : len + 1 ≤ gfuel)
    (htruth : ∀ j, j < len → win.getD (i + j) 0 = win.getD (i + j - rep) 0)
    (hr : ReadsToks F r (serializeCmd inv (Cmd.rep len)) r') :
    ∀ m, zx0Loop F inv gfuel (m + 1) (win.take i) rep ZMode.afterLits r =
      zx0Loop F inv gfuel m (win.take (i + len)) rep ZMode.afterMatch r' := by
  intro m
  obtain ⟨r1, hb, hgam⟩ := hr
  have hg := readGamma_gammaToks F false len hlen1 r1 r' gfuel (by omega) hgam
  have hcopy := zx0Copy_take win len i rep hrep1 hrepi hiend htruth
  exact zx0Loop_step_rep F inv gfuel m (win.take i) (win.take (i + len)) rep len
    r r1 r' hb hg hcopy

theorem consume_off (F : List Nat) (inv : Bool) (gfuel : Nat) (win : List Nat)
    (i len o rep : Nat) (mode : ZMode) (r r' : RState)
    (hlen2 : 2 ≤ len) (ho1 : 1 ≤ o) (hoi : o ≤ i) (homax : o ≤ MAX_OFFSET)
    (hiend : i + len ≤ win.length) (hgf : len + 258 ≤ gfuel)
    (htruth : ∀ j, j < len → win.getD (i + j) 0 = win.getD (i + j - o) 0)
    (hr : ReadsToks F r (serializeCmd inv (Cmd.off o len)) r') :
    ∀ m, zx0Loop F inv gfuel (m + 1) (win.take i) rep mode r =
      zx0Loop F inv gfuel m (win.take (i + len)) o ZMode.afterMatch r' := by
  intro m
  obtain ⟨hdec, hlsbeq, hhlt⟩ := lowOffsetByte_decode o len ho1 homax
  obtain ⟨r1, hb1, hrest⟩ := hr
  rw [ReadsToks_append] at hrest
  obtain ⟨rH, hgamH, hrest2⟩ := hrest
  obtain ⟨r3, hlo, htail⟩ := hrest2
  have hgh := readGamma_gammaToks F inv (((o - 1) >>> 7) + 1) (by omega) r1 rH gfuel
    (by omega) hgamH
  have hlsb : zx0ReadGammaLSB F false gfuel (lowOffsetByte o len &&& 1) r3 =
      some (len - 1, r') := by
    rw [hlsbeq]
    exact readGammaLSB_gammaToks F (len - 1) (by omega) r3 r' gfuel (by omega) htail
  have hcopy : zx0Copy (win.take i)
      (((((o - 1) >>> 7) + 1) - 1) * 128 + (127 - (lowOffsetByte o len >>> 1)) + 1)
      ((len - 1) + 1) = some (win.take (i + len)) := by
    rw [hdec, show (len - 1) + 1 = len by omega]
    exact zx0Copy_take win len i o ho1 hoi hiend htruth
  have hstep := zx0Loop_step_off F inv gfuel m (win.take i) (win.take (i + len)) rep
    (((o - 1) >>> 7) + 1) (lowOffsetByte o len) (len - 1) mode r r1 rH r3 r'
    hb1 hgh (by omega) hlo hlsb hcopy
  rw [hstep, hdec]


/-! ### Further command-loop invariants -/

/-- If the first-command flag is still set at exit, the loop emitted nothing
and every scanned position became a pending literal. -/
theorem block_cmds_loop_fc_inv (pInWindow : List Nat) (pBestMatch : List FinalMatch)
    (nEndOffset nMaxOffset : Nat) :
    ∀ (fuel i nl fo : Nat) (fc : Bool) (rep : Nat) (cs : List Cmd) (a b : Nat) (c : Bool)
      (d : Nat),
      salvador_block_cmds_loop pInWindow pBestMatch nEndOffset nMaxOffset
          fuel i nl fo fc rep = some (cs, a, b, c, d) →
      c = true → fc = true ∧ a = nl + (nEndOffset - i) := by
  intro fuel
  induction fuel with
  | zero =>
      intro i nl fo fc rep cs a b c d h hc
      by_cases hi : i < nEndOffset
      · simp [salvador_block_cmds_loop, hi] at h
      · simp only [salvador_block_cmds_loop, hi, if_false] at h
        obtain ⟨h1, h2, h3, h4, h5⟩ := by simpa using h
        constructor
        · rw [h4]
          exact hc
        · omega
  | succ fuel ih =>
      intro i nl fo fc rep cs a b c d h hc
      by_cases hi : i < nEndOffset
      case neg =>
        simp only [salvador_block_cmds_loop, hi, if_false] at h
        obtain ⟨h1, h2, h3, h4, h5⟩ := by simpa using h
        constructor
        · rw [h4]
          exact hc
        · omega
      case pos =>
      by_cases hg : 2 ≤ (bmAt pBestMatch i).length ∨
          (1 ≤ (bmAt pBestMatch i).length ∧ (bmAt pBestMatch i).offset = rep ∧ nl ≠ 0)
      case neg =>
        simp only [salvador_block_cmds_loop, hi, if_true, hg, if_false] at h
        have := ih (i + 1) (nl + 1) (if nl = 0 then i else fo) fc rep cs a b c d h hc
        exact ⟨this.1, by omega⟩
      case pos =>
      by_cases hoff : (bmAt pBestMatch i).offset < MIN_OFFSET ∨
          nMaxOffset < (bmAt pBestMatch i).offset ∨ MAX_OFFSET < (bmAt pBestMatch i).offset
      case pos =>
        simp [salvador_block_cmds_loop, hi, hg, hoff] at h
      case neg =>
      by_cases hfc : fc = true ∧ nl = 0
      case pos =>
        have hg2 : 2 ≤ (bmAt pBestMatch i).length := by
          rcases hg with h2 | h2
          · exact h2
          · exact absurd hfc.2 h2.2.2
        simp [salvador_block_cmds_loop, hi, hg2, hoff, hfc] at h
      case neg =>
      simp only [salvador_block_cmds_loop, hi, if_true, hg, hoff, if_false, hfc] at h
      cases hrec : salvador_block_cmds_loop pInWindow pBestMatch nEndOffset nMaxOffset fuel
          (i + (bmAt pBestMatch i).length.toNat) 0 fo
          (if nl ≠ 0 then false else fc) (bmAt pBestMatch i).offset with
      | none => rw [hrec] at h; exact absurd h (by simp)
      | some rr =>
          rw [hrec] at h
          obtain ⟨r1, r2, r3, r4, r5⟩ := rr
          obtain ⟨h1, h2, h3, h4, h5⟩ := by simpa using h
          have hih := ih (i + (bmAt pBestMatch i).length.toNat) 0 fo
            (if nl ≠ 0 then false else fc) (bmAt pBestMatch i).offset r1 r2 r3 r4 r5 hrec
            (by rw [← h4] at hc; exact hc)
          exfalso
          by_cases hnl : nl = 0
          · have : fc = false := by
              cases hfv : fc
              · rfl
              · exact absurd ⟨hfv, hnl⟩ hfc
            rw [if_neg (by omega), this] at hih
            exact absurd hih.1 (by simp)
          · rw [if_pos hnl] at hih
            exact absurd hih.1 (by simp)

/-- At exit, a pending literal run abuts the end of the block. -/
theorem block_cmds_loop_exit_eq (pInWindow : List Nat) (pBestMatch : List FinalMatch)
    (nEndOffset nMaxOffset : Nat) :
    ∀ (fuel i nl fo : Nat) (fc : Bool) (rep : Nat) (cs : List Cmd) (a b : Nat) (c : Bool)
      (d : Nat),
      (nl ≠ 0 → fo + nl = i ∧ i ≤ nEndOffset) →
      salvador_block_cmds_loop pInWindow pBestMatch nEndOffset nMaxOffset
          fuel i nl fo fc rep = some (cs, a, b, c, d) →
      a ≠ 0 → b + a = nEndOffset := by
  intro fuel
  induction fuel with
  | zero =>
      intro i nl fo fc rep cs a b c d hfo h ha
      by_cases hi : i < nEndOffset
      · simp [salvador_block_cmds_loop, hi] at h
      · simp only [salvador_block_cmds_loop, hi, if_false] at h
        obtain ⟨h1, h2, h3, h4, h5⟩ := by simpa using h
        have := hfo (by omega)
        omega
  | succ fuel ih =>
      intro i nl fo fc rep cs a b c d hfo h ha
      by_cases hi : i < nEndOffset
      case neg =>
        simp only [salvador_block_cmds_loop, hi, if_false] at h
        obtain ⟨h1, h2, h3, h4, h5⟩ := by simpa using h
        have := hfo (by omega)
        omega
      case pos =>
      by_cases hg : 2 ≤ (bmAt pBestMatch i).length ∨
          (1 ≤ (bmAt pBestMatch i).length ∧ (bmAt pBestMatch i).offset = rep ∧ nl ≠ 0)
      case neg =>
        simp only [salvador_block_cmds_loop, hi, if_true, hg, if_false] at h
        refine ih (i + 1) (nl + 1) (if nl = 0 then i else fo) fc rep cs a b c d ?_ h ha
        intro _
        by_cases hnl : nl = 0
        · simp [hnl]; omega
        · have := hfo hnl
          simp only [hnl, if_false]
          omega
      case pos =>
      by_cases hoff : (bmAt pBestMatch i).offset < MIN_OFFSET ∨
          nMaxOffset < (bmAt pBestMatch i).offset ∨ MAX_OFFSET < (bmAt pBestMatch i).offset
      case pos =>
        simp [salvador_block_cmds_loop, hi, hg, hoff] at h
      case neg =>
      by_cases hfc : fc = true ∧ nl = 0
      case pos =>
        have hg2 : 2 ≤ (bmAt pBestMatch i).length := by
          rcases hg with h2 | h2
          · exact h2
          · exact absurd hfc.2 h2.2.2
        simp [salvador_block_cmds_loop, hi, hg2, hoff, hfc] at h
      case neg =>
      simp only [salvador_block_cmds_loop, hi, if_true, hg, hoff, if_false, hfc] at h
      cases hrec : salvador_block_cmds_loop pInWindow pBestMatch nEndOffset nMaxOffset fuel
          (i + (bmAt pBestMatch i).length.toNat) 0 fo
          (if nl ≠ 0 then false else fc) (bmAt pBestMatch i).offset with
      | none => rw [hrec] at h; exact absurd h (by simp)
      | some rr =>
          rw [hrec] at h
          obtain ⟨r1, r2, r3, r4, r5⟩ := rr
          obtain ⟨h1, h2, h3, h4, h5⟩ := by simpa using h
          have hih := ih (i + (bmAt pBestMatch i).length.toNat) 0 fo
            (if nl ≠ 0 then false else fc) (bmAt pBestMatch i).offset r1 r2 r3 r4 r5
            (by omega) hrec (by omega)
          omega

/-- The best-match entries describe true matches: positive in-range offsets,
lengths that stay inside the block, and byte-for-byte agreement with the
window `offset` positions back. -/
def ValidBM (win : List Nat) (bm : List FinalMatch) (endO : Nat) : Prop :=
  ∀ i, i < endO → 1 ≤ (bmAt bm i).length →
    1 ≤ (bmAt bm i).offset ∧ (bmAt bm i).offset ≤ i ∧
    i + (bmAt bm i).length.toNat ≤ endO ∧
    ∀ j, j < (bmAt bm i).length.toNat →
      win.getD (i + j) 0 = win.getD (i + j - (bmAt bm i).offset) 0


theorem DecEntry_false (F : List Nat) (inv : Bool) (gfuel : Nat) (out : List Nat)
    (rep : Nat) (r : RState) (m : Nat) :
    DecEntry F inv gfuel false out rep r m = zx0Loop F inv gfuel m out rep ZMode.afterMatch r
    := rfl

/-- The decoder, fed the reader trace of the serialised command list, tracks
the writer loop: from the state corresponding to loop entry it reaches the
state corresponding to loop exit (continuation-passing formulation). -/
theorem block_cmds_loop_decode (win : List Nat) (bm : List FinalMatch)
    (endO nMaxOffset : Nat) (F : List Nat) (inv : Bool)
    (hend : endO ≤ win.length) (hvm : ValidBM win bm endO) (gfuel : Nat)
    (hgf : endO + 258 ≤ gfuel) :
    ∀ (fuel i nl fo : Nat) (fc : Bool) (rep : Nat) (cs : List Cmd) (a b : Nat)
      (c : Bool) (d : Nat),
      salvador_block_cmds_loop win bm endO nMaxOffset fuel i nl fo fc rep
        = some (cs, a, b, c, d) →
      (nl ≠ 0 → fo + nl = i) → fo + nl ≤ endO → i ≤ endO →
      ∀ (r rm : RState), ReadsToks F r (serializeCmds inv cs) rm →
      ∀ (res : Option (List Nat)) (mexit : Nat),
        (∀ mf, mexit ≤ mf → DecEntry F inv gfuel c (win.take (endO - a)) d rm mf = res) →
        ∀ mf, mexit + 2 * fuel ≤ mf →
          DecEntry F inv gfuel fc (win.take (i - nl)) rep r mf = res := by
  intro fuel
  induction fuel with
  | zero =>
      intro i nl fo fc rep cs a b c d h hfo hinv hi2 r rm hreads res mexit hcont mf hmf
      by_cases hi : i < endO
      · simp [salvador_block_cmds_loop, hi] at h
      · simp only [salvador_block_cmds_loop, hi, if_false] at h
        obtain ⟨h1, h2, h3, h4, h5⟩ := by simpa using h
        subst h1 h2 h3 h4 h5
        have hrm : rm = r := hreads
        have hc := hcont mf (by omega)
        rw [hrm, show endO - nl = i - nl by omega] at hc
        exact hc
  | succ fuel ih =>
      intro i nl fo fc rep cs a b c d h hfo hinv hi2 r rm hreads res mexit hcont mf hmf
      by_cases hi : i < endO
      case neg =>
        simp only [salvador_block_cmds_loop, hi, if_false] at h
        obtain ⟨h1, h2, h3, h4, h5⟩ := by simpa using h
        subst h1 h2 h3 h4 h5
        have hrm : rm = r := hreads
        have hc := hcont mf (by omega)
        rw [hrm, show endO - nl = i - nl by omega] at hc
        exact hc
      case pos =>
      by_cases hg : 2 ≤ (bmAt bm i).length ∨
          (1 ≤ (bmAt bm i).length ∧ (bmAt bm i).offset = rep ∧ nl ≠ 0)
      case neg =>
        simp only [salvador_block_cmds_loop, hi, if_true, hg, if_false] at h
        have hfo' : nl + 1 ≠ 0 → (if nl = 0 then i else fo) + (nl + 1) = i + 1 := by
          intro _
          by_cases hnl : nl = 0
          · simp [hnl]
          · have := hfo hnl
            simp only [hnl, if_false]
            omega
        have hinv' : (if nl = 0 then i else fo) + (nl + 1) ≤ endO := by
          by_cases hnl : nl = 0
          · simp [hnl]
            omega
          · have := hfo hnl
            simp only [hnl, if_false]
            omega
        have hres := ih (i + 1) (nl + 1) (if nl = 0 then i else fo) fc rep cs a b c d h
          hfo' hinv' (by omega) r rm hreads res mexit hcont mf (by omega)
        rw [show i + 1 - (nl + 1) = i - nl by omega] at hres
        exact hres
      case pos =>
      by_cases hoff : (bmAt bm i).offset < MIN_OFFSET ∨
          nMaxOffset < (bmAt bm i).offset ∨ MAX_OFFSET < (bmAt bm i).offset
      case pos =>
        simp [salvador_block_cmds_loop, hi, hg, hoff] at h
      case neg =>
      by_cases hfc : fc = true ∧ nl = 0
      case pos =>
        have hg2 : 2 ≤ (bmAt bm i).length := by
          rcases hg with h2 | h2
          · exact h2
          · exact absurd hfc.2 h2.2.2
        simp [salvador_block_cmds_loop, hi, hg2, hoff, hfc] at h
      case neg =>
      have h1len : (1 : Int) ≤ (bmAt bm i).length := by
        rcases hg with h2 | h2
        · omega
        · exact h2.1
      obtain ⟨hof1, hofi, hlend, htruth⟩ := hvm i hi h1len
      have hlen1 : 1 ≤ (bmAt bm i).length.toNat := by omega
      have homax : (bmAt bm i).offset ≤ MAX_OFFSET := by omega
      by_cases hnl : nl = 0
      case pos =>
        have hfcF : fc = false := by
          cases hfv : fc
          · rfl
          · exact absurd ⟨hfv, hnl⟩ hfc
        have hcondF : ¬ ((bmAt bm i).offset = rep ∧ nl ≠ 0) := fun hx => hx.2 hnl
        have hlen2 : 2 ≤ (bmAt bm i).length.toNat := by
          rcases hg with h2 | h2
          · omega
          · exact absurd h2.2.2 (by simp [hnl])
        simp only [salvador_block_cmds_loop, hi, if_true, hg, hoff, if_false, hfc] at h
        cases hrec : salvador_block_cmds_loop win bm endO nMaxOffset fuel
            (i + (bmAt bm i).length.toNat) 0 fo (if nl ≠ 0 then false else fc)
            (bmAt bm i).offset with
        | none => rw [hrec] at h; exact absurd h (by simp)
        | some rr =>
            rw [hrec] at h
            obtain ⟨cs', a', b', c', d'⟩ := rr
            obtain ⟨h1, h2, h3, h4, h5⟩ := by simpa using h
            rw [if_pos hnl, if_neg (show ¬ ((bmAt bm i).offset = rep ∧ ¬ nl = 0)
              from fun hx => hx.2 hnl), List.nil_append] at h1
            rw [if_neg (show ¬ nl ≠ 0 by omega), hfcF] at hrec
            subst h1 h2 h3 h4 h5
            rw [serializeCmds_cons, ReadsToks_append] at hreads
            obtain ⟨rB, hrOff, hrRest⟩ := hreads
            have hih := ih (i + (bmAt bm i).length.toNat) 0 fo false (bmAt bm i).offset
              cs' a' b' c' d' hrec (by simp) (by omega) (by omega) rB rm hrRest res
              mexit hcont
            obtain ⟨m1, rfl⟩ : ∃ m1, mf = m1 + 1 := ⟨mf - 1, by omega⟩
            rw [hfcF, hnl, DecEntry_false, show i - 0 = i from rfl]
            rw [consume_off F inv gfuel win i (bmAt bm i).length.toNat
              (bmAt bm i).offset rep ZMode.afterMatch r rB hlen2 hof1 hofi homax
              (by omega) (by omega) htruth hrOff m1]
            have hfin := hih m1 (by omega)
            rw [DecEntry_false, show i + (bmAt bm i).length.toNat - 0 =
              i + (bmAt bm i).length.toNat from rfl] at hfin
            exact hfin
      case neg =>
      have hnl1 : 1 ≤ nl := by omega
      have hfoeq := hfo hnl
      have hfow : fo + nl ≤ win.length := by omega
      have hgfl : nl + 1 ≤ gfuel := by omega
      by_cases hrepm : (bmAt bm i).offset = rep
      case pos =>
        have hcondT : (bmAt bm i).offset = rep ∧ nl ≠ 0 := ⟨hrepm, hnl⟩
        simp only [salvador_block_cmds_loop, hi, if_true, hg, hoff, if_false, hfc] at h
        cases hrec : salvador_block_cmds_loop win bm endO nMaxOffset fuel
            (i + (bmAt bm i).length.toNat) 0 fo (if nl ≠ 0 then false else fc)
            (bmAt bm i).offset with
        | none => rw [hrec] at h; exact absurd h (by simp)
        | some rr =>
            rw [hrec] at h
            obtain ⟨cs', a', b', c', d'⟩ := rr
            obtain ⟨h1, h2, h3, h4, h5⟩ := by simpa using h
            rw [if_neg hnl, if_pos (show (bmAt bm i).offset = rep ∧ ¬ nl = 0
              from ⟨hrepm, hnl⟩), List.singleton_append] at h1
            rw [if_pos hnl, hrepm] at hrec
            subst h1 h2 h3 h4 h5
            rw [serializeCmds_cons, ReadsToks_append] at hreads
            obtain ⟨rA, hrLits, hrest⟩ := hreads
            rw [serializeCmds_cons, ReadsToks_append] at hrest
            obtain ⟨rB, hrRep, hrRest⟩ := hrest
            have hih := ih (i + (bmAt bm i).length.toNat) 0 fo false rep
              cs' a' b' c' d' hrec (by simp) (by omega) (by omega) rB rm hrRest res
              mexit hcont
            rw [hrepm] at hof1 hofi htruth
            rw [show i - nl = fo by omega]
            cases hfcv : fc
            case false =>
              rw [hfcv] at hrLits
              obtain ⟨m2, rfl⟩ : ∃ m2, mf = m2 + 2 := ⟨mf - 2, by omega⟩
              rw [DecEntry_false, show m2 + 2 = m2 + 1 + 1 from rfl]
              rw [consume_lits_mid F inv gfuel win fo nl rep r rA hnl1 hfow hgfl
                hrLits (m2 + 1)]
              rw [show fo + nl = i by omega]
              rw [consume_rep F inv gfuel win i (bmAt bm i).length.toNat rep rA rB
                hlen1 hof1 hofi (by omega) (by omega) htruth hrRep m2]
              have hfin := hih m2 (by omega)
              rw [DecEntry_false, show i + (bmAt bm i).length.toNat - 0 =
                i + (bmAt bm i).length.toNat from rfl] at hfin
              exact hfin
            case true =>
              rw [hfcv] at hrLits
              obtain ⟨m1, rfl⟩ : ∃ m1, mf = m1 + 1 := ⟨mf - 1, by omega⟩
              rw [consume_lits_preamble F inv gfuel win fo nl rep r rA hnl1 hfow hgfl
                hrLits (m1 + 1)]
              rw [show fo + nl = i by omega]
              rw [consume_rep F inv gfuel win i (bmAt bm i).length.toNat rep rA rB
                hlen1 hof1 hofi (by omega) (by omega) htruth hrRep m1]
              have hfin := hih m1 (by omega)
              rw [DecEntry_false, show i + (bmAt bm i).length.toNat - 0 =
                i + (bmAt bm i).length.toNat from rfl] at hfin
              exact hfin
      case neg =>
        have hcondF : ¬ ((bmAt bm i).offset = rep ∧ nl ≠ 0) := fun hx => hrepm hx.1
        have hlen2 : 2 ≤ (bmAt bm i).length.toNat := by
          rcases hg with h2 | h2
          · omega
          · exact absurd h2.2.1 hrepm
        simp only [salvador_block_cmds_loop, hi, if_true, hg, hoff, if_false, hfc] at h
        cases hrec : salvador_block_cmds_loop win bm endO nMaxOffset fuel
            (i + (bmAt bm i).length.toNat) 0 fo (if nl ≠ 0 then false else fc)
            (bmAt bm i).offset with
        | none => rw [hrec] at h; exact absurd h (by simp)
        | some rr =>
            rw [hrec] at h
            obtain ⟨cs', a', b', c', d'⟩ := rr
            obtain ⟨h1, h2, h3, h4, h5⟩ := by simpa using h
            rw [if_neg hnl, if_neg (show ¬ ((bmAt bm i).offset = rep ∧ ¬ nl = 0)
              from fun hx => hrepm hx.1), List.singleton_append] at h1
            rw [if_pos hnl] at hrec
            subst h1 h2 h3 h4 h5
            rw [serializeCmds_cons, ReadsToks_append] at hreads
            obtain ⟨rA, hrLits, hrest⟩ := hreads
            rw [serializeCmds_cons, ReadsToks_append] at hrest
            obtain ⟨rB, hrOff, hrRest⟩ := hrest
            have hih := ih (i + (bmAt bm i).length.toNat) 0 fo false (bmAt bm i).offset
              cs' a' b' c' d' hrec (by simp) (by omega) (by omega) rB rm hrRest res
              mexit hcont
            rw [show i - nl = fo by omega]
            cases hfcv : fc
            case false =>
              rw [hfcv] at hrLits
              obtain ⟨m2, rfl⟩ : ∃ m2, mf = m2 + 2 := ⟨mf - 2, by omega⟩
              rw [DecEntry_false, show m2 + 2 = m2 + 1 + 1 from rfl]
              rw [consume_lits_mid F inv gfuel win fo nl rep r rA hnl1 hfow hgfl
                hrLits (m2 + 1)]
              rw [show fo + nl = i by omega]
              rw [consume_off F inv gfuel win i (bmAt bm i).length.toNat
                (bmAt bm i).offset rep ZMode.afterLits rA rB hlen2 hof1 hofi homax
                (by omega) (by omega) htruth hrOff m2]
              have hfin := hih m2 (by omega)
              rw [DecEntry_false, show i + (bmAt bm i).length.toNat - 0 =
                i + (bmAt bm i).length.toNat from rfl] at hfin
              exact hfin
            case true =>
              rw [hfcv] at hrLits
              obtain ⟨m1, rfl⟩ : ∃ m1, mf = m1 + 1 := ⟨mf - 1, by omega⟩
              rw [consume_lits_preamble F inv gfuel win fo nl rep r rA hnl1 hfow hgfl
                hrLits (m1 + 1)]
              rw [show fo + nl = i by omega]
              rw [consume_off F inv gfuel win i (bmAt bm i).length.toNat
                (bmAt bm i).offset rep ZMode.afterLits rA rB hlen2 hof1 hofi homax
                (by omega) (by omega) htruth hrOff m1]
              have hfin := hih m1 (by omega)
              rw [DecEntry_false, show i + (bmAt bm i).length.toNat - 0 =
                i + (bmAt bm i).length.toNat from rfl] at hfin
              exact hfin


/-! ### All serialised bit tokens are genuine bits -/

theorem serializeCmd_bits_le_one (inv : Bool) (c : Cmd) :
    ∀ t ∈ serializeCmd inv c, ∀ b, t = Tok.bit b → b ≤ 1 := by
  intro t ht b htb
  cases c with
  | lits first bs =>
      simp only [serializeCmd, List.append_assoc, List.mem_append] at ht
      rcases ht with ht | ht | ht
      · cases first
        · simp only [if_neg (by simp : ¬ (false = true)), List.mem_singleton] at ht
          subst ht
          injection htb with hb
          omega
        · simp at ht
      · exact gammaToks_bits_le_one _ false t ht b htb
      · simp only [List.mem_map] at ht
        obtain ⟨y, _, rfl⟩ := ht
        exact absurd htb (by simp)
  | rep len =>
      simp only [serializeCmd, List.mem_cons] at ht
      rcases ht with rfl | ht
      · injection htb with hb
        omega
      · exact gammaToks_bits_le_one _ false t ht b htb
  | off o len =>
      simp only [serializeCmd, List.mem_cons, List.mem_append] at ht
      rcases ht with rfl | ht | rfl | ht
      · injection htb with hb
        omega
      · exact gammaToks_bits_le_one _ inv t ht b htb
      · exact absurd htb (by simp)
      · exact gammaToks_bits_le_one _ false t (List.mem_of_mem_tail ht) b htb
  | eod =>
      simp only [serializeCmd, List.mem_cons] at ht
      rcases ht with rfl | ht
      · injection htb with hb
        omega
      · exact gammaToks_bits_le_one _ inv t ht b htb

theorem serializeCmds_bits_le_one (inv : Bool) (cs : List Cmd) :
    ∀ t ∈ serializeCmds inv cs, ∀ b, t = Tok.bit b → b ≤ 1 := by
  intro t ht
  simp only [serializeCmds, List.mem_flatten, List.mem_map] at ht
  obtain ⟨l, ⟨c, _, rfl⟩, htl⟩ := ht
  exact serializeCmd_bits_le_one inv c t htl


/-- C1: for every input block on which `salvador_write_block` does not return
-1 — formalised as: a nonempty block written as both the first and last block
(`nBlockFlags = 3`) into an initially empty stream, whose best-match array
records true in-window matches — decoding the emitted bytes with a conformant
ZX0 decoder (modelled from the spec; both the plain and the inverted-gamma
configuration via `inv`) reproduces the input window region
`[nStartOffset, nEndOffset)` exactly, on top of the dictionary prefix. -/
theorem C1_write_block_decodes_back (pInWindow : List Nat) (pBestMatch : List FinalMatch)
    (nStartOffset nEndOffset nMaxOutDataSize nMaxOffset : Nat) (inv : Bool) (rep0 : Nat)
    (st' : BWState) (fl rep' : Nat)
    (hend : nEndOffset ≤ pInWindow.length) (hne : nStartOffset < nEndOffset)
    (hvm : ValidBM pInWindow pBestMatch nEndOffset)
    (h : salvador_write_block pInWindow pBestMatch nStartOffset nEndOffset nMaxOutDataSize
      nMaxOffset inv rep0 3 ⟨[], none⟩ = some (st', fl, rep')) :
    zx0DecodeBlock st'.out inv (pInWindow.take nStartOffset) rep0
      (2 * nEndOffset + 4) (nEndOffset + 258) = some (pInWindow.take nEndOffset) := by
  obtain ⟨cs, hcmds, htoks⟩ := write_block_toks pInWindow pBestMatch nStartOffset nEndOffset
    nMaxOutDataSize nMaxOffset inv rep0 3 ⟨[], none⟩ st' fl rep' hend (by simp) h
  rw [salvador_block_cmds] at hcmds
  cases hl : salvador_block_cmds_loop pInWindow pBestMatch nEndOffset nMaxOffset
      (nEndOffset + 1) nStartOffset 0 0 (decide ((3 : Nat) &&& 1 ≠ 0)) rep0 with
  | none => rw [hl] at hcmds; exact absurd hcmds (by simp)
  | some rr =>
  rw [hl] at hcmds
  obtain ⟨csL, nl, fo, fcx, repx⟩ := rr
  dsimp only at hcmds
  rw [if_pos (by decide : (3 : Nat) &&& 2 ≠ 0)] at hcmds
  obtain ⟨hcs, hfl, hrep⟩ := by simpa using hcmds
  have hl' : salvador_block_cmds_loop pInWindow pBestMatch nEndOffset nMaxOffset
      (nEndOffset + 1) nStartOffset 0 0 true rep0 = some (csL, nl, fo, fcx, repx) := by
    rw [show (decide ((3 : Nat) &&& 1 ≠ 0)) = true by decide] at hl
    exact hl
  have hexit_in : fo + nl ≤ nEndOffset :=
    block_cmds_loop_exit_inv pInWindow pBestMatch nEndOffset nMaxOffset (nEndOffset + 1)
      nStartOffset 0 0 true rep0 csL nl fo fcx repx (by simp) (by omega) hl'
  have hexit_eq : nl ≠ 0 → fo + nl = nEndOffset :=
    block_cmds_loop_exit_eq pInWindow pBestMatch nEndOffset nMaxOffset (nEndOffset + 1)
      nStartOffset 0 0 true rep0 csL nl fo fcx repx (by simp) hl'
  have hpack := writeToks_some_pack nMaxOutDataSize (serializeCmds inv cs) ⟨[], none⟩ st'
    htoks
  have hbits := serializeCmds_bits_le_one inv cs
  have hcorr0 : Corr (pack ⟨[], none⟩ (serializeCmds inv cs)).out ⟨[], none⟩ ⟨0, none⟩ :=
    ⟨rfl, Or.inl ⟨rfl, rfl⟩⟩
  obtain ⟨rT, hreadsAll, -⟩ := reads_pack (serializeCmds inv cs) ⟨[], none⟩ ⟨0, none⟩
    hbits hcorr0
  rw [← hpack] at hreadsAll
  subst hcs
  rw [serializeCmds_append, ReadsToks_append] at hreadsAll
  obtain ⟨rm, hreadsCsL, hreadsTail⟩ := hreadsAll
  rw [serializeCmds_append, ReadsToks_append] at hreadsTail
  obtain ⟨rBeforeEod, hreadsLits, hreadsEod⟩ := hreadsTail
  rw [show serializeCmds inv [Cmd.eod] = Tok.bit 1 :: gammaToks 256 inv by
    simp [serializeCmds, serializeCmd]] at hreadsEod
  have hcont : ∀ mf, 2 ≤ mf → DecEntry st'.out inv (nEndOffset + 258) fcx
      (pInWindow.take (nEndOffset - nl)) repx rm mf = some (pInWindow.take nEndOffset) := by
    intro mf hmf
    by_cases hnl : nl = 0
    · have hfcF : fcx = false := by
        cases hfv : fcx
        · rfl
        · have hfi := block_cmds_loop_fc_inv pInWindow pBestMatch nEndOffset nMaxOffset
            (nEndOffset + 1) nStartOffset 0 0 true rep0 csL nl fo fcx repx hl' hfv
          exact absurd hfi.2 (by omega)
      rw [if_pos hnl] at hreadsLits
      have hrEq : rBeforeEod = rm := hreadsLits
      rw [hfcF, DecEntry_false, show nEndOffset - nl = nEndOffset by omega]
      refine zx0Loop_eod_reads st'.out inv (nEndOffset + 258) (pInWindow.take nEndOffset)
        repx ZMode.afterMatch rm rT ?_ (by omega) mf (by omega)
      rw [← hrEq]
      exact hreadsEod
    · have hfoe : fo + nl = nEndOffset := hexit_eq hnl
      rw [if_neg hnl] at hreadsLits
      rw [show serializeCmds inv [Cmd.lits fcx ((pInWindow.drop fo).take nl)] =
        serializeCmd inv (Cmd.lits fcx ((pInWindow.drop fo).take nl)) by
          simp [serializeCmds]] at hreadsLits
      rw [show nEndOffset - nl = fo by omega]
      cases hfv : fcx with
      | false =>
        rw [hfv] at hreadsLits
        obtain ⟨m1, rfl⟩ : ∃ m1, mf = m1 + 1 := ⟨mf - 1, by omega⟩
        rw [DecEntry_false]
        rw [consume_lits_mid st'.out inv (nEndOffset + 258) pInWindow fo nl repx rm
          rBeforeEod (by omega) (by omega) (by omega) hreadsLits m1]
        rw [hfoe]
        exact zx0Loop_eod_reads st'.out inv (nEndOffset + 258) (pInWindow.take nEndOffset)
          repx ZMode.afterLits rBeforeEod rT hreadsEod (by omega) m1 (by omega)
      | true =>
        rw [hfv] at hreadsLits
        rw [consume_lits_preamble st'.out inv (nEndOffset + 258) pInWindow fo nl repx rm
          rBeforeEod (by omega) (by omega) (by omega) hreadsLits mf]
        rw [hfoe]
        exact zx0Loop_eod_reads st'.out inv (nEndOffset + 258) (pInWindow.take nEndOffset)
          repx ZMode.afterLits rBeforeEod rT hreadsEod (by omega) mf (by omega)
  have hmain := block_cmds_loop_decode pInWindow pBestMatch nEndOffset nMaxOffset st'.out
    inv hend hvm (nEndOffset + 258) (by omega) (nEndOffset + 1) nStartOffset 0 0 true rep0
    csL nl fo fcx repx hl' (by simp) (by omega) (by omega) ⟨0, none⟩ rm hreadsCsL
    (some (pInWindow.take nEndOffset)) 2 hcont (2 * nEndOffset + 4) (by omega)
  rw [show nStartOffset - 0 = nStartOffset from rfl] at hmain
  exact hmain


/-- Concrete instance of the C1 round trip: the two-byte block `[65, 65]`,
parsed as one literal plus a length-1 rep match, emits `[176, 65, 0, 8]`,
which decodes back to `[65, 65]`. -/
theorem C1_write_block_decodes_back_witness :
    zx0DecodeBlock (BWState.mk [176, 65, 0, 8] (some (3, 2))).out false
        (List.take 0 [65, 65]) 1 (2 * 2 + 4) (2 + 258) = some (List.take 2 [65, 65]) := by
  apply C1_write_block_decodes_back [65, 65] [⟨0, 0⟩, ⟨1, 1⟩] 0 2 100 32640 false 1
    (BWState.mk [176, 65, 0, 8] (some (3, 2))) 0 1 (by decide) (by decide) ?_ (by decide)
  intro i hi h1
  interval_cases i
  · exact absurd h1 (by decide)
  · refine ⟨by decide, by decide, by decide, ?_⟩
    intro j hj
    have h2 : (bmAt [(⟨0, 0⟩ : FinalMatch), ⟨1, 1⟩] 1).length.toNat = 1 := rfl
    have hj1 : j = 0 := by omega
    subst hj1
    rfl


/-! ### C4: the rep-match length gamma -/

/-- C4 (amended): when the emitter writes a rep match of actual length L (the
encoded length passed in is L - 2), the Elias-gamma length value it writes
encodes L itself — `nLength + 1 + 1` — not L - 1 as the spec states. -/
theorem C4_rep_match_gamma_value (max : Nat) (L : Int) (fb : Option Nat)
    (s : Option BWState) :
    salvador_write_match_varlen max (L - 2) true fb s =
      salvador_write_elias_value max L.toNat false fb s := by
  rw [salvador_write_match_varlen]
  congr 1
  rw [if_pos rfl]
  omega

/-- C4 counterexample: a rep match of length 2 (encoded length 0) writes the
gamma code of 2, which differs from the gamma code of 2 - 1 = 1 claimed by
the spec. -/
theorem C4_rep_match_gamma_counterexample :
    salvador_write_match_varlen 10 (2 - 2 : Int) true none (some ⟨[], none⟩) =
      salvador_write_elias_value 10 2 false none (some ⟨[], none⟩) ∧
    salvador_write_match_varlen 10 (2 - 2 : Int) true none (some ⟨[], none⟩) ≠
      salvador_write_elias_value 10 (2 - 1) false none (some ⟨[], none⟩) := by
  constructor
  · decide
  · decide

/-! ### C10: the deferred first-bit slot -/

theorem and_shiftLeft_one (x y : Nat) : x &&& (y <<< 1) = ((x >>> 1) &&& y) <<< 1 := by
  apply Nat.eq_of_testBit_eq
  intro i
  cases i with
  | zero => simp [Nat.testBit_and, Nat.testBit_shiftLeft]
  | succ i =>
      simp only [Nat.testBit_and, Nat.testBit_shiftLeft, Nat.testBit_shiftRight,
        Nat.add_sub_cancel]
      rw [show 1 + i = i + 1 by omega]
      cases hx : x.testBit (i + 1) <;> cases hy : y.testBit i <;> simp

/-- C10: called with a non-null first-bit slot, `salvador_write_elias_value`
stores exactly the first gamma bit into the LSB of the pointed-to byte
(cleared for a 0 bit, set for a 1 bit), leaves that byte's upper seven bits
unchanged, and writes every subsequent gamma bit through the normal bit
stream. -/
theorem C10_elias_value_first_bit (max v : Nat) (inv : Bool) (idx : Nat) (st : BWState)
    (hidx : idx < st.out.length) (hbyte : st.out.getD idx 0 < 256) :
    salvador_write_elias_value max v inv (some idx) (some st) =
      writeToks max (some (patchByte st idx
        (((st.out.getD idx 0) &&& 0xfe) ||| firstGammaBit v))) (gammaToks v inv).tail ∧
    ((((st.out.getD idx 0) &&& 0xfe) ||| firstGammaBit v) &&& 1 = firstGammaBit v) ∧
    ((((st.out.getD idx 0) &&& 0xfe) ||| firstGammaBit v) >>> 1
      = st.out.getD idx 0 >>> 1) ∧
    (∀ j, j ≠ idx → (patchByte st idx (((st.out.getD idx 0) &&& 0xfe) |||
      firstGammaBit v)).out.getD j 0 = st.out.getD j 0) := by
  have hb : firstGammaBit v ≤ 1 := by
    rw [firstGammaBit]
    split <;> omega
  have hdiv : st.out.getD idx 0 >>> 1 = st.out.getD idx 0 / 2 := by
    rw [Nat.shiftRight_eq_div_pow, pow_one]
  have hhalf : st.out.getD idx 0 >>> 1 &&& 127 = st.out.getD idx 0 >>> 1 := by
    rw [show (127 : Nat) = 2 ^ 7 - 1 from rfl, and_mask_eq_mod]
    refine Nat.mod_eq_of_lt ?_
    rw [hdiv]
    have h128 : (2 : Nat) ^ 7 = 128 := by norm_num
    rw [h128]
    omega
  have hmask : (st.out.getD idx 0) &&& 0xfe = 2 * (st.out.getD idx 0 >>> 1) := by
    rw [show (0xfe : Nat) = 127 <<< 1 from rfl, and_shiftLeft_one, hhalf,
      Nat.shiftLeft_eq, pow_one, Nat.mul_comm]
  have hor : ((st.out.getD idx 0) &&& 0xfe) ||| firstGammaBit v =
      2 * (st.out.getD idx 0 >>> 1) + firstGammaBit v := by
    rw [hmask]
    exact or_eq_add_of_lt _ _ 1 (by omega) (by omega)
  refine ⟨elias_value_first_eq max v inv idx st, ?_, ?_, ?_⟩
  · rw [hor, Nat.and_one_is_mod]
    omega
  · rw [hor, Nat.shiftRight_eq_div_pow, pow_one, Nat.mul_add_div (by omega)]
    omega
  · intro j hj
    show (st.out.set idx _).getD j 0 = st.out.getD j 0
    exact getD_set_ne' st.out idx j _ 0 (Ne.symm hj)

/-- Witness: the first-bit slot behaviour at a concrete byte and value. -/
theorem C10_elias_value_first_bit_witness :
    salvador_write_elias_value 10 3 false (some 0) (some (BWState.mk [5] none)) =
      writeToks 10 (some (patchByte (BWState.mk [5] none) 0
        ((((BWState.mk [5] none).out.getD 0 0) &&& 0xfe) ||| firstGammaBit 3)))
        (gammaToks 3 false).tail :=
  (C10_elias_value_first_bit 10 3 false 0 (BWState.mk [5] none)
    (by decide) (by decide)).1

/-! ### C7: output-overflow handling -/

theorem foldl_bind_none {α β : Type} (f : β → α → Option α) :
    ∀ l : List β, l.foldl (fun acc i => (acc : Option α).bind (f i)) none = none
  | [] => rfl
  | x :: l => by
      rw [List.foldl_cons]
      rw [show (none : Option α).bind (f x) = none from rfl]
      exact foldl_bind_none f l

/-- C7: a bit write that would have to allocate an output byte at or past the
capacity fails; a failed stream propagates failure through every later bit
write instead of writing; and the literal-payload copy in the block emitter
is guarded so the block fails rather than writing past `nMaxOutDataSize`. -/
theorem C7_overflow_guards (max : Nat) :
    (∀ v n (st : BWState), st.bitsOff = none → max ≤ st.out.length → 1 ≤ n →
      salvador_write_bits max v n (some st) = none) ∧
    (∀ v n, salvador_write_bits max v n none = none) ∧
    (∀ (win : List Nat) (nl fo : Nat) (fc : Bool) (st st2 : BWState), nl ≠ 0 →
      salvador_write_literals_varlen max nl
        (if fc then some st else salvador_write_bits max 0 1 (some st)) = some st2 →
      max < st2.out.length + nl →
      salvador_flush_literals win max nl fo fc st = none) := by
  refine ⟨?_, fun v n => rfl, ?_⟩
  · intro v n st hbo hcap hn
    obtain ⟨n1, rfl⟩ : ∃ n1, n = n1 + 1 := ⟨n - 1, by omega⟩
    show (List.range (n1 + 1)).reverse.foldl
      (fun acc i => acc.bind (writeBit1 max ((v >>> i) &&& 1))) (some st) = none
    rw [List.range_succ, List.reverse_append]
    simp only [List.reverse_singleton, List.singleton_append, List.foldl_cons]
    rw [show (some st).bind (writeBit1 max ((v >>> n1) &&& 1)) = none by
      simp [Option.bind, writeBit1, hbo, if_pos hcap]]
    exact foldl_bind_none _ _
  · intro win nl fo fc st st2 hnl hvar hover
    rw [salvador_flush_literals, if_pos hnl]
    dsimp only
    rw [hvar]
    show (if max < st2.out.length + nl then none
      else some (appendBytes st2 ((win.drop fo).take nl), false)) = none
    rw [if_pos hover]

/-- Witness: a full reservoir byte at capacity 1 rejects the next bit write;
the literal guard rejects a two-literal payload that would end past
capacity 3. -/
theorem C7_overflow_guards_witness :
    salvador_write_bits 1 1 1 (some (BWState.mk [7] none)) = none ∧
    salvador_flush_literals [9, 9] 3 2 0 true (BWState.mk [1, 2] none) = none := by
  constructor
  · exact (C7_overflow_guards 1).1 1 1 (BWState.mk [7] none) rfl (by decide) (by decide)
  · exact (C7_overflow_guards 3).2.2 [9, 9] 2 0 true (BWState.mk [1, 2] none)
      (BWState.mk [1, 2, 32] (some (2, 4))) (by decide) (by decide) (by decide)


/-! ### C6 and C5: offset-range enforcement -/

/-- Shared helper: a block whose first position carries a match with an
offset outside `[MIN_OFFSET, min(nMaxOffset, MAX_OFFSET)]` is rejected. -/
theorem write_block_offset_reject (pInWindow : List Nat) (pBestMatch : List FinalMatch)
    (nStartOffset nEndOffset max nMaxOffset : Nat) (inv : Bool) (rep0 nBlockFlags : Nat)
    (st : BWState)
    (hi : nStartOffset < nEndOffset)
    (hg : 2 ≤ (bmAt pBestMatch nStartOffset).length)
    (hoff : (bmAt pBestMatch nStartOffset).offset < MIN_OFFSET ∨
      nMaxOffset < (bmAt pBestMatch nStartOffset).offset ∨
      MAX_OFFSET < (bmAt pBestMatch nStartOffset).offset) :
    salvador_write_block pInWindow pBestMatch nStartOffset nEndOffset max nMaxOffset inv
      rep0 nBlockFlags st = none := by
  rw [salvador_write_block]
  have hstep : salvador_write_block_loop pInWindow pBestMatch nEndOffset max nMaxOffset inv
      (nEndOffset + 1) nStartOffset 0 0 (decide (nBlockFlags &&& 1 ≠ 0)) rep0 st
      = none := by
    simp [salvador_write_block_loop, hi, hg, hoff]
  rw [hstep]

/-- Shared helper: when the first block's first command would be a match (no
pending literals), the block is rejected. -/
theorem write_block_first_match_reject (pInWindow : List Nat)
    (pBestMatch : List FinalMatch)
    (nStartOffset nEndOffset max nMaxOffset : Nat) (inv : Bool) (rep0 nBlockFlags : Nat)
    (st : BWState)
    (hi : nStartOffset < nEndOffset)
    (hg : 2 ≤ (bmAt pBestMatch nStartOffset).length)
    (hoffok : ¬ ((bmAt pBestMatch nStartOffset).offset < MIN_OFFSET ∨
      nMaxOffset < (bmAt pBestMatch nStartOffset).offset ∨
      MAX_OFFSET < (bmAt pBestMatch nStartOffset).offset))
    (hfirst : nBlockFlags &&& 1 ≠ 0) :
    salvador_write_block pInWindow pBestMatch nStartOffset nEndOffset max nMaxOffset inv
      rep0 nBlockFlags st = none := by
  rw [salvador_write_block]
  have hd2 : nBlockFlags % 2 = 1 := by
    rw [Nat.and_one_is_mod] at hfirst
    omega
  have hstep : salvador_write_block_loop pInWindow pBestMatch nEndOffset max nMaxOffset inv
      (nEndOffset + 1) nStartOffset 0 0 (decide (nBlockFlags &&& 1 ≠ 0)) rep0 st
      = none := by
    simp [salvador_write_block_loop, hi, hg, hoffok, hd2]
  rw [hstep]

/-- C6: `salvador_write_block` returns -1 when a match to be emitted has an
offset outside `[MIN_OFFSET, min(nMaxOffset, MAX_OFFSET)]`, and also when the
first command of a first block (`nBlockFlags` bit 0 set) would be a match
rather than a literal. -/
theorem C6_write_block_rejections (pInWindow : List Nat) (pBestMatch : List FinalMatch)
    (nStartOffset nEndOffset max nMaxOffset : Nat) (inv : Bool) (rep0 nBlockFlags : Nat)
    (st : BWState)
    (hi : nStartOffset < nEndOffset)
    (hg : 2 ≤ (bmAt pBestMatch nStartOffset).length) :
    ((bmAt pBestMatch nStartOffset).offset < MIN_OFFSET ∨
      nMaxOffset < (bmAt pBestMatch nStartOffset).offset ∨
      MAX_OFFSET < (bmAt pBestMatch nStartOffset).offset →
      salvador_write_block pInWindow pBestMatch nStartOffset nEndOffset max nMaxOffset inv
        rep0 nBlockFlags st = none) ∧
    (¬ ((bmAt pBestMatch nStartOffset).offset < MIN_OFFSET ∨
      nMaxOffset < (bmAt pBestMatch nStartOffset).offset ∨
      MAX_OFFSET < (bmAt pBestMatch nStartOffset).offset) → nBlockFlags &&& 1 ≠ 0 →
      salvador_write_block pInWindow pBestMatch nStartOffset nEndOffset max nMaxOffset inv
        rep0 nBlockFlags st = none) :=
  ⟨fun hoff => write_block_offset_reject pInWindow pBestMatch nStartOffset nEndOffset max
      nMaxOffset inv rep0 nBlockFlags st hi hg hoff,
   fun hoffok hfirst => write_block_first_match_reject pInWindow pBestMatch nStartOffset
      nEndOffset max nMaxOffset inv rep0 nBlockFlags st hi hg hoffok hfirst⟩

/-- Witness: an offset of 40000 (above MAX_OFFSET) is rejected, and a
front-position match with a legal offset on a first block is rejected too. -/
theorem C6_write_block_rejections_witness :
    salvador_write_block [0, 0] [⟨2, 40000⟩] 0 2 100 32640 false 1 3 ⟨[], none⟩ = none ∧
    salvador_write_block [0, 0, 0] [⟨0, 0⟩, ⟨2, 1⟩] 1 3 100 32640 false 1 3 ⟨[], none⟩
      = none := by
  constructor
  · exact (C6_write_block_rejections [0, 0] [⟨2, 40000⟩] 0 2 100 32640 false 1 3
      ⟨[], none⟩ (by decide) (by decide)).1 (by decide)
  · exact (C6_write_block_rejections [0, 0, 0] [⟨0, 0⟩, ⟨2, 1⟩] 1 3 100 32640 false 1 3
      ⟨[], none⟩ (by decide) (by decide)).2 (by decide) (by decide)

/-- The max_offset initialisation of salvador_compress (shrink.c line 1748):
`compressor.max_offset = nMaxWindowSize ? (int)nMaxWindowSize : MAX_OFFSET;`. -/
def compressor_max_offset (nMaxWindowSize : Nat) : Nat :=
  if nMaxWindowSize ≠ 0 then nMaxWindowSize else MAX_OFFSET

/-- C5 (amended): the effective max_offset is not clamped to the format
maximum — a nonzero request is stored verbatim and 0 selects the default
MAX_OFFSET — so it can exceed MAX_OFFSET; the format maximum is enforced only
at emission time, where any offset above MAX_OFFSET fails the block. -/
theorem C5_max_offset_verbatim (w : Nat) :
    (w ≠ 0 → compressor_max_offset w = w) ∧
    (compressor_max_offset 0 = MAX_OFFSET) ∧
    (∀ (pInWindow : List Nat) (pBestMatch : List FinalMatch)
      (s e max : Nat) (inv : Bool) (rep0 flags : Nat) (st : BWState),
      s < e → 2 ≤ (bmAt pBestMatch s).length → MAX_OFFSET < (bmAt pBestMatch s).offset →
      salvador_write_block pInWindow pBestMatch s e max (compressor_max_offset w) inv
        rep0 flags st = none) := by
  refine ⟨fun hw => by rw [compressor_max_offset, if_pos hw],
    by rw [compressor_max_offset]; simp, ?_⟩
  intro pInWindow pBestMatch s e max inv rep0 flags st hi hg hoff
  exact write_block_offset_reject pInWindow pBestMatch s e max (compressor_max_offset w)
    inv rep0 flags st hi hg (Or.inr (Or.inr hoff))

/-- C5 counterexample: a requested window size of 32641 yields an effective
max_offset of 32641, which exceeds the format maximum MAX_OFFSET = 32640 —
no clamping takes place. -/
theorem C5_max_offset_counterexample :
    compressor_max_offset 32641 = 32641 ∧ MAX_OFFSET < compressor_max_offset 32641 := by
  constructor
  · decide
  · decide

/-- Witness: effective value stored verbatim and emission-time rejection at a
concrete instance. -/
theorem C5_max_offset_verbatim_witness :
    compressor_max_offset 5 = 5 ∧
    salvador_write_block [0, 0] [⟨2, 40000⟩] 0 2 100 (compressor_max_offset 5) false 1 0
      ⟨[], none⟩ = none :=
  ⟨(C5_max_offset_verbatim 5).1 (by decide),
   (C5_max_offset_verbatim 5).2.2 [0, 0] [⟨2, 40000⟩] 0 2 100 false 1 0 ⟨[], none⟩
     (by decide) (by decide) (by decide)⟩


/-! ### C3: match-command lengths -/

/-- Length discipline of one emitted command: matches with a fresh offset are
at least 2 bytes long; rep matches at least 1. -/
def cmdLenOk : Cmd → Prop
  | Cmd.off _ l => 2 ≤ l
  | Cmd.rep l => 1 ≤ l
  | _ => True

theorem block_cmds_loop_match_lengths (win : List Nat) (bm : List FinalMatch)
    (endO moff : Nat) :
    ∀ (fuel i nl fo : Nat) (fc : Bool) (rep : Nat) (cs : List Cmd) (a b : Nat) (c : Bool)
      (d : Nat),
      salvador_block_cmds_loop win bm endO moff fuel i nl fo fc rep
        = some (cs, a, b, c, d) →
      ∀ cm ∈ cs, cmdLenOk cm := by
  intro fuel
  induction fuel with
  | zero =>
      intro i nl fo fc rep cs a b c d h cm hcm
      by_cases hi : i < endO
      · simp [salvador_block_cmds_loop, hi] at h
      · simp only [salvador_block_cmds_loop, hi, if_false] at h
        obtain ⟨h1, h2, h3, h4, h5⟩ := by simpa using h
        rw [h1] at hcm
        simp at hcm
  | succ fuel ih =>
      intro i nl fo fc rep cs a b c d h cm hcm
      by_cases hi : i < endO
      case neg =>
        simp only [salvador_block_cmds_loop, hi, if_false] at h
        obtain ⟨h1, h2, h3, h4, h5⟩ := by simpa using h
        rw [h1] at hcm
        simp at hcm
      case pos =>
      by_cases hg : 2 ≤ (bmAt bm i).length ∨
          (1 ≤ (bmAt bm i).length ∧ (bmAt bm i).offset = rep ∧ nl ≠ 0)
      case neg =>
        simp only [salvador_block_cmds_loop, hi, if_true, hg, if_false] at h
        exact ih (i + 1) (nl + 1) (if nl = 0 then i else fo) fc rep cs a b c d h cm hcm
      case pos =>
      by_cases hoff : (bmAt bm i).offset < MIN_OFFSET ∨
          moff < (bmAt bm i).offset ∨ MAX_OFFSET < (bmAt bm i).offset
      case pos =>
        simp [salvador_block_cmds_loop, hi, hg, hoff] at h
      case neg =>
      by_cases hfc : fc = true ∧ nl = 0
      case pos =>
        have hg2 : 2 ≤ (bmAt bm i).length := by
          rcases hg with h2 | h2
          · exact h2
          · exact absurd hfc.2 h2.2.2
        simp [salvador_block_cmds_loop, hi, hg2, hoff, hfc] at h
      case neg =>
      simp only [salvador_block_cmds_loop, hi, if_true, hg, hoff, if_false, hfc] at h
      cases hrec : salvador_block_cmds_loop win bm endO moff fuel
          (i + (bmAt bm i).length.toNat) 0 fo
          (if nl ≠ 0 then false else fc) (bmAt bm i).offset with
      | none => rw [hrec] at h; exact absurd h (by simp)
      | some rr =>
          rw [hrec] at h
          obtain ⟨cs', a', b', c', d'⟩ := rr
          obtain ⟨h1, h2, h3, h4, h5⟩ := by simpa using h
          subst h1
          rw [List.mem_append] at hcm
          rcases hcm with hA | hB
          · by_cases hnl : nl = 0
            · rw [if_pos hnl] at hA
              simp at hA
            · rw [if_neg hnl] at hA
              have : cm = Cmd.lits fc ((win.drop fo).take nl) := by simpa using hA
              rw [this]
              trivial
          · rw [List.mem_cons] at hB
            rcases hB with rfl | hC
            · by_cases hcond : ((bmAt bm i).offset = rep ∧ ¬ nl = 0)
              · rw [if_pos hcond]
                show 1 ≤ (bmAt bm i).length.toNat
                rcases hg with h2 | h2
                · omega
                · have := h2.1
                  omega
              · rw [if_neg hcond]
                show 2 ≤ (bmAt bm i).length.toNat
                rcases hg with h2 | h2
                · omega
                · exact absurd ⟨h2.2.1, h2.2.2⟩ hcond
            · exact ih (i + (bmAt bm i).length.toNat) 0 fo
                (if nl ≠ 0 then false else fc) (bmAt bm i).offset cs' a' b' c' d' hrec cm hC

/-- C3 (amended): in the emitted command stream, every match-with-offset
command has length at least 2, and every rep-match command has length at
least 1 — but length-1 rep matches ARE emitted, so the blanket statement
"every match command has length at least 2" does not hold (the final-literals
tail is a literals command, not a match). -/
theorem C3_match_command_lengths (win : List Nat) (bm : List FinalMatch)
    (s e moff rep0 flags : Nat) (cs : List Cmd) (fl rep' : Nat)
    (h : salvador_block_cmds win bm s e moff rep0 flags = some (cs, fl, rep')) :
    ∀ cm ∈ cs, cmdLenOk cm := by
  rw [salvador_block_cmds] at h
  cases hl : salvador_block_cmds_loop win bm e moff (e + 1) s 0 0
      (decide (flags &&& 1 ≠ 0)) rep0 with
  | none => rw [hl] at h; exact absurd h (by simp)
  | some rr =>
  rw [hl] at h
  obtain ⟨csL, nl, fo, fcx, repx⟩ := rr
  dsimp only at h
  intro cm hcm
  have hloop := block_cmds_loop_match_lengths win bm e moff (e + 1) s 0 0
    (decide (flags &&& 1 ≠ 0)) rep0 csL nl fo fcx repx hl
  by_cases hlast : flags &&& 2 ≠ 0
  · rw [if_pos hlast] at h
    obtain ⟨h1, h2, h3⟩ := by simpa using h
    rw [← h1] at hcm
    rw [List.mem_append] at hcm
    rcases hcm with hA | hBC
    · exact hloop cm hA
    · rw [List.mem_append] at hBC
      rcases hBC with hB | hC
      swap
      · have : cm = Cmd.eod := by simpa using hC
        rw [this]
        trivial
      by_cases hnl : nl = 0
      · rw [if_pos hnl] at hB
        simp at hB
      · rw [if_neg hnl] at hB
        have : cm = Cmd.lits fcx ((win.drop fo).take nl) := by simpa using hB
        rw [this]
        trivial
  · rw [if_neg hlast] at h
    obtain ⟨h1, h2, h3⟩ := by simpa using h
    rw [← h1] at hcm
    exact hloop cm hcm

/-- C3 counterexample: the block `[65, 65]`, parsed as one literal plus a
rep match of length 1, is emitted successfully — its command stream contains
the match command `Cmd.rep 1` of length 1, not ≥ 2. -/
theorem C3_match_command_lengths_counterexample :
    (salvador_write_block [65, 65] [⟨0, 0⟩, ⟨1, 1⟩] 0 2 100 32640 false 1 3
      ⟨[], none⟩).isSome = true ∧
    salvador_block_cmds [65, 65] [⟨0, 0⟩, ⟨1, 1⟩] 0 2 32640 1 3 =
      some ([Cmd.lits true [65], Cmd.rep 1, Cmd.eod], 0, 1) := by
  constructor
  · decide
  · decide

/-- Witness: a fresh-offset match command in a concrete stream has length
at least 2. -/
theorem C3_match_command_lengths_witness : cmdLenOk (Cmd.off 3 3) :=
  C3_match_command_lengths [1, 2, 3, 1, 2, 3] [⟨0, 0⟩, ⟨0, 0⟩, ⟨0, 0⟩, ⟨3, 3⟩] 0 6 32640
    1 3 [Cmd.lits true [1, 2, 3], Cmd.off 3 3, Cmd.eod] 0 3 (by decide)
    (Cmd.off 3 3) (by decide)


/-! ### C2: the driver on empty input -/

/-- The block loop of `salvador_compress` (shrink.c lines 1761-1805), with
the per-block compressor abstracted as
`shrinkBlock prevBlockSize position blockFlags repOffset`, returning the
block's output bytes, its deferred final-literals count and the updated rep
offset (`none` for the C -1).  The loop state is the input position, the
output bytes so far, the block flags, the rep offset and the previous block
size; the result is `(output, input consumed)`. -/
def salvador_compress_loop (nInputSize nBlockSize : Nat)
    (shrinkBlock : Nat → Nat → Nat → Nat → Option (List Nat × Nat × Nat)) :
    Nat → Nat → List Nat → Nat → Nat → Nat → Option (List Nat × Nat)
  | 0, nOriginalSize, out, _, _, _ =>
      if nOriginalSize < nInputSize then none else some (out, nOriginalSize)
  | fuel + 1, nOriginalSize, out, nBlockFlags, rep, prevSize =>
      if nOriginalSize < nInputSize then
        let nInDataSize := min (nInputSize - nOriginalSize) nBlockSize
        let flags2 := if nInputSize ≤ nOriginalSize + nInDataSize then nBlockFlags ||| 2
          else nBlockFlags
        match shrinkBlock prevSize nOriginalSize flags2 rep with
        | none => none
        | some (bs, finals, rep2) =>
            if finals < nInDataSize then
              salvador_compress_loop nInputSize nBlockSize shrinkBlock fuel
                (nOriginalSize + (nInDataSize - finals)) (out ++ bs)
                (flags2 &&& 0xfffffffe) rep2 nInDataSize
            else none
      else some (out, nOriginalSize)

/-- The driver entry (shrink.c lines 1726-1820): position starts at the
dictionary size, flags at 1 (first block), rep offset at 1, no output. -/
def salvador_compress_driver (nInputSize nDictionarySize nBlockSize : Nat)
    (shrinkBlock : Nat → Nat → Nat → Nat → Option (List Nat × Nat × Nat)) :
    Option (List Nat × Nat) :=
  salvador_compress_loop nInputSize nBlockSize shrinkBlock (nInputSize + 1)
    nDictionarySize [] 1 1 nDictionarySize

/-- C2 (amended): compressing an input of length 0 succeeds with 0 bytes of
input consumed and produces NO output bytes at all — the block loop never
runs, so not even the end-of-data marker is emitted. -/
theorem C2_empty_input_empty_output (nBlockSize : Nat)
    (shrinkBlock : Nat → Nat → Nat → Nat → Option (List Nat × Nat × Nat)) :
    salvador_compress_driver 0 0 nBlockSize shrinkBlock = some ([], 0) := rfl

/-- C2 counterexample: on empty input the driver emits nothing — even with a
block compressor that always fails — while the claimed output, the last-block
end-of-data marker as `salvador_write_block` emits it for an empty last
block, is the three bytes `[128, 0, 64]`, not the empty byte string. -/
theorem C2_empty_input_counterexample :
    salvador_compress_driver 0 0 1024 (fun _ _ _ _ => none) = some ([], 0) ∧
    salvador_write_block [] [] 0 0 100 32640 false 1 3 ⟨[], none⟩ =
      some (⟨[128, 0, 64], some (2, 5)⟩, 0, 1) ∧
    ([] : List Nat) ≠ [128, 0, 64] := by
  refine ⟨rfl, by decide, by decide⟩

/-! ### C9: supplementation pass A -/

/-- One entry of the per-position match table (shrink.c `salvador_match`
plus its parallel `match_depth` entry). -/
structure SuppMatch where
  length : Nat
  offset : Nat
  depth : Nat
  deriving Repr, DecidableEq

/-- The two-byte hash key of a position (shrink.c lines 1350-1353). -/
def pairKey (win : List Nat) (p : Nat) : Nat :=
  win.getD p 0 ||| (win.getD (p + 1) 0 <<< 8)

/-- The chain-building loop (shrink.c lines 1349-1353): for each position,
record the previous position with the same two-byte pair. -/
def buildChainLoop (win : List Nat) (startO endO : Nat) :
    Nat → Nat → (Nat → Option Nat) → List (Option Nat) → List (Option Nat)
  | 0, _, _, next => next
  | fuel + 1, p, first, next =>
      if p < endO - 1 then
        buildChainLoop win startO endO fuel (p + 1)
          (fun k => if k = pairKey win p then some p else first k)
          (next.set (p - startO) (first (pairKey win p)))
      else next

/-- `next_offset_for_pos` as built by pass A. -/
def next_offset_for_pos (win : List Nat) (startO endO : Nat) : List (Option Nat) :=
  buildChainLoop win startO endO (endO + 1) startO (fun _ => none)
    (List.replicate (endO - startO) none)

/-- The 4-byte-stride match-length loop of pass A (shrink.c lines 1381-1382). -/
def suppMatchLen4 (win : List Nat) (endO mpos p : Nat) : Nat → Nat → Nat
  | 0, len => len
  | fuel + 1, len =>
      if len < 128 ∧ p + len + 4 < endO ∧
          ((win.drop (mpos + len)).take 4 = (win.drop (p + len)).take 4) then
        suppMatchLen4 win endO mpos p fuel (len + 4)
      else len

/-- The byte-at-a-time match-length loop of pass A (shrink.c lines 1383-1384). -/
def suppMatchLen1 (win : List Nat) (endO mpos p : Nat) : Nat → Nat → Nat
  | 0, len => len
  | fuel + 1, len =>
      if len < 128 ∧ p + len < endO ∧ win.getD (mpos + len) 0 = win.getD (p + len) 0 then
        suppMatchLen1 win endO mpos p fuel (len + 1)
      else len

/-- The pass-A candidate match length: start at 2, extend by 4-byte strides,
then by single bytes (the fuels dominate the `len < 128` loop bounds). -/
def suppMatchLen (win : List Nat) (endO mpos p : Nat) : Nat :=
  suppMatchLen1 win endO mpos p 128 (suppMatchLen4 win endO mpos p 32 2)

/-- The pass-A insertion loop over the two-byte chain for one block position
(shrink.c lines 1365-1397): walk the chain while fewer than 15 table entries
and candidates remain; skip offsets already present (directly or as a
depth-encoded synonym); insert new candidates with depth 0x4000; stop after
15 insertions or at an offset beyond the configured maximum. -/
def suppInsertLoop (win : List Nat) (startO endO maxOffset p : Nat)
    (next : List (Option Nat)) :
    Nat → Option Nat → Nat → Nat → List SuppMatch → List SuppMatch × Nat
  | 0, _, _, inserted, acc => (acc, inserted)
  | fuel + 1, mposO, m, inserted, acc =>
      match mposO with
      | none => (acc, inserted)
      | some mpos =>
          if m < 15 then
            if p - mpos ≤ maxOffset then
              if acc.take m |>.any (fun e => e.offset = p - mpos ∨
                  e.offset - (e.depth &&& 0x3fff) = p - mpos) then
                suppInsertLoop win startO endO maxOffset p next fuel
                  (next.getD (mpos - startO) none) m inserted acc
              else
                if inserted + 1 < 15 then
                  suppInsertLoop win startO endO maxOffset p next fuel
                    (next.getD (mpos - startO) none) (m + 1) (inserted + 1)
                    (acc ++ [⟨suppMatchLen win endO mpos p, p - mpos, 0x4000⟩])
                else
                  (acc ++ [⟨suppMatchLen win endO mpos p, p - mpos, 0x4000⟩],
                    inserted + 1)
            else (acc, inserted)
          else (acc, inserted)

/-- Pass-A supplementation of one block position: start the chain walk at the
position's chain head, with the existing (nonzero-length) entries counted
first. -/
def salvador_supplement_pos (win : List Nat) (startO endO maxOffset p : Nat)
    (next : List (Option Nat)) (row : List SuppMatch) : List SuppMatch × Nat :=
  suppInsertLoop win startO endO maxOffset p next (endO + 2)
    (next.getD (p - startO) none) (min row.length 15) 0 row

theorem suppMatchLen4_le (win : List Nat) (endO mpos p : Nat) :
    ∀ fuel len, len ≤ 130 → len % 4 = 2 →
      suppMatchLen4 win endO mpos p fuel len ≤ 130 ∧
      suppMatchLen4 win endO mpos p fuel len % 4 = 2 := by
  intro fuel
  induction fuel with
  | zero => intro len h1 h2; exact ⟨h1, h2⟩
  | succ fuel ih =>
      intro len h1 h2
      rw [suppMatchLen4]
      split
      · rename_i hcond
        exact ih (len + 4) (by omega) (by omega)
      · exact ⟨h1, h2⟩

theorem suppMatchLen1_le (win : List Nat) (endO mpos p : Nat) :
    ∀ fuel len, len ≤ 130 → suppMatchLen1 win endO mpos p fuel len ≤ 130 := by
  intro fuel
  induction fuel with
  | zero => intro len h1; exact h1
  | succ fuel ih =>
      intro len h1
      rw [suppMatchLen1]
      split
      · rename_i hcond
        exact ih (len + 1) (by omega)
      · exact h1

theorem suppMatchLen_le (win : List Nat) (endO mpos p : Nat) :
    suppMatchLen win endO mpos p ≤ 130 :=
  suppMatchLen1_le win endO mpos p 128 _
    (suppMatchLen4_le win endO mpos p 32 2 (by omega) (by omega)).1

theorem suppInsertLoop_spec (win : List Nat) (startO endO maxOffset p : Nat)
    (next : List (Option Nat)) :
    ∀ fuel mposO m inserted acc, inserted ≤ 14 →
      ∃ extra r2,
        suppInsertLoop win startO endO maxOffset p next fuel mposO m inserted acc
          = (acc ++ extra, r2) ∧ r2 ≤ 15 ∧
        ∀ e ∈ extra, e.depth = 0x4000 ∧ e.length ≤ 130 := by
  intro fuel
  induction fuel with
  | zero =>
      intro mposO m inserted acc hins
      exact ⟨[], inserted, by simp [suppInsertLoop], by omega, by simp⟩
  | succ fuel ih =>
      intro mposO m inserted acc hins
      cases mposO with
      | none => exact ⟨[], inserted, by simp [suppInsertLoop], by omega, by simp⟩
      | some mpos =>
          rw [suppInsertLoop]
          by_cases hm : m < 15
          case neg =>
            rw [if_neg hm]
            exact ⟨[], inserted, by simp, by omega, by simp⟩
          case pos =>
          rw [if_pos hm]
          by_cases hmo : p - mpos ≤ maxOffset
          case neg =>
            rw [if_neg hmo]
            exact ⟨[], inserted, by simp, by omega, by simp⟩
          case pos =>
          rw [if_pos hmo]
          by_cases hex : (acc.take m).any (fun e => e.offset = p - mpos ∨
              e.offset - (e.depth &&& 0x3fff) = p - mpos) = true
          case pos =>
            rw [if_pos hex]
            exact ih (next.getD (mpos - startO) none) m inserted acc hins
          case neg =>
            rw [if_neg hex]
            by_cases hfull : inserted + 1 < 15
            case pos =>
              rw [if_pos hfull]
              obtain ⟨extra, r2, heq, hr2, hprop⟩ := ih (next.getD (mpos - startO) none)
                (m + 1) (inserted + 1)
                (acc ++ [⟨suppMatchLen win endO mpos p, p - mpos, 0x4000⟩]) (by omega)
              refine ⟨⟨suppMatchLen win endO mpos p, p - mpos, 0x4000⟩ :: extra, r2, ?_,
                hr2, ?_⟩
              · rw [heq, List.append_assoc]
                rfl
              · intro e he
                rcases List.mem_cons.mp he with rfl | he2
                · exact ⟨rfl, suppMatchLen_le win endO mpos p⟩
                · exact hprop e he2
            case neg =>
              rw [if_neg hfull]
              exact ⟨[⟨suppMatchLen win endO mpos p, p - mpos, 0x4000⟩], inserted + 1,
                rfl, by omega, by
                  intro e he
                  rcases List.mem_singleton.mp he with rfl
                  exact ⟨rfl, suppMatchLen_le win endO mpos p⟩⟩

/-- C9 (amended): every match inserted by supplementation pass A is recorded
with depth 0x4000 and at most 15 matches are inserted at any one position —
but the length bound is 130, not 128: the 4-byte-stride extension loop tests
`len < 128` before adding 4, so lengths up to 130 are inserted. -/
theorem C9_pass_a_insertions (win : List Nat) (startO endO maxOffset p : Nat)
    (next : List (Option Nat)) (row : List SuppMatch) :
    ∃ extra inserted,
      salvador_supplement_pos win startO endO maxOffset p next row
        = (row ++ extra, inserted) ∧ inserted ≤ 15 ∧
      ∀ e ∈ extra, e.depth = 0x4000 ∧ e.length ≤ 130 := by
  obtain ⟨extra, r2, heq, hr2, hprop⟩ := suppInsertLoop_spec win startO endO maxOffset p
    next (endO + 2) (next.getD (p - startO) none) (min row.length 15) 0 row (by omega)
  exact ⟨extra, r2, heq, hr2, hprop⟩

set_option maxRecDepth 100000 in
/-- C9 counterexample: on a 140-byte constant window, pass A inserts at
position 1 a match of length 130 — exceeding the claimed bound of 128. -/
theorem C9_pass_a_counterexample :
    salvador_supplement_pos (List.replicate 140 7) 0 140 32640 1
      (next_offset_for_pos (List.replicate 140 7) 0 140) []
      = ([⟨130, 1, 0x4000⟩], 1) ∧ 128 < 130 := by
  constructor
  · decide
  · decide


/-! ### C8: the arrival-slot insertion routine of the forward parser -/

/-- salvador_arrival (shrink.c): one slot of the arrival table.  `from_slot`
is an `Int` because the block-start sentinel is -1; 0 marks an empty slot. -/
structure SArrival where
  cost : Nat
  from_pos : Nat
  from_slot : Int
  rep_offset : Nat
  rep_pos : Nat
  match_len : Nat
  num_literals : Nat
  score : Nat
  deriving Repr, DecidableEq

/-- An empty slot as initialised by optimize_forward: memset to zero, then
`cost = 0x40000000`. -/
def emptyArr : SArrival := ⟨0x40000000, 0, 0, 0, 0, 0, 0, 0⟩

/-- A position's K arrival slots, as the array of shrink.c (out-of-range
slots read as empty). -/
def ARow : Type := Nat → SArrival

/-- The `pDestSlots[n].cost < nCodingChoiceCost` scan with its rep-offset
duplicate check (shrink.c lines 365-373). -/
def scanLT (row : ARow) (cc ro : Nat) : Nat → Nat → Bool × Nat
  | 0, n => (false, n)
  | fuel + 1, n =>
      if (row n).cost < cc then
        if (row n).rep_offset = ro then (true, n) else scanLT row cc ro fuel (n + 1)
      else (false, n)

/-- The equal-cost, not-better-score scan (shrink.c lines 375-382). -/
def scanEQ (row : ARow) (cc sc ro : Nat) : Nat → Nat → Bool × Nat
  | 0, n => (false, n)
  | fuel + 1, n =>
      if (row n).cost = cc ∧ sc ≥ (row n).score then
        if (row n).rep_offset = ro then (true, n) else scanEQ row cc sc ro fuel (n + 1)
      else (false, n)

/-- The remaining equal-cost duplicate scan (shrink.c lines 385-392). -/
def scanEQ2 (row : ARow) (K cc ro : Nat) : Nat → Nat → Bool
  | 0, _ => false
  | fuel + 1, nn =>
      if nn < K ∧ (row nn).cost = cc then
        if (row nn).rep_offset = ro then true else scanEQ2 row K cc ro fuel (nn + 1)
      else false

/-- The shift-end scan (shrink.c lines 395-398): advance to the first empty
slot, the last slot, or an existing slot with the candidate's rep offset. -/
def scanZloop (row : ARow) (K ro : Nat) : Nat → Nat → Nat
  | 0, z => z
  | fuel + 1, z =>
      if z < K - 1 ∧ (row z).from_slot ≠ 0 then
        if (row z).rep_offset = ro then z else scanZloop row K ro fuel (z + 1)
      else z

/-- The arrival-insertion routine shared by the literal and match transitions
of salvador_optimize_forward (shrink.c lines 358-421 and 529-595): gate
against slot `gi`, find the insertion rank by cost then score, reject
rep-offset duplicates, shift and store when the rank is below `lim`.  The
literal and rep-match sites use `gi = K - 1, lim = K`; the non-rep match
site uses `gi = K - 2, lim = K - 1`. -/
def insertArrival (K gi lim : Nat) (row : ARow) (cand : SArrival) : ARow :=
  if cand.cost < (row gi).cost ∨
      (cand.cost = (row gi).cost ∧ cand.score < (row gi).score) then
    match scanLT row cand.cost cand.rep_offset (K + 1) 0 with
    | (true, _) => row
    | (false, n1) =>
        match scanEQ row cand.cost cand.score cand.rep_offset (K + 1) n1 with
        | (true, _) => row
        | (false, n) =>
            if n < lim then
              if scanEQ2 row K cand.cost cand.rep_offset (K + 1) n then row
              else
                fun k => if k < n then row k else if k = n then cand
                  else if k ≤ scanZloop row K cand.rep_offset (K + 1) n then
                    row (k - 1)
                  else row k
            else row
  else row

/-- The block-start position's row: slot 0 is the sentinel arrival
(`from_slot = -1`, the incoming rep offset), the rest empty. -/
def salvador_arrival_init (rep0 : Nat) : ARow := fun k =>
  if k = 0 then { emptyArr with from_slot := -1, rep_offset := rep0 } else emptyArr

/-- `(cost, score)` lexicographic order on arrivals. -/
def lexLe (a b : SArrival) : Prop :=
  a.cost < b.cost ∨ (a.cost = b.cost ∧ a.score ≤ b.score)

theorem lexLe_trans {a b c : SArrival} (h1 : lexLe a b) (h2 : lexLe b c) : lexLe a c := by
  rcases h1 with h1 | ⟨h1, h1'⟩ <;> rcases h2 with h2 | ⟨h2, h2'⟩
  · exact Or.inl (by omega)
  · exact Or.inl (by omega)
  · exact Or.inl (by omega)
  · exact Or.inr ⟨by omega, by omega⟩

/-- The row invariant of the claim: slots sorted by `(cost, score)`
ascending, non-empty slots forming a prefix; empty slots are exactly the
initialised empties, real slots carry in-range costs, and out-of-range reads
are empty. -/
def RowInv (K : Nat) (row : ARow) : Prop :=
  (∀ i, i + 1 < K → lexLe (row i) (row (i + 1))) ∧
  (∀ i, i + 1 < K → (row (i + 1)).from_slot ≠ 0 → (row i).from_slot ≠ 0) ∧
  (∀ i, i < K → (row i).from_slot = 0 → row i = emptyArr) ∧
  (∀ i, i < K → (row i).from_slot ≠ 0 → (row i).cost < 1073741824) ∧
  (∀ i, K ≤ i → row i = emptyArr)

theorem row_cost_mono (K : Nat) (row : ARow)
    (hsort : ∀ i, i + 1 < K → lexLe (row i) (row (i + 1))) :
    ∀ d i, i + d < K → (row i).cost ≤ (row (i + d)).cost := by
  intro d
  induction d with
  | zero => intro i _; exact le_refl _
  | succ d ih =>
      intro i hig
      have h1 := ih i (by omega)
      have h2 := hsort (i + d) (by omega)
      rcases h2 with h2 | ⟨h2, _⟩
      · have : i + d + 1 = i + (d + 1) := by omega
        rw [this] at h2
        omega
      · have : i + d + 1 = i + (d + 1) := by omega
        rw [this] at h2
        omega


theorem scanLT_spec (row : ARow) (cc ro : Nat) :
    ∀ fuel n0 t, n0 ≤ t → t < n0 + fuel → ¬ (row t).cost < cc →
      (scanLT row cc ro fuel n0).1 = true ∨
      ((scanLT row cc ro fuel n0).1 = false ∧
        n0 ≤ (scanLT row cc ro fuel n0).2 ∧
        ¬ (row (scanLT row cc ro fuel n0).2).cost < cc ∧
        ∀ k, n0 ≤ k → k < (scanLT row cc ro fuel n0).2 → (row k).cost < cc) := by
  intro fuel
  induction fuel with
  | zero => intro n0 t h1 h2 _; omega
  | succ fuel ih =>
      intro n0 t h1 h2 h3
      by_cases hc : (row n0).cost < cc
      · have hne : n0 ≠ t := by rintro rfl; exact h3 hc
        by_cases hr : (row n0).rep_offset = ro
        · left
          have hunf : scanLT row cc ro (fuel + 1) n0 = (true, n0) := by
            simp only [scanLT, if_pos hc, if_pos hr]
          rw [hunf]
        · have hunf : scanLT row cc ro (fuel + 1) n0 = scanLT row cc ro fuel (n0 + 1) := by
            simp only [scanLT, if_pos hc, if_neg hr]
          rw [hunf]
          rcases ih (n0 + 1) t (by omega) (by omega) h3 with h | ⟨ha, hb, hc2, hd⟩
          · exact Or.inl h
          · refine Or.inr ⟨ha, by omega, hc2, ?_⟩
            intro k hk1 hk2
            rcases Nat.eq_or_lt_of_le hk1 with rfl | hk3
            · exact hc
            · exact hd k hk3 hk2
      · right
        have hunf : scanLT row cc ro (fuel + 1) n0 = (false, n0) := by
          simp only [scanLT, if_neg hc]
        rw [hunf]
        exact ⟨rfl, le_refl _, hc, by intro k hk1 hk2; exact absurd hk2 (by omega)⟩

theorem scanEQ_spec (row : ARow) (cc sc ro : Nat) :
    ∀ fuel n0 t, n0 ≤ t → t < n0 + fuel → ¬ ((row t).cost = cc ∧ sc ≥ (row t).score) →
      (scanEQ row cc sc ro fuel n0).1 = true ∨
      ((scanEQ row cc sc ro fuel n0).1 = false ∧
        n0 ≤ (scanEQ row cc sc ro fuel n0).2 ∧
        ¬ ((row (scanEQ row cc sc ro fuel n0).2).cost = cc ∧
            sc ≥ (row (scanEQ row cc sc ro fuel n0).2).score) ∧
        ∀ k, n0 ≤ k → k < (scanEQ row cc sc ro fuel n0).2 →
          (row k).cost = cc ∧ sc ≥ (row k).score) := by
  intro fuel
  induction fuel with
  | zero => intro n0 t h1 h2 _; omega
  | succ fuel ih =>
      intro n0 t h1 h2 h3
      by_cases hc : (row n0).cost = cc ∧ sc ≥ (row n0).score
      · have hne : n0 ≠ t := by rintro rfl; exact h3 hc
        by_cases hr : (row n0).rep_offset = ro
        · left
          have hunf : scanEQ row cc sc ro (fuel + 1) n0 = (true, n0) := by
            simp only [scanEQ, if_pos hc, if_pos hr]
          rw [hunf]
        · have hunf : scanEQ row cc sc ro (fuel + 1) n0 = scanEQ row cc sc ro fuel (n0 + 1) := by
            simp only [scanEQ, if_pos hc, if_neg hr]
          rw [hunf]
          rcases ih (n0 + 1) t (by omega) (by omega) h3 with h | ⟨ha, hb, hc2, hd⟩
          · exact Or.inl h
          · refine Or.inr ⟨ha, by omega, hc2, ?_⟩
            intro k hk1 hk2
            rcases Nat.eq_or_lt_of_le hk1 with rfl | hk3
            · exact hc
            · exact hd k hk3 hk2
      · right
        have hunf : scanEQ row cc sc ro (fuel + 1) n0 = (false, n0) := by
          simp only [scanEQ, if_neg hc]
        rw [hunf]
        exact ⟨rfl, le_refl _, hc, by intro k hk1 hk2; exact absurd hk2 (by omega)⟩

theorem scanZloop_spec (row : ARow) (K ro : Nat) :
    ∀ fuel n0, n0 ≤ K - 1 → K - 1 ≤ n0 + fuel →
      n0 ≤ scanZloop row K ro fuel n0 ∧ scanZloop row K ro fuel n0 ≤ K - 1 ∧
      ∀ k, n0 ≤ k → k < scanZloop row K ro fuel n0 → (row k).from_slot ≠ 0 := by
  intro fuel
  induction fuel with
  | zero =>
      intro n0 h1 h2
      have hunf : scanZloop row K ro 0 n0 = n0 := rfl
      rw [hunf]
      exact ⟨le_refl _, h1, by intro k hk1 hk2; exact absurd hk2 (by omega)⟩
  | succ fuel ih =>
      intro n0 h1 h2
      by_cases hc : n0 < K - 1 ∧ (row n0).from_slot ≠ 0
      · by_cases hr : (row n0).rep_offset = ro
        · have hunf : scanZloop row K ro (fuel + 1) n0 = n0 := by
            simp only [scanZloop, if_pos hc, if_pos hr]
          rw [hunf]
          exact ⟨le_refl _, h1, by intro k hk1 hk2; exact absurd hk2 (by omega)⟩
        · have hunf : scanZloop row K ro (fuel + 1) n0 = scanZloop row K ro fuel (n0 + 1) := by
            simp only [scanZloop, if_pos hc, if_neg hr]
          rw [hunf]
          obtain ⟨ha, hb, hd⟩ := ih (n0 + 1) (by omega) (by omega)
          refine ⟨by omega, hb, ?_⟩
          intro k hk1 hk2
          rcases Nat.eq_or_lt_of_le hk1 with rfl | hk3
          · exact hc.2
          · exact hd k hk3 hk2
      · have hunf : scanZloop row K ro (fuel + 1) n0 = n0 := by
          simp only [scanZloop, if_neg hc]
        rw [hunf]
        exact ⟨le_refl _, h1, by intro k hk1 hk2; exact absurd hk2 (by omega)⟩


theorem insertArrival_preserves (K gi lim : Nat) (row : ARow) (cand : SArrival)
    (hgi : gi < K) (hinv : RowInv K row) (hfs : cand.from_slot ≠ 0)
    (hcost : cand.cost < 1073741824) :
    RowInv K (insertArrival K gi lim row cand) := by
  obtain ⟨hsort, hdense, hempty, hrcost, hout⟩ := hinv
  rw [insertArrival]
  by_cases hgate : cand.cost < (row gi).cost ∨
      (cand.cost = (row gi).cost ∧ cand.score < (row gi).score)
  · rw [if_pos hgate]
    have hstopLT : ¬ (row gi).cost < cand.cost := by
      rcases hgate with h | ⟨h1, -⟩ <;> omega
    have hLT := scanLT_spec row cand.cost cand.rep_offset (K + 1) 0 gi
      (by omega) (by omega) hstopLT
    cases hs1 : scanLT row cand.cost cand.rep_offset (K + 1) 0 with
    | mk b1 n1 =>
    rw [hs1] at hLT
    dsimp only at hLT
    cases b1 with
    | true => exact ⟨hsort, hdense, hempty, hrcost, hout⟩
    | false =>
      dsimp only
      rcases hLT with h | ⟨-, -, hstop1, hreg1⟩
      · simp at h
      have hn1gi : n1 ≤ gi := by
        by_contra hcon
        push_neg at hcon
        exact hstopLT (hreg1 gi (Nat.zero_le _) hcon)
      have hstopEQ : ¬ ((row gi).cost = cand.cost ∧ cand.score ≥ (row gi).score) := by
        rintro ⟨he, hs⟩
        rcases hgate with h | ⟨h1, h2⟩ <;> omega
      have hEQ := scanEQ_spec row cand.cost cand.score cand.rep_offset (K + 1) n1 gi
        hn1gi (by omega) hstopEQ
      cases hs2 : scanEQ row cand.cost cand.score cand.rep_offset (K + 1) n1 with
      | mk b2 n =>
      rw [hs2] at hEQ
      dsimp only at hEQ
      cases b2 with
      | true => exact ⟨hsort, hdense, hempty, hrcost, hout⟩
      | false =>
        rcases hEQ with h | ⟨-, hn1n, hstop2, hreg2⟩
        · simp at h
        have hngi : n ≤ gi := by
          by_contra hcon
          push_neg at hcon
          exact hstopEQ (hreg2 gi hn1gi hcon)
        dsimp only
        by_cases hlim : n < lim
        · rw [if_pos hlim]
          cases hs3 : scanEQ2 row K cand.cost cand.rep_offset (K + 1) n with
          | true =>
            rw [if_pos rfl]
            exact ⟨hsort, hdense, hempty, hrcost, hout⟩
          | false =>
            rw [if_neg Bool.false_ne_true]
            obtain ⟨hnz, hzK, hregZ⟩ :=
              scanZloop_spec row K cand.rep_offset (K + 1) n (by omega) (by omega)
            set z : Nat := scanZloop row K cand.rep_offset (K + 1) n with hz
            have hA : ∀ k, k < n → lexLe (row k) cand := by
              intro k hk
              by_cases hk1 : k < n1
              · exact Or.inl (hreg1 k (Nat.zero_le _) hk1)
              · have hr2 := hreg2 k (by omega) hk
                exact Or.inr ⟨hr2.1, hr2.2⟩
            have h2m := row_cost_mono K row hsort (n - n1) n1 (by omega)
            rw [show n1 + (n - n1) = n from by omega] at h2m
            have hccn : cand.cost ≤ (row n).cost :=
              le_trans (Nat.le_of_not_lt hstop1) h2m
            have hB : lexLe cand (row n) := by
              by_cases he : cand.cost = (row n).cost
              · refine Or.inr ⟨he, ?_⟩
                by_contra hs
                push_neg at hs
                exact hstop2 ⟨he.symm, by omega⟩
              · exact Or.inl (by omega)
            have hD : ∀ k, k < n → (row k).from_slot ≠ 0 := by
              intro k hk hk0
              have he := hempty k (by omega) hk0
              have hAk := hA k hk
              rw [he] at hAk
              rcases hAk with h | ⟨h, -⟩
              · simp [emptyArr] at h; omega
              · simp [emptyArr] at h; omega
            set F : ARow := (fun k => if k < n then row k else if k = n then cand
              else if k ≤ z then row (k - 1) else row k) with hF
            have hval_lt : ∀ k, k < n → F k = row k := by
              intro k hk
              rw [hF]; dsimp only; rw [if_pos hk]
            have hval_n : F n = cand := by
              rw [hF]; dsimp only; rw [if_neg (lt_irrefl n), if_pos rfl]
            have hval_mid : ∀ k, n < k → k ≤ z → F k = row (k - 1) := by
              intro k h1 h2
              rw [hF]; dsimp only; rw [if_neg (by omega), if_neg (by omega), if_pos h2]
            have hval_gt : ∀ k, z < k → F k = row k := by
              intro k h1
              rw [hF]; dsimp only; rw [if_neg (by omega), if_neg (by omega), if_neg (by omega)]
            refine ⟨?_, ?_, ?_, ?_, ?_⟩
            · intro i hi
              by_cases h1 : i + 1 < n
              · rw [hval_lt i (by omega), hval_lt (i + 1) h1]
                exact hsort i hi
              · by_cases h2 : i + 1 = n
                · rw [hval_lt i (by omega), h2, hval_n]
                  exact hA i (by omega)
                · by_cases h3 : i = n
                  · rw [h3, hval_n]
                    by_cases h4 : n + 1 ≤ z
                    · rw [hval_mid (n + 1) (by omega) h4,
                        show n + 1 - 1 = n from rfl]
                      exact hB
                    · rw [hval_gt (n + 1) (by omega)]
                      exact lexLe_trans hB (hsort n (by omega))
                  · have hni : n < i := by omega
                    by_cases h4 : i + 1 ≤ z
                    · rw [hval_mid i (by omega) (by omega),
                        hval_mid (i + 1) (by omega) h4,
                        show i + 1 - 1 = i from rfl]
                      have e1 := hsort (i - 1) (by omega)
                      rw [show i - 1 + 1 = i from by omega] at e1
                      exact e1
                    · by_cases h5 : i ≤ z
                      · rw [hval_mid i (by omega) h5, hval_gt (i + 1) (by omega)]
                        have e1 := hsort (i - 1) (by omega)
                        rw [show i - 1 + 1 = i from by omega] at e1
                        exact lexLe_trans e1 (hsort i hi)
                      · rw [hval_gt i (by omega), hval_gt (i + 1) (by omega)]
                        exact hsort i hi
            · intro i hi hfs1
              by_cases h1 : i < n
              · rw [hval_lt i h1]
                exact hD i h1
              · by_cases h2 : i = n
                · rw [h2, hval_n]
                  exact hfs
                · by_cases h3 : i ≤ z
                  · rw [hval_mid i (by omega) h3]
                    exact hregZ (i - 1) (by omega) (by omega)
                  · rw [hval_gt i (by omega)]
                    rw [hval_gt (i + 1) (by omega)] at hfs1
                    exact hdense i hi hfs1
            · intro i hiK h0
              by_cases h1 : i < n
              · rw [hval_lt i h1] at h0 ⊢
                exact hempty i hiK h0
              · by_cases h2 : i = n
                · rw [h2, hval_n] at h0
                  exact absurd h0 hfs
                · by_cases h3 : i ≤ z
                  · rw [hval_mid i (by omega) h3] at h0 ⊢
                    exact hempty (i - 1) (by omega) h0
                  · rw [hval_gt i (by omega)] at h0 ⊢
                    exact hempty i hiK h0
            · intro i hiK hfs1
              by_cases h1 : i < n
              · rw [hval_lt i h1] at hfs1 ⊢
                exact hrcost i hiK hfs1
              · by_cases h2 : i = n
                · rw [h2, hval_n]
                  exact hcost
                · by_cases h3 : i ≤ z
                  · rw [hval_mid i (by omega) h3] at hfs1 ⊢
                    exact hrcost (i - 1) (by omega) hfs1
                  · rw [hval_gt i (by omega)] at hfs1 ⊢
                    exact hrcost i hiK hfs1
            · intro i hKi
              rw [hval_gt i (by omega)]
              exact hout i hKi
        · rw [if_neg hlim]
          exact ⟨hsort, hdense, hempty, hrcost, hout⟩
  · rw [if_neg hgate]
    exact ⟨hsort, hdense, hempty, hrcost, hout⟩


theorem emptyRow_inv (K : Nat) : RowInv K (fun _ => emptyArr) := by
  refine ⟨?_, ?_, ?_, ?_, ?_⟩
  · intro i _; exact Or.inr ⟨rfl, le_refl _⟩
  · intro i _ h; exact h
  · intro i _ _; rfl
  · intro i _ h; exact absurd rfl h
  · intro i _; rfl

theorem foldl_insert_inv (K : Nat) :
    ∀ (reqs : List (Nat × Nat × SArrival)) (row : ARow), RowInv K row →
      (∀ r ∈ reqs, r.1 < K ∧ r.2.2.from_slot ≠ 0 ∧ r.2.2.cost < 1073741824) →
      RowInv K (reqs.foldl (fun acc r => insertArrival K r.1 r.2.1 acc r.2.2) row) := by
  intro reqs
  induction reqs with
  | nil => intro row hrow _; exact hrow
  | cons r rs ih =>
      intro row hrow hall
      have hr := hall r (List.mem_cons_self r rs)
      exact ih (insertArrival K r.1 r.2.1 row r.2.2)
        (insertArrival_preserves K r.1 r.2.1 row r.2.2 hr.1 hrow hr.2.1 hr.2.2)
        (fun q hq => hall q (List.mem_cons_of_mem r hq))

/-- C8: throughout the forward parse, every arrival row reachable from the
freshly initialised (all-empty) row by any sequence of slot insertions — with
each insertion gating against an in-range slot, as at the literal, match and
rep-match transition sites — keeps its non-empty arrivals in a prefix of the
slots, sorted by `(cost, score)` ascending; the block-start sentinel row is
likewise sorted and dense; and in any row satisfying the invariant, of two
arrivals with equal `rep_offset` the one at the lower slot index has a cost
less than or equal to the other's. -/
theorem C8_arrival_slots_sorted_dense (K : Nat) :
    (∀ reqs : List (Nat × Nat × SArrival),
        (∀ r ∈ reqs, r.1 < K ∧ r.2.2.from_slot ≠ 0 ∧ r.2.2.cost < 1073741824) →
        RowInv K (reqs.foldl (fun acc r => insertArrival K r.1 r.2.1 acc r.2.2)
          (fun _ => emptyArr))) ∧
    (∀ rep0 : Nat,
        (∀ i : Nat, lexLe (salvador_arrival_init rep0 i) (salvador_arrival_init rep0 (i + 1))) ∧
        (∀ i : Nat, (salvador_arrival_init rep0 (i + 1)).from_slot ≠ 0 →
          (salvador_arrival_init rep0 i).from_slot ≠ 0)) ∧
    (∀ row : ARow, RowInv K row → ∀ i j, i ≤ j → j < K →
        (row i).rep_offset = (row j).rep_offset → (row i).cost ≤ (row j).cost) := by
  refine ⟨?_, ?_, ?_⟩
  · intro reqs hall
    exact foldl_insert_inv K reqs (fun _ => emptyArr) (emptyRow_inv K) hall
  · intro rep0
    constructor
    · intro i
      by_cases h : i = 0
      · subst h
        exact Or.inr ⟨rfl, le_refl _⟩
      · have h1 : salvador_arrival_init rep0 i = emptyArr := by
          simp [salvador_arrival_init, h]
        have h2 : salvador_arrival_init rep0 (i + 1) = emptyArr := by
          simp [salvador_arrival_init]
        rw [h1, h2]
        exact Or.inr ⟨rfl, le_refl _⟩
    · intro i hfs1
      by_cases h : i = 0
      · subst h
        have he : (salvador_arrival_init rep0 0).from_slot = -1 := rfl
        rw [he]
        decide
      · have h2 : salvador_arrival_init rep0 (i + 1) = emptyArr := by
          simp [salvador_arrival_init]
        rw [h2] at hfs1
        exact absurd rfl hfs1
  · intro row hrow i j hij hjK hrep
    have hm := row_cost_mono K row hrow.1 (j - i) i (by omega)
    rw [show i + (j - i) = j from by omega] at hm
    exact hm

def c8Row : ARow :=
  [((2 : Nat), (3 : Nat), (⟨10, 0, 1, 5, 0, 0, 0, 3⟩ : SArrival))].foldl
    (fun acc r => insertArrival 3 r.1 r.2.1 acc r.2.2) (fun _ => emptyArr)

theorem C8_arrival_slots_sorted_dense_witness : (c8Row 1).cost ≤ (c8Row 2).cost :=
  (C8_arrival_slots_sorted_dense 3).2.2 c8Row
    ((C8_arrival_slots_sorted_dense 3).1 [(2, 3, ⟨10, 0, 1, 5, 0, 0, 0, 3⟩)]
      (by
        intro r hr
        rw [List.mem_singleton] at hr
        subst hr
        exact ⟨by decide, by decide, by decide⟩))
    1 2 (by omega) (by omega) (by rfl)

end Salvador
